import Mathlib

/-!
# Cycles image merger: `intern/cycles/session/merge.cpp`

A shallow embedding of the channel classification and sample-weighted merge
engine, followed by theorems about it.

Conventions of the embedding:
* `std::string` is `List Char`; string literals are written `"...".toList`.
* `float` pixel values are rationals (`ℚ`). The definitions that carry the names of
  the source compute with them exactly, and size the buffers by the number of pixels
  `width * height`: the theorems about them are about exact arithmetic on images
  whose number of pixels the source computes without overflow.
* The section *Machine arithmetic* repeats the sample accumulator and the pixel merge
  with every `float` operation rounded to IEEE 754 binary32 and with the `int` product
  `in_spec.width * in_spec.height` of `read_layer_samples` wrapped to 32 bits
  (definitions with the suffix `_machine`).
* `int` sample counts are `Int`; additions on them wrap to 32 bits (`wrap32`).
* `std::map<string, _>` is a key-sorted association list, `std::unordered_map`
  an association list in insertion order (only looked up by key).
* functions that report failure through `bool` + `error` return `Except`.
-/

namespace CyclesMerge

/-! ## Data model -/

/-- The enum `MergeChannelOp`. -/
inductive MergeChannelOp where
  | MERGE_CHANNEL_NOP
  | MERGE_CHANNEL_COPY
  | MERGE_CHANNEL_SUM
  | MERGE_CHANNEL_AVERAGE
  | MERGE_CHANNEL_SAMPLES
  deriving DecidableEq

open MergeChannelOp

/-- The struct `MergeImagePass`; a `TypeDesc` is represented by a numeric code. -/
structure MergeImagePass where
  /-- Full channel name. -/
  channel_name : List Char
  /-- Pass name. -/
  name : List Char
  /-- Channel format in the file. -/
  format : Nat
  /-- Type of operation to perform when merging. -/
  op : MergeChannelOp
  /-- Offset of layer channels in input image. -/
  offset : Nat
  /-- Offset of layer channels in merged image. -/
  merge_offset : Nat
  deriving DecidableEq

/-- The struct `SampleCount`. -/
structure SampleCount where
  /-- Total number of samples. -/
  total : Int
  /-- Buffer for actual number of samples rendered per pixel. -/
  per_pixel : List ℚ
  deriving DecidableEq

/-- The struct `MergeImageLayer`. -/
structure MergeImageLayer where
  /-- Layer name. -/
  name : List Char
  /-- Passes. -/
  passes : List MergeImagePass
  /-- Sample amount that was used for rendering this layer. -/
  samples : Int
  /-- Indicates if this layer has "Debug Sample Count" pass. -/
  has_sample_pass : Bool
  /-- Offset of the "Debug Sample Count" pass if it exists. -/
  sample_pass_offset : Nat
  deriving DecidableEq

/-- Modelled from the spec: a named metadata attribute of the Image Source
interface (OpenImageIO `ParamValue`, not under src/). `is_string` stands for
`type().basetype == TypeDesc::STRING`, `arraylen` for `type().arraylen`, and
`value` is the string payload. -/
structure ParamValue where
  name : List Char
  is_string : Bool
  arraylen : Nat
  value : List Char
  deriving DecidableEq

/-- Modelled from the spec: the layout record of the Image Source interface
(OpenImageIO `ImageSpec`, not under src/): width, height, depth, numeric format,
ordered channel names, ordered per-channel formats, deep flag and the named
metadata attributes. -/
structure ImageSpec where
  width : Nat
  height : Nat
  depth : Nat
  format : Nat
  deep : Bool
  nchannels : Nat
  channelnames : List (List Char)
  channelformats : List Nat
  extra_attribs : List ParamValue
  deriving DecidableEq

/-- Modelled from the spec: an opened Image Source handle (OpenImageIO
`ImageInput`, not under src/): its layout and the float contents of the file,
interleaved by channel (`none` when reading pixels fails). -/
structure ImageInput where
  spec : ImageSpec
  data : Option (List ℚ)
  deriving DecidableEq

/-- The struct `MergeImage`; the field `in` is called `inp`. -/
structure MergeImage where
  /-- OIIO file handle. -/
  inp : ImageInput
  /-- Image file path. -/
  filepath : List Char
  /-- Render layers. -/
  layers : List MergeImageLayer
  deriving DecidableEq

/-- Modelled from the spec: the two conversions of util/time (not under src/)
between the human-readable time representation and seconds, taken as parameters. -/
structure TimeUtil where
  time_human_readable_to_seconds : List Char → ℚ
  time_human_readable_from_seconds : ℚ → List Char

/-- Two's complement wrap of a value to the 32-bit `int` range. -/
def wrap32 (x : Int) : Int :=
  (x + 2147483648) % 4294967296 - 2147483648

/-- A value-initialised `MergeImageLayer`, as `std::map::operator[]` creates it. -/
def MergeImageLayer.empty : MergeImageLayer :=
  { name := [], passes := [], samples := 0, has_sample_pass := false, sample_pass_offset := 0 }

/-! ## Strings -/

/-- Modelled from the spec: `string_startswith` (util/string) is not under src/;
the classifier is "name-prefix matched", so this is the test that `start` is an
initial segment of `s`. -/
def string_startswith (s start : List Char) : Bool :=
  start.isPrefixOf s

/-- Modelled from the spec: `string_endswith` (util/string) is not under src/;
the attribute pattern is `<namespace>.<layer>.samples`, so this is the test that
`tail` is a final segment of `s`. -/
def string_endswith (s tail : List Char) : Bool :=
  tail.isSuffixOf s

/-- The call `s.substr(pos, n)` of `std::string`, for `pos ≤ s.size()`. -/
def substr (s : List Char) (pos n : Nat) : List Char :=
  (s.drop pos).take n

/-- The call `in.rfind(".")`: the position of the last dot, `none` for `npos`. -/
def rfind_dot : List Char → Option Nat
  | [] => none
  | c :: cs =>
    match rfind_dot cs with
    | some pos => some (pos + 1)
    | none => if c = '.' then some 0 else none

/-! ## Channel parsing -/

/-- The function `parse_channel_operation`. -/
def parse_channel_operation (pass_name : List Char) : MergeChannelOp :=
  if pass_name = "Depth".toList ∨ pass_name = "IndexMA".toList ∨
      pass_name = "IndexOB".toList ∨ string_startswith pass_name "Crypto".toList then
    MERGE_CHANNEL_COPY
  else if string_startswith pass_name "Debug BVH".toList ∨
      string_startswith pass_name "Debug Ray".toList ∨
      string_startswith pass_name "Debug Render Time".toList then
    MERGE_CHANNEL_SUM
  else if string_startswith pass_name "Debug Sample Count".toList then
    MERGE_CHANNEL_SAMPLES
  else
    MERGE_CHANNEL_AVERAGE

/-- The function `split_last_dot`: `none` when it returns false, otherwise the new
value of `in` (the part before the last dot) and `suffix` (the part after it). -/
def split_last_dot (inp : List Char) : Option (List Char × List Char) :=
  match rfind_dot inp with
  | none => none
  | some pos => some (substr inp 0 pos, inp.drop (pos + 1))

/-- The function `parse_channel_name`: `none` when it returns false, otherwise
`(renderlayer, pass, channel)`. On failure the caller's `pass` is left untouched:
`split_last_dot` assigns its suffix only when it finds a dot. -/
def parse_channel_name (name : List Char) (multiview_channels : Bool) :
    Option (List Char × List Char × List Char) :=
  match split_last_dot name with
  | none => none
  | some (name1, channel) =>
    match (if multiview_channels then split_last_dot name1 else some (name1, [])) with
    | none => none
    | some (name2, view) =>
      match split_last_dot name2 with
      | none => none
      | some (name3, pass) =>
        let renderlayer := name3
        some (if multiview_channels then renderlayer ++ (".".toList ++ view) else renderlayer,
          pass, channel)

/-! ## Image Source interface -/

/-- Modelled from the spec: `ImageSpec::find_attribute` (OpenImageIO), the first
attribute carrying the given name. -/
def ImageSpec.find_attribute (spec : ImageSpec) (name : List Char) : Option ParamValue :=
  spec.extra_attribs.find? (fun p => p.name = name)

/-- Modelled from the spec: `ImageSpec::get_string_attribute` (OpenImageIO), the
string value of the named attribute, or the default when there is none. -/
def ImageSpec.get_string_attribute (spec : ImageSpec) (name defaultval : List Char) :
    List Char :=
  match spec.find_attribute name with
  | some p => if p.is_string then p.value else defaultval
  | none => defaultval

/-- Replace the first attribute called `name` by a string attribute of value `v`,
or append one when there is none. -/
def set_attribute (name v : List Char) : List ParamValue → List ParamValue
  | [] => [{ name := name, is_string := true, arraylen := 0, value := v }]
  | p :: ps =>
    if p.name = name then { name := name, is_string := true, arraylen := 0, value := v } :: ps
    else p :: set_attribute name v ps

/-- Modelled from the spec: `ImageSpec::attribute(name, TypeDesc::STRING, value)`
(OpenImageIO), which sets the named attribute without creating a duplicate. -/
def ImageSpec.attribute (spec : ImageSpec) (name v : List Char) : ImageSpec :=
  { spec with extra_attribs := set_attribute name v spec.extra_attribs }

/-- The `clamp(a, low, high)` of OpenImageIO. -/
def clamp (a low high : Nat) : Nat :=
  if low ≤ a then (if a ≤ high then a else high) else low

/-- Modelled from the spec: `ImageInput::read_image(0, 0, chbegin, chend,
TypeDesc::FLOAT, data)` (OpenImageIO), which yields the channels from `chbegin`
up to `clamp(chend, chbegin + 1, nchannels)` of every pixel as floats, interleaved
by channel; `none` when the read fails. -/
def ImageInput.read_image (inp : ImageInput) (chbegin chend : Nat) : Option (List ℚ) :=
  match inp.data with
  | none => none
  | some d =>
    let nchans := clamp chend (chbegin + 1) inp.spec.nchannels - chbegin
    some ((List.range (inp.spec.width * inp.spec.height * nchans)).map
      (fun k => d.getD (k / nchans * inp.spec.nchannels + chbegin + k % nchans) 0))

/-- The `isspace` of the C locale. -/
def is_space (c : Char) : Bool :=
  c = ' ' ∨ c = '\t' ∨ c = '\n' ∨ c = '\r' ∨ c.toNat = 11 ∨ c.toNat = 12

/-- Value of a run of decimal digits. -/
def digits_value (ds : List Char) : Int :=
  ds.foldl (fun acc d => 10 * acc + ((d.toNat : Int) - 48)) 0

/-- The call `sscanf(s, "%d", &x)` of the C library: the return value and the new
content of `x`. Leading white space is skipped and an optional sign is followed by
decimal digits; the return value is `-1` (`EOF`) when the input ends before
anything could be matched, `0` on a matching failure, else `1`. A value outside the
`int` range (undefined in C) is wrapped. -/
def sscanf_d (s : List Char) (x : Int) : Int × Int :=
  match s.dropWhile is_space with
  | [] => (-1, x)
  | c :: cs =>
    let body := if c = '-' ∨ c = '+' then cs else c :: cs
    let ds := body.takeWhile Char.isDigit
    if ds = [] then (0, x)
    else (1, wrap32 (if c = '-' then - digits_value ds else digits_value ds))

/-- The call `std::to_string(int)`: the decimal representation. -/
def to_string (n : Int) : List Char :=
  (toString n).toList

/-! ## Layer model: `parse_channels` -/

/-- The order of `std::string`, by which `std::map<string, _>` sorts its keys. -/
def str_lt : List Char → List Char → Bool
  | [], [] => false
  | [], _ :: _ => true
  | _ :: _, [] => false
  | a :: as, b :: bs => a < b ∨ (a = b ∧ str_lt as bs)

/-- The statement `file_layers[layername].passes.push_back(pass)` on the sorted
map `file_layers`. -/
def map_push_pass (layername : List Char) (pass : MergeImagePass) :
    List (List Char × MergeImageLayer) → List (List Char × MergeImageLayer)
  | [] => [(layername, { MergeImageLayer.empty with passes := [pass] })]
  | (k, v) :: rest =>
    if layername = k then (k, { v with passes := v.passes ++ [pass] }) :: rest
    else if str_lt layername k then
      (layername, { MergeImageLayer.empty with passes := [pass] }) :: (k, v) :: rest
    else (k, v) :: map_push_pass layername pass rest

/-- The flag `multiview_channels` of `parse_channels`. -/
def multiview_channels (in_spec : ImageSpec) : Bool :=
  match in_spec.find_attribute "multiView".toList with
  | some multiview => multiview.is_string ∧ 2 ≤ multiview.arraylen
  | none => false

/-- The body of the channel loop of `parse_channels` for channel `i`: the pass and
the name of the layer it is added to. -/
def parse_channel (in_spec : ImageSpec) (i : Nat) : List Char × MergeImagePass :=
  let channel_name := in_spec.channelnames.getD i []
  let format :=
    if 0 < in_spec.channelformats.length then in_spec.channelformats.getD i 0
    else in_spec.format
  match parse_channel_name channel_name (multiview_channels in_spec) with
  | some (layername, pass_name, _) =>
    (layername,
      { channel_name := channel_name, name := pass_name, format := format,
        op := parse_channel_operation pass_name, offset := i, merge_offset := i })
  | none =>
    ([],
      { channel_name := channel_name, name := [], format := format,
        op := parse_channel_operation channel_name, offset := i, merge_offset := i })

/-- The channel loop of `parse_channels`, for the channels `i` to `i + n - 1`. -/
def parse_channel_loop (in_spec : ImageSpec) :
    Nat → Nat → List (List Char × MergeImageLayer) → List (List Char × MergeImageLayer)
  | 0, _, file_layers => file_layers
  | n + 1, i, file_layers =>
    parse_channel_loop in_spec n (i + 1)
      (map_push_pass (parse_channel in_spec i).1 (parse_channel in_spec i).2 file_layers)

/-- The body of the attribute loop of `parse_channels` that names a single unnamed
layer. The length `end - start` is computed in `size_t`. -/
def rename_layer_step (file_layers : List (List Char × MergeImageLayer)) (attrib : ParamValue) :
    List (List Char × MergeImageLayer) :=
  let attrib_name := attrib.name
  if string_startswith attrib_name "cycles.".toList ∧
      string_endswith attrib_name ".samples".toList then
    let start : Nat := 7
    let stop : Nat := attrib_name.length - 8
    let len : Nat := (((stop : Int) - (start : Int)) % 18446744073709551616).toNat
    let layername := substr attrib_name start len
    let layer := (file_layers.lookup []).getD MergeImageLayer.empty
    [(layername, layer)]
  else file_layers

/-- The renaming of a single unnamed layer in `parse_channels`. -/
def rename_single_layer (in_spec : ImageSpec) (file_layers : List (List Char × MergeImageLayer)) :
    List (List Char × MergeImageLayer) :=
  if file_layers.length = 1 ∧ (file_layers.lookup []).isSome then
    in_spec.extra_attribs.foldl rename_layer_step file_layers
  else file_layers

/-- The block "Determine number of samples from metadata" of the layer loop of
`parse_channels`: the new value of `layer.samples`, or the error it returns with. -/
def resolve_samples (in_spec : ImageSpec) (name : List Char) (layer : MergeImageLayer) :
    Except (List Char) Int :=
  if layer.name = [] then Except.ok 1
  else if layer.samples < 1 then
    let sample_string :=
      in_spec.get_string_attribute ("cycles.".toList ++ name ++ ".samples".toList) []
    if sample_string ≠ [] then
      if (sscanf_d sample_string layer.samples).1 = 0 then
        Except.error ("Failed to parse samples metadata: ".toList ++ sample_string)
      else Except.ok (sscanf_d sample_string layer.samples).2
    else Except.ok layer.samples
  else Except.ok layer.samples

/-- The body of the layer loop of `parse_channels` for one map entry. -/
def finish_layer (in_spec : ImageSpec) (name : List Char) (layer0 : MergeImageLayer) :
    Except (List Char) MergeImageLayer :=
  let layer : MergeImageLayer := { layer0 with name := name, samples := 0 }
  match resolve_samples in_spec name layer with
  | Except.error e => Except.error e
  | Except.ok samples =>
    if samples < 1 then
      Except.error ("No sample number specified in the file for layer ".toList ++ name ++
        " or on the command line".toList)
    else
      let sample_pass_it :=
        layer.passes.findIdx (fun pass => pass.name = "Debug Sample Count".toList)
      if sample_pass_it ≠ layer.passes.length then
        Except.ok { layer with samples := samples, has_sample_pass := true,
                               sample_pass_offset := sample_pass_it }
      else
        Except.ok { layer with samples := samples, has_sample_pass := false }

/-- The layer loop of `parse_channels` over the entries of `file_layers`. -/
def finish_layers (in_spec : ImageSpec) :
    List (List Char × MergeImageLayer) → List MergeImageLayer →
      Except (List Char) (List MergeImageLayer)
  | [], layers => Except.ok layers
  | (name, layer) :: rest, layers =>
    match finish_layer in_spec name layer with
    | Except.error e => Except.error e
    | Except.ok l => finish_layers in_spec rest (layers ++ [l])

/-- The layers of the file before their sample counts are resolved: the channels
grouped by layer name, and a single unnamed layer renamed. -/
def file_layers (in_spec : ImageSpec) : List (List Char × MergeImageLayer) :=
  rename_single_layer in_spec (parse_channel_loop in_spec in_spec.nchannels 0 [])

/-- The function `parse_channels`. -/
def parse_channels (in_spec : ImageSpec) : Except (List Char) (List MergeImageLayer) :=
  finish_layers in_spec (file_layers in_spec) []

/-! ## Opening the images -/

/-- The body of the file loop of `open_images`; `fs` is `ImageInput::open`. -/
def open_image (fs : List Char → Option ImageInput) (filepath : List Char)
    (images : List MergeImage) : Except (List Char) (List MergeImage) :=
  match fs filepath with
  | none => Except.error ("Couldn't open file: ".toList ++ filepath)
  | some inp =>
    match parse_channels inp.spec with
    | Except.error e => Except.error e
    | Except.ok layers =>
      if layers.length = 0 then
        Except.error "Could not find a render layer for merging".toList
      else if inp.spec.deep then
        Except.error "Merging deep images not supported.".toList
      else
        match images with
        | [] => Except.ok [{ inp := inp, filepath := filepath, layers := layers }]
        | base :: _ =>
          if base.inp.spec.width ≠ inp.spec.width ∨ base.inp.spec.height ≠ inp.spec.height ∨
              base.inp.spec.depth ≠ inp.spec.depth ∨ base.inp.spec.format ≠ inp.spec.format ∨
              base.inp.spec.deep ≠ inp.spec.deep then
            Except.error "Images do not have matching size and data layout.".toList
          else
            Except.ok (images ++ [{ inp := inp, filepath := filepath, layers := layers }])

/-- The function `open_images`, started with the content of `images`. -/
def open_images (fs : List Char → Option ImageInput) :
    List (List Char) → List MergeImage → Except (List Char) (List MergeImage)
  | [], images => Except.ok images
  | filepath :: rest, images =>
    match open_image fs filepath images with
    | Except.error e => Except.error e
    | Except.ok images1 => open_images fs rest images1

/-! ## Sample accumulator: `read_layer_samples` -/

/-- The body of the layer loop of `read_layer_samples` on the value
`current_layer_samples` of the map entry, which is fresh when `is_new` (the
variable `initialize`) holds. This is the loop in exact arithmetic: the sums and
products of `float`s are those of the rationals, and the buffers hold
`in_spec.width * in_spec.height` values, the number of pixels, which is what the `int`
product of the source is for images of fewer than 2^31 pixels. The loop as the
machine computes it, with `float` rounding and the `int` product, is
`accumulate_layer_machine`. -/
def accumulate_layer (inp : ImageInput) (layer : MergeImageLayer) (is_new : Bool)
    (current : SampleCount) : SampleCount :=
  let in_spec := inp.spec
  let current_layer_samples : SampleCount :=
    if is_new then { total := 0, per_pixel := List.replicate (in_spec.width * in_spec.height) 0 }
    else current
  let per_pixel :=
    if layer.has_sample_pass then
      let sample_count_buffer :=
        (inp.read_image layer.sample_pass_offset layer.sample_pass_offset).getD
          (List.replicate (in_spec.width * in_spec.height) 0)
      (List.range current_layer_samples.per_pixel.length).map (fun i =>
        current_layer_samples.per_pixel.getD i 0 +
          sample_count_buffer.getD i 0 * (layer.samples : ℚ))
    else
      (List.range current_layer_samples.per_pixel.length).map (fun i =>
        current_layer_samples.per_pixel.getD i 0 + (layer.samples : ℚ))
  { total := wrap32 (current_layer_samples.total + layer.samples), per_pixel := per_pixel }

/-- Assignment to the entry of key `k` of an unordered map that holds the key. -/
def umap_set (k : List Char) (v : SampleCount) :
    List (List Char × SampleCount) → List (List Char × SampleCount)
  | [] => []
  | (k1, v1) :: rest => if k = k1 then (k1, v) :: rest else (k1, v1) :: umap_set k v rest

/-- One iteration of the layer loop of `read_layer_samples`. -/
def read_layer_samples_layer (inp : ImageInput) (layer_samples : List (List Char × SampleCount))
    (layer : MergeImageLayer) : List (List Char × SampleCount) :=
  match layer_samples.lookup layer.name with
  | none =>
    layer_samples ++ [(layer.name, accumulate_layer inp layer true { total := 0, per_pixel := [] })]
  | some current => umap_set layer.name (accumulate_layer inp layer false current) layer_samples

/-- One iteration of the image loop of `read_layer_samples`. -/
def read_layer_samples_image (layer_samples : List (List Char × SampleCount))
    (image : MergeImage) : List (List Char × SampleCount) :=
  image.layers.foldl (read_layer_samples_layer image.inp) layer_samples

/-- The function `read_layer_samples`, started with the content of `layer_samples`. -/
def read_layer_samples (images : List MergeImage)
    (layer_samples : List (List Char × SampleCount)) : List (List Char × SampleCount) :=
  images.foldl read_layer_samples_image layer_samples

/-! ## Metadata merger: `merge_channels_metadata` -/

/-- The body of the pass loop of `merge_channels_metadata`. -/
def merge_channel_pass (out_spec : ImageSpec) (pass : MergeImagePass) :
    ImageSpec × MergeImagePass :=
  let index := out_spec.channelnames.findIdx (fun channel_name => pass.channel_name = channel_name)
  if index ≠ out_spec.channelnames.length then
    (out_spec,
      { pass with merge_offset := index,
                  op := if pass.op = MERGE_CHANNEL_COPY then MERGE_CHANNEL_NOP else pass.op })
  else
    ({ out_spec with channelnames := out_spec.channelnames ++ [pass.channel_name],
                     channelformats := out_spec.channelformats ++ [pass.format],
                     nchannels := out_spec.nchannels + 1 },
      { pass with merge_offset := out_spec.nchannels })

/-- The pass loop of `merge_channels_metadata` over the passes of one layer. -/
def merge_channel_passes (out_spec : ImageSpec) :
    List MergeImagePass → ImageSpec × List MergeImagePass
  | [] => (out_spec, [])
  | pass :: rest =>
    let r := merge_channel_pass out_spec pass
    let rs := merge_channel_passes r.1 rest
    (rs.1, r.2 :: rs.2)

/-- The layer loop of `merge_channels_metadata` over the layers of one image. -/
def merge_channel_layers (out_spec : ImageSpec) :
    List MergeImageLayer → ImageSpec × List MergeImageLayer
  | [] => (out_spec, [])
  | layer :: rest =>
    let r := merge_channel_passes out_spec layer.passes
    let rs := merge_channel_layers r.1 rest
    (rs.1, { layer with passes := r.2 } :: rs.2)

/-- The image loop of `merge_channels_metadata` that merges channels and computes
offsets. -/
def merge_channel_images (out_spec : ImageSpec) :
    List MergeImage → ImageSpec × List MergeImage
  | [] => (out_spec, [])
  | image :: rest =>
    let r := merge_channel_layers out_spec image.layers
    let rs := merge_channel_images r.1 rest
    (rs.1, { image with layers := r.2 } :: rs.2)

/-- The sum of the attribute `name` over the images, converted to seconds, as both
`merge_render_time` and `merge_layer_render_time` compute it. -/
def sum_render_time (tu : TimeUtil) (images : List MergeImage) (name : List Char) : ℚ :=
  images.foldl (fun time image =>
    time + tu.time_human_readable_to_seconds (image.inp.spec.get_string_attribute name [])) 0

/-- The function `merge_render_time`. -/
def merge_render_time (tu : TimeUtil) (spec : ImageSpec) (images : List MergeImage)
    (name : List Char) (average : Bool) : ImageSpec :=
  let time := sum_render_time tu images name
  let time := if average then time / (images.length : ℚ) else time
  spec.attribute name (tu.time_human_readable_from_seconds time)

/-- The function `merge_layer_render_time`. -/
def merge_layer_render_time (tu : TimeUtil) (spec : ImageSpec) (images : List MergeImage)
    (layer_name time_name : List Char) (average : Bool) : ImageSpec :=
  let name := "cycles.".toList ++ layer_name ++ ".".toList ++ time_name
  let time := sum_render_time tu images name
  let time := if average then time / (images.length : ℚ) else time
  spec.attribute name (tu.time_human_readable_from_seconds time)

/-- The statement `layer_num_samples[name] += samples` on the sorted map
`layer_num_samples`. -/
def map_add_samples (name : List Char) (samples : Int) :
    List (List Char × Int) → List (List Char × Int)
  | [] => [(name, wrap32 (0 + samples))]
  | (k, v) :: rest =>
    if name = k then (k, wrap32 (v + samples)) :: rest
    else if str_lt name k then (name, wrap32 (0 + samples)) :: (k, v) :: rest
    else (k, v) :: map_add_samples name samples rest

/-- The loops of `merge_channels_metadata` that fill `layer_num_samples`. -/
def layer_num_samples (images : List MergeImage) : List (List Char × Int) :=
  images.foldl (fun m image =>
    image.layers.foldl (fun m layer =>
      if layer.name ≠ [] then map_add_samples layer.name layer.samples m else m) m) []

/-- The body of the last loop of `merge_channels_metadata`. -/
def merge_layer_metadata (tu : TimeUtil) (images : List MergeImage) (out_spec : ImageSpec)
    (entry : List Char × Int) : ImageSpec :=
  let layer_name := entry.1
  let layer_samples := entry.2
  let name := "cycles.".toList ++ layer_name ++ ".samples".toList
  let out_spec := out_spec.attribute name (to_string layer_samples)
  let out_spec := merge_layer_render_time tu out_spec images layer_name "total_time".toList false
  let out_spec := merge_layer_render_time tu out_spec images layer_name "render_time".toList false
  merge_layer_render_time tu out_spec images layer_name "synchronization_time".toList true

/-- The layout of an image that was never assigned; `images[0]` of an empty vector
does not exist. -/
def ImageSpec.empty : ImageSpec :=
  { width := 0, height := 0, depth := 0, format := 0, deep := false, nchannels := 0,
    channelnames := [], channelformats := [], extra_attribs := [] }

/-- The function `merge_channels_metadata`: the images with their merge offsets and
operations updated, and `out_spec`. -/
def merge_channels_metadata (tu : TimeUtil) (images : List MergeImage) :
    List MergeImage × ImageSpec :=
  let base := (images.head?.map (fun image => image.inp.spec)).getD ImageSpec.empty
  let out_spec := { base with nchannels := 0, channelformats := [], channelnames := [] }
  let r := merge_channel_images out_spec images
  let out_spec := merge_render_time tu r.1 r.2 "RenderTime".toList false
  (r.2, (layer_num_samples r.2).foldl (merge_layer_metadata tu r.2) out_spec)

/-! ## Pixel merge engine: `merge_pixels` -/

/-- The size `alloc_pixels` gives the pixel array of a layout. -/
def alloc_pixels (spec : ImageSpec) : Nat :=
  spec.width * spec.height * spec.nchannels

/-- The strided loops of `merge_pixels`, with the loop condition
`offset < num_pixels` and the increments of `offset`, `sample_pass_offset`,
`out_offset` and `i`; `body i offset sample_pass_offset old` is the new value of
`out_pixels[out_offset]`. The first argument bounds the number of iterations. -/
def pixel_loop (num_pixels stride out_stride : Nat) (body : Nat → Nat → Nat → ℚ → ℚ) :
    Nat → Nat → Nat → Nat → Nat → List ℚ → List ℚ
  | 0, _, _, _, _, out_pixels => out_pixels
  | fuel + 1, i, offset, sample_pass_offset, out_offset, out_pixels =>
    if offset < num_pixels then
      pixel_loop num_pixels stride out_stride body fuel (i + 1) (offset + stride)
        (sample_pass_offset + stride) (out_offset + out_stride)
        (out_pixels.set out_offset (body i offset sample_pass_offset (out_pixels.getD out_offset 0)))
    else out_pixels

/-- The new value of `out_pixels[out_offset]` in the loop of the pass, by
operation; `samples` is `layer_samples.at(layer.name)`. The operations on `float`s
are exact here; `pass_body_machine` rounds them. -/
def pass_body (layer : MergeImageLayer) (samples : SampleCount) (pixels : List ℚ)
    (op : MergeChannelOp) (i offset sample_pass_offset : Nat) (old : ℚ) : ℚ :=
  match op with
  | MERGE_CHANNEL_NOP => old
  | MERGE_CHANNEL_COPY => pixels.getD offset 0
  | MERGE_CHANNEL_SUM => old + pixels.getD offset 0
  | MERGE_CHANNEL_AVERAGE =>
    let total_samples := samples.per_pixel.getD i 0
    let layer_samples : ℚ :=
      if layer.has_sample_pass then pixels.getD sample_pass_offset 0 * (layer.samples : ℚ)
      else (layer.samples : ℚ)
    old + pixels.getD offset 0 * (1 * layer_samples / total_samples)
  | MERGE_CHANNEL_SAMPLES => 1 * samples.per_pixel.getD i 0 / (samples.total : ℚ)

/-- The body of the pass loop of `merge_pixels`: the `switch` on `pass.op`. A
failing `layer_samples.at` is reported as an error. -/
def merge_pass (layer_samples : List (List Char × SampleCount)) (layer : MergeImageLayer)
    (pixels : List ℚ) (stride out_stride num_pixels : Nat) (out_pixels : List ℚ)
    (pass : MergeImagePass) : Except (List Char) (List ℚ) :=
  match pass.op with
  | MERGE_CHANNEL_NOP => Except.ok out_pixels
  | MERGE_CHANNEL_COPY =>
    Except.ok (pixel_loop num_pixels stride out_stride
      (pass_body layer { total := 0, per_pixel := [] } pixels MERGE_CHANNEL_COPY)
      num_pixels 0 pass.offset layer.sample_pass_offset pass.merge_offset out_pixels)
  | MERGE_CHANNEL_SUM =>
    Except.ok (pixel_loop num_pixels stride out_stride
      (pass_body layer { total := 0, per_pixel := [] } pixels MERGE_CHANNEL_SUM)
      num_pixels 0 pass.offset layer.sample_pass_offset pass.merge_offset out_pixels)
  | MERGE_CHANNEL_AVERAGE =>
    match layer_samples.lookup layer.name with
    | none => Except.error "unordered_map::at".toList
    | some samples =>
      Except.ok (pixel_loop num_pixels stride out_stride
        (pass_body layer samples pixels MERGE_CHANNEL_AVERAGE)
        num_pixels 0 pass.offset layer.sample_pass_offset pass.merge_offset out_pixels)
  | MERGE_CHANNEL_SAMPLES =>
    match layer_samples.lookup layer.name with
    | none => Except.error "unordered_map::at".toList
    | some samples =>
      Except.ok (pixel_loop num_pixels stride out_stride
        (pass_body layer samples pixels MERGE_CHANNEL_SAMPLES)
        num_pixels 0 pass.offset layer.sample_pass_offset pass.merge_offset out_pixels)

/-- The pass loop of `merge_pixels` over the passes of one layer. -/
def merge_passes (layer_samples : List (List Char × SampleCount)) (layer : MergeImageLayer)
    (pixels : List ℚ) (stride out_stride num_pixels : Nat) :
    List MergeImagePass → List ℚ → Except (List Char) (List ℚ)
  | [], out_pixels => Except.ok out_pixels
  | pass :: rest, out_pixels =>
    match merge_pass layer_samples layer pixels stride out_stride num_pixels out_pixels pass with
    | Except.error e => Except.error e
    | Except.ok out1 =>
      merge_passes layer_samples layer pixels stride out_stride num_pixels rest out1

/-- The layer loop of `merge_pixels` over the layers of one image. -/
def merge_layers (layer_samples : List (List Char × SampleCount)) (pixels : List ℚ)
    (stride out_stride num_pixels : Nat) :
    List MergeImageLayer → List ℚ → Except (List Char) (List ℚ)
  | [], out_pixels => Except.ok out_pixels
  | layer :: rest, out_pixels =>
    match merge_passes layer_samples layer pixels stride out_stride num_pixels layer.passes
        out_pixels with
    | Except.error e => Except.error e
    | Except.ok out1 => merge_layers layer_samples pixels stride out_stride num_pixels rest out1

/-- The body of the image loop of `merge_pixels`. -/
def merge_image (out_spec : ImageSpec) (layer_samples : List (List Char × SampleCount))
    (image : MergeImage) (out_pixels : List ℚ) : Except (List Char) (List ℚ) :=
  let num_channels := image.inp.spec.nchannels
  match image.inp.read_image 0 num_channels with
  | none => Except.error ("Failed to read image: ".toList ++ image.filepath)
  | some pixels =>
    merge_layers layer_samples pixels image.inp.spec.nchannels out_spec.nchannels
      (alloc_pixels image.inp.spec) image.layers out_pixels

/-- The image loop of `merge_pixels`. -/
def merge_images (out_spec : ImageSpec) (layer_samples : List (List Char × SampleCount)) :
    List MergeImage → List ℚ → Except (List Char) (List ℚ)
  | [], out_pixels => Except.ok out_pixels
  | image :: rest, out_pixels =>
    match merge_image out_spec layer_samples image out_pixels with
    | Except.error e => Except.error e
    | Except.ok out1 => merge_images out_spec layer_samples rest out1

/-- The function `merge_pixels`: the zero-initialised output buffer after all the
images were merged into it. -/
def merge_pixels (images : List MergeImage) (out_spec : ImageSpec)
    (layer_samples : List (List Char × SampleCount)) : Except (List Char) (List ℚ) :=
  merge_images out_spec layer_samples images (List.replicate (alloc_pixels out_spec) 0)

/-! ## Accesses of the pixel merge -/

/-- An access `merge_pixels` makes: to `pixels[offset]`, to
`pixels[sample_pass_offset]`, to `out_pixels[out_offset]` or to
`samples.per_pixel[i]`, with the index and the size of the array, or the lookup
`layer_samples.at(layer.name)`, with whether the map holds the key. -/
inductive Access where
  | source (index size : Nat)
  | sample_pass (index size : Nat)
  | destination (index size : Nat)
  | per_pixel (index size : Nat)
  | layer_lookup (found : Bool)
  deriving DecidableEq

/-- The accesses of one iteration of the loop of a pass, by operation, in the order
the statements of the loop body make them; `num_pixels` is `pixels.size()` and
`out_size` is `out_pixels.size()`. -/
def pass_accesses (layer : MergeImageLayer) (samples : SampleCount) (num_pixels out_size : Nat)
    (op : MergeChannelOp) (i offset sample_pass_offset out_offset : Nat) : List Access :=
  match op with
  | MERGE_CHANNEL_NOP => []
  | MERGE_CHANNEL_COPY =>
    [Access.source offset num_pixels, Access.destination out_offset out_size]
  | MERGE_CHANNEL_SUM =>
    [Access.source offset num_pixels, Access.destination out_offset out_size]
  | MERGE_CHANNEL_AVERAGE =>
    Access.per_pixel i samples.per_pixel.length ::
      ((if layer.has_sample_pass then [Access.sample_pass sample_pass_offset num_pixels]
        else []) ++
        [Access.source offset num_pixels, Access.destination out_offset out_size])
  | MERGE_CHANNEL_SAMPLES =>
    [Access.per_pixel i samples.per_pixel.length, Access.destination out_offset out_size]

/-- The accesses of the strided loops of `merge_pixels`: the loop of `pixel_loop`,
collecting the accesses `body i offset sample_pass_offset out_offset` of every
iteration. The first argument bounds the number of iterations. -/
def pixel_loop_accesses (num_pixels stride out_stride : Nat)
    (body : Nat → Nat → Nat → Nat → List Access) :
    Nat → Nat → Nat → Nat → Nat → List Access
  | 0, _, _, _, _ => []
  | fuel + 1, i, offset, sample_pass_offset, out_offset =>
    if offset < num_pixels then
      body i offset sample_pass_offset out_offset ++
        pixel_loop_accesses num_pixels stride out_stride body fuel (i + 1) (offset + stride)
          (sample_pass_offset + stride) (out_offset + out_stride)
    else []

/-- The accesses of the body of the pass loop of `merge_pixels`, and whether the
function goes on after it: it does not when `layer_samples.at` fails. -/
def merge_pass_accesses (layer_samples : List (List Char × SampleCount))
    (layer : MergeImageLayer) (stride out_stride num_pixels out_size : Nat)
    (pass : MergeImagePass) : List Access × Bool :=
  match pass.op with
  | MERGE_CHANNEL_NOP => ([], true)
  | MERGE_CHANNEL_COPY =>
    (pixel_loop_accesses num_pixels stride out_stride
      (pass_accesses layer { total := 0, per_pixel := [] } num_pixels out_size MERGE_CHANNEL_COPY)
      num_pixels 0 pass.offset layer.sample_pass_offset pass.merge_offset, true)
  | MERGE_CHANNEL_SUM =>
    (pixel_loop_accesses num_pixels stride out_stride
      (pass_accesses layer { total := 0, per_pixel := [] } num_pixels out_size MERGE_CHANNEL_SUM)
      num_pixels 0 pass.offset layer.sample_pass_offset pass.merge_offset, true)
  | MERGE_CHANNEL_AVERAGE =>
    match layer_samples.lookup layer.name with
    | none => ([Access.layer_lookup false], false)
    | some samples =>
      (Access.layer_lookup true :: pixel_loop_accesses num_pixels stride out_stride
        (pass_accesses layer samples num_pixels out_size MERGE_CHANNEL_AVERAGE)
        num_pixels 0 pass.offset layer.sample_pass_offset pass.merge_offset, true)
  | MERGE_CHANNEL_SAMPLES =>
    match layer_samples.lookup layer.name with
    | none => ([Access.layer_lookup false], false)
    | some samples =>
      (Access.layer_lookup true :: pixel_loop_accesses num_pixels stride out_stride
        (pass_accesses layer samples num_pixels out_size MERGE_CHANNEL_SAMPLES)
        num_pixels 0 pass.offset layer.sample_pass_offset pass.merge_offset, true)

/-- The accesses of the pass loop of `merge_pixels` over the passes of one layer. -/
def merge_passes_accesses (layer_samples : List (List Char × SampleCount))
    (layer : MergeImageLayer) (stride out_stride num_pixels out_size : Nat) :
    List MergeImagePass → List Access × Bool
  | [] => ([], true)
  | pass :: rest =>
    let r := merge_pass_accesses layer_samples layer stride out_stride num_pixels out_size pass
    if r.2 then
      let rs := merge_passes_accesses layer_samples layer stride out_stride num_pixels out_size rest
      (r.1 ++ rs.1, rs.2)
    else (r.1, false)

/-- The accesses of the layer loop of `merge_pixels` over the layers of one image. -/
def merge_layers_accesses (layer_samples : List (List Char × SampleCount))
    (stride out_stride num_pixels out_size : Nat) : List MergeImageLayer → List Access × Bool
  | [] => ([], true)
  | layer :: rest =>
    let r := merge_passes_accesses layer_samples layer stride out_stride num_pixels out_size
      layer.passes
    if r.2 then
      let rs := merge_layers_accesses layer_samples stride out_stride num_pixels out_size rest
      (r.1 ++ rs.1, rs.2)
    else (r.1, false)

/-- The accesses of the body of the image loop of `merge_pixels`: none when the
image cannot be read. -/
def merge_image_accesses (out_spec : ImageSpec) (layer_samples : List (List Char × SampleCount))
    (image : MergeImage) : List Access × Bool :=
  let num_channels := image.inp.spec.nchannels
  match image.inp.read_image 0 num_channels with
  | none => ([], false)
  | some _ =>
    merge_layers_accesses layer_samples image.inp.spec.nchannels out_spec.nchannels
      (alloc_pixels image.inp.spec) (alloc_pixels out_spec) image.layers

/-- The accesses of the image loop of `merge_pixels`. -/
def merge_images_accesses (out_spec : ImageSpec) (layer_samples : List (List Char × SampleCount)) :
    List MergeImage → List Access × Bool
  | [] => ([], true)
  | image :: rest =>
    let r := merge_image_accesses out_spec layer_samples image
    if r.2 then
      let rs := merge_images_accesses out_spec layer_samples rest
      (r.1 ++ rs.1, rs.2)
    else (r.1, false)

/-- The accesses of `merge_pixels` to its arrays and to the sample map, in order, and
whether it returns true. -/
def merge_pixels_accesses (images : List MergeImage) (out_spec : ImageSpec)
    (layer_samples : List (List Char × SampleCount)) : List Access × Bool :=
  merge_images_accesses out_spec layer_samples images

/-! ## Orchestrator: `ImageMerger::run` -/

/-- The function `ImageMerger::run` up to the call of `save_output`: the layout
and the pixels handed to the Image Sink. `fs` is `ImageInput::open`. -/
def ImageMerger.run (tu : TimeUtil) (fs : List Char → Option ImageInput)
    (input : List (List Char)) (output : List Char) : Except (List Char) (ImageSpec × List ℚ) :=
  if input = [] then Except.error "No input file paths specified.".toList
  else if output = [] then Except.error "No output file path specified.".toList
  else
    match open_images fs input [] with
    | Except.error e => Except.error e
    | Except.ok images =>
      let layer_samples := read_layer_samples images []
      let r := merge_channels_metadata tu images
      match merge_pixels r.1 r.2 layer_samples with
      | Except.error e => Except.error e
      | Except.ok out_pixels => Except.ok (r.2, out_pixels)

/-- The calls `ImageMerger::run` makes to the other functions of the file.
`open_images` opens the files and looks at their layouts only; pixels are read by
`read_layer_samples` (the sample-count channels) and by `merge_pixels` (all
channels), samples are accumulated by `read_layer_samples`, the merge is made by
`merge_channels_metadata` and `merge_pixels`, and `save_output` writes. -/
inductive RunStep where
  | call_open_images
  | call_read_layer_samples
  | call_merge_channels_metadata
  | call_merge_pixels
  | call_save_output
  deriving DecidableEq

/-- The function `ImageMerger::run` up to the call of `save_output`, with the calls
it makes in their order. -/
def ImageMerger.run_steps (tu : TimeUtil) (fs : List Char → Option ImageInput)
    (input : List (List Char)) (output : List Char) :
    List RunStep × Except (List Char) (ImageSpec × List ℚ) :=
  if input = [] then ([], Except.error "No input file paths specified.".toList)
  else if output = [] then ([], Except.error "No output file path specified.".toList)
  else
    match open_images fs input [] with
    | Except.error e => ([RunStep.call_open_images], Except.error e)
    | Except.ok images =>
      let layer_samples := read_layer_samples images []
      let r := merge_channels_metadata tu images
      match merge_pixels r.1 r.2 layer_samples with
      | Except.error e =>
        ([RunStep.call_open_images, RunStep.call_read_layer_samples,
          RunStep.call_merge_channels_metadata, RunStep.call_merge_pixels], Except.error e)
      | Except.ok out_pixels =>
        ([RunStep.call_open_images, RunStep.call_read_layer_samples,
          RunStep.call_merge_channels_metadata, RunStep.call_merge_pixels,
          RunStep.call_save_output], Except.ok (r.2, out_pixels))

/-! ## Machine arithmetic: `float` and `int` -/

/-- The power `2^e` as a rational. -/
def pow2 (e : Int) : ℚ :=
  if 0 ≤ e then ((2 ^ e.toNat : Nat) : ℚ) else 1 / ((2 ^ (-e).toNat : Nat) : ℚ)

/-- The number of halvings that bring a natural number below 2, at most `fuel`: the
binary logarithm of `n`, rounded down, when `fuel` is at least that. -/
def halvings : Nat → Nat → Nat
  | 0, _ => 0
  | fuel + 1, n => if 2 ≤ n then halvings fuel (n / 2) + 1 else 0

/-- The exponent of a positive rational: the `e` with `2^e ≤ a < 2^(e+1)`. -/
def float_exponent (a : ℚ) : Int :=
  let e0 : Int := (halvings a.num.natAbs a.num.natAbs : Int) - (halvings a.den a.den : Int)
  if pow2 e0 ≤ a then e0 else e0 - 1

/-- The integer nearest to a non-negative rational, the even one of two equally near. -/
def round_half_even (m : ℚ) : Int :=
  let f := Rat.floor m
  let r := m - (f : ℚ)
  if r < 1 / 2 then f else if 1 / 2 < r then f + 1 else if f % 2 = 0 then f else f + 1

/-- Conversion to `float` (IEEE 754 binary32): the nearest value with a significand of
24 bits, ties to even. Values of `float` are represented by the rationals they
denote; exponent range, infinities and NaN are not represented. -/
def float_round (x : ℚ) : ℚ :=
  if x = 0 then 0
  else
    let a := if x < 0 then -x else x
    let q := pow2 (float_exponent a - 23)
    let m := round_half_even (a / q)
    (if x < 0 then -1 else 1) * ((m : ℚ) * q)

/-- Addition of two `float`s. -/
def float_add (a b : ℚ) : ℚ :=
  float_round (a + b)

/-- Multiplication of two `float`s. -/
def float_mul (a b : ℚ) : ℚ :=
  float_round (a * b)

/-- The product of two `int`s as the machine computes it: wrapped to 32 bits (signed
overflow is undefined in C++). -/
def int_mul (a b : Int) : Int :=
  wrap32 (a * b)

/-- Conversion of an `int` to `size_t` (64 bits), as for the argument of `resize`. -/
def to_size_t (x : Int) : Nat :=
  (x % 18446744073709551616).toNat

/-- The body of the layer loop of `read_layer_samples` in the arithmetic of the
machine: the buffers are resized to the `int` product `in_spec.width *
in_spec.height`, the values read are `float`s, `layer.samples` is converted to
`float`, and every product and sum is rounded to `float`. Otherwise as
`accumulate_layer`. -/
def accumulate_layer_machine (inp : ImageInput) (layer : MergeImageLayer) (is_new : Bool)
    (current : SampleCount) : SampleCount :=
  let in_spec := inp.spec
  let size := to_size_t (int_mul in_spec.width in_spec.height)
  let current_layer_samples : SampleCount :=
    if is_new then { total := 0, per_pixel := List.replicate size 0 }
    else current
  let per_pixel :=
    if layer.has_sample_pass then
      let sample_count_buffer :=
        (inp.read_image layer.sample_pass_offset layer.sample_pass_offset).getD
          (List.replicate size 0)
      (List.range current_layer_samples.per_pixel.length).map (fun i =>
        float_add (current_layer_samples.per_pixel.getD i 0)
          (float_mul (float_round (sample_count_buffer.getD i 0))
            (float_round (layer.samples : ℚ))))
    else
      (List.range current_layer_samples.per_pixel.length).map (fun i =>
        float_add (current_layer_samples.per_pixel.getD i 0) (float_round (layer.samples : ℚ)))
  { total := wrap32 (current_layer_samples.total + layer.samples), per_pixel := per_pixel }

/-- One iteration of the layer loop of `read_layer_samples`, in machine arithmetic. -/
def read_layer_samples_layer_machine (inp : ImageInput)
    (layer_samples : List (List Char × SampleCount)) (layer : MergeImageLayer) :
    List (List Char × SampleCount) :=
  match layer_samples.lookup layer.name with
  | none =>
    layer_samples ++
      [(layer.name, accumulate_layer_machine inp layer true { total := 0, per_pixel := [] })]
  | some current =>
    umap_set layer.name (accumulate_layer_machine inp layer false current) layer_samples

/-- One iteration of the image loop of `read_layer_samples`, in machine arithmetic. -/
def read_layer_samples_image_machine (layer_samples : List (List Char × SampleCount))
    (image : MergeImage) : List (List Char × SampleCount) :=
  image.layers.foldl (read_layer_samples_layer_machine image.inp) layer_samples

/-- The function `read_layer_samples` in machine arithmetic, started with the content
of `layer_samples`. -/
def read_layer_samples_machine (images : List MergeImage)
    (layer_samples : List (List Char × SampleCount)) : List (List Char × SampleCount) :=
  images.foldl read_layer_samples_image_machine layer_samples

/-- Number of dots of an identifier; it has `dots + 1` dot-separated segments. -/
def dots (name : List Char) : Nat :=
  name.count '.'

/-- The dot-separated segments of an identifier, left to right. -/
def split_dots : List Char → List (List Char)
  | [] => [[]]
  | c :: cs =>
    if c = '.' then [] :: split_dots cs
    else
      match split_dots cs with
      | [] => [[c]]
      | s :: ss => (c :: s) :: ss

/-- Segments joined with dots. -/
def join_dots : List (List Char) → List Char
  | [] => []
  | [s] => s
  | s :: t :: ss => s ++ '.' :: join_dots (t :: ss)

/-- Reference grammar, following the specification: the channel is the last segment,
under multiview the view is the segment before it, the pass the segment before that,
the render layer what remains (with the view appended under multiview). -/
def parse_channel_name_ref (name : List Char) (multiview : Bool) :
    Option (List Char × List Char × List Char) :=
  match multiview, (split_dots name).reverse with
  | false, c :: p :: r :: rs => some (join_dots (r :: rs).reverse, p, c)
  | true, c :: v :: p :: r :: rs => some (join_dots (r :: rs).reverse ++ '.' :: v, p, c)
  | _, _ => none

/-- The copy class of pass names: "Depth", "IndexMA", "IndexOB" and the names
starting with "Crypto". -/
def copy_class (name : List Char) : Prop :=
  name = "Depth".toList ∨ name = "IndexMA".toList ∨ name = "IndexOB".toList ∨
    string_startswith name "Crypto".toList = true

/-- The pass names starting with "Debug BVH", "Debug Ray" or "Debug Render Time". -/
def sum_prefixed (name : List Char) : Prop :=
  string_startswith name "Debug BVH".toList = true ∨
    string_startswith name "Debug Ray".toList = true ∨
    string_startswith name "Debug Render Time".toList = true

/-- The elements of a list of names in the order of their first occurrence. -/
def first_occurrences : List (List Char) → List (List Char)
  | [] => []
  | c :: cs => c :: (first_occurrences cs).filter (fun d => d ≠ c)

/-! ## Definitions used in the statements -/

/-- A layout whose channel names are as many as `nchannels` and pairwise distinct,
as in every OpenEXR file. -/
def ImageSpec.wf (spec : ImageSpec) : Prop :=
  spec.nchannels = spec.channelnames.length ∧ spec.channelnames.Nodup

/-- An image built by `open_images` from the file `path`: the handle is the opened
file, the layers are those `parse_channels` returns, and the file is not deep. -/
def opened_from (fs : List Char → Option ImageInput) (path : List Char) (image : MergeImage) :
    Prop :=
  fs path = some image.inp ∧ image.filepath = path ∧
    parse_channels image.inp.spec = Except.ok image.layers ∧ image.layers ≠ [] ∧
    image.inp.spec.deep = false

/-- Two layouts agree on width, height, depth, numeric format and deep flag. -/
def same_layout (a b : ImageSpec) : Prop :=
  a.width = b.width ∧ a.height = b.height ∧ a.depth = b.depth ∧ a.format = b.format ∧
    a.deep = b.deep

/-- The string of the attribute "cycles.<name>.samples" of a layout, empty when
the attribute is missing. -/
def sample_string (in_spec : ImageSpec) (name : List Char) : List Char :=
  in_spec.get_string_attribute ("cycles.".toList ++ name ++ ".samples".toList) []

/-- Index of the first channel called `c` in a list of channel names, their number
when there is none: the `find_if` and `distance` of `merge_channels_metadata`. -/
def channel_index (names : List (List Char)) (c : List Char) : Nat :=
  names.findIdx (fun channel_name => c = channel_name)

/-- The value of channel number `ch` at pixel `p` in the file of an image handle. -/
def pixel_value (inp : ImageInput) (ch p : Nat) : ℚ :=
  (inp.data.getD []).getD (p * inp.spec.nchannels + ch) 0

/-- The value of the channel called `c` at pixel `p` in the file of an image handle. -/
def channel_value (inp : ImageInput) (c : List Char) (p : Nat) : ℚ :=
  pixel_value inp (channel_index inp.spec.channelnames c) p

/-- The value of the channel called `c` at pixel `p` of a merged image. -/
def merged_value (out_spec : ImageSpec) (out_pixels : List ℚ) (c : List Char) (p : Nat) : ℚ :=
  out_pixels.getD (p * out_spec.nchannels + channel_index out_spec.channelnames c) 0

/-- The nominal sample count of the layer called `L` of an image (the sum over its
layers of that name; the names of the layers of an image are distinct). -/
def layer_samples_in (image : MergeImage) (L : List Char) : ℚ :=
  ((image.layers.filter (fun l => l.name = L)).map (fun l => (l.samples : ℚ))).sum

/-- The adaptive-sample weighted average of the channel `c` of layer `L` at pixel `p`:
`(sum of c_k * S_k * v_k) / (sum of c_k * S_k)` over the images, where `S_k` is the
nominal sample count of `L`, `v_k` the value of `c` and `c_k` the value of the
channel `s`, the "Debug Sample Count" channel of `L`. -/
def adaptive_average (images : List MergeImage) (L c s : List Char) (p : Nat) : ℚ :=
  (images.map (fun image =>
      channel_value image.inp s p * layer_samples_in image L * channel_value image.inp c p)).sum /
    (images.map (fun image => channel_value image.inp s p * layer_samples_in image L)).sum

/-- The full channel names of all passes: images in input order, layers in the order
of each image's layer list, passes in the order of each layer's pass list. -/
def pass_channel_names (images : List MergeImage) : List (List Char) :=
  images.flatMap (fun image =>
    image.layers.flatMap (fun l => l.passes.map (fun pass => pass.channel_name)))

/-- The image `open_images` builds from the file `path` when it accepts the file. -/
def image_of (fs : List Char → Option ImageInput) (path : List Char) : MergeImage :=
  { inp := (fs path).getD { spec := ImageSpec.empty, data := none },
    filepath := path,
    layers := (parse_channels ((fs path).getD { spec := ImageSpec.empty, data := none }).spec
      ).toOption.getD [] }

/-- The access is in bounds: the index is below the size of the array, the key is
in the map. -/
def Access.in_bounds : Access → Prop
  | Access.source index size => index < size
  | Access.sample_pass index size => index < size
  | Access.destination index size => index < size
  | Access.per_pixel index size => index < size
  | Access.layer_lookup found => found = true

/-- The array of the access has the size the layouts give it: `num_pixels` pixels of
the channels of an input image (one of `channels`) for the source buffer, of the
`out_channels` output channels for the destination, and one value per pixel for the
per-pixel sample counts. -/
def Access.sized (num_pixels : Nat) (channels : List Nat) (out_channels : Nat) : Access → Prop
  | Access.source _ size => ∃ c ∈ channels, size = num_pixels * c
  | Access.sample_pass _ size => ∃ c ∈ channels, size = num_pixels * c
  | Access.destination _ size => size = num_pixels * out_channels
  | Access.per_pixel _ size => size = num_pixels
  | Access.layer_lookup _ => True

/-! ## Definitions used in the proofs -/

/-- Keys strictly increasing in the order of `std::string`. -/
def sorted_keys {β : Type} (m : List (List Char × β)) : Prop :=
  m.Pairwise (fun a b => str_lt a.1 b.1 = true)

/-- All passes of the entries of a layer map. -/
def map_passes (m : List (List Char × MergeImageLayer)) : List MergeImagePass :=
  m.flatMap (fun e => e.2.passes)

/-- All passes of a list of layers. -/
def all_passes (layers : List MergeImageLayer) : List MergeImagePass :=
  layers.flatMap (fun l => l.passes)

/-- A map that is a single entry holding `l0` or a value-initialised layer. -/
def single_of (l0 : MergeImageLayer) (m : List (List Char × MergeImageLayer)) : Prop :=
  ∃ name l, m = [(name, l)] ∧ (l = l0 ∨ l = MergeImageLayer.empty)

/-- Repeated `int` addition, starting from 0. -/
def wrapped_sum (xs : List Int) : Int :=
  xs.foldl (fun a x => wrap32 (a + x)) 0

/-- Every layer of every image with the handle of its image, in order. -/
def layer_items (images : List MergeImage) : List (ImageInput × MergeImageLayer) :=
  images.flatMap (fun image => image.layers.map (fun l => (image.inp, l)))

/-- The layers called `L` with the handle of their image, over all images in order. -/
def layers_named (images : List MergeImage) (L : List Char) :
    List (ImageInput × MergeImageLayer) :=
  (layer_items images).filter (fun it => it.2.name = L)

/-- The number of samples a layer of an image contributes to pixel `p`: its nominal
sample count, scaled by the value `read_layer_samples` reads for the pixel when the
layer has a sample-count pass. -/
def layer_pixel_samples (inp : ImageInput) (layer : MergeImageLayer) (p : Nat) : ℚ :=
  if layer.has_sample_pass then
    ((inp.read_image layer.sample_pass_offset layer.sample_pass_offset).getD
      (List.replicate (inp.spec.width * inp.spec.height) 0)).getD p 0 * (layer.samples : ℚ)
  else (layer.samples : ℚ)

/-- The loops of `read_layer_samples` over a list of layers with their handles. -/
def read_layer_items (its : List (ImageInput × MergeImageLayer))
    (layer_samples : List (List Char × SampleCount)) : List (List Char × SampleCount) :=
  its.foldl (fun m it => read_layer_samples_layer it.1 m it.2) layer_samples

/-- A layer without its pass list: the fields the pixel merge reads from it. -/
def strip (l : MergeImageLayer) : MergeImageLayer :=
  { l with passes := [] }

/-- Every pass of every layer of every image, with the handle of its image and its
layer (without pass list), in the order the loops visit them. -/
def pass_items (images : List MergeImage) :
    List (ImageInput × MergeImageLayer × MergeImagePass) :=
  images.flatMap (fun image =>
    image.layers.flatMap (fun l => l.passes.map (fun p => (image.inp, strip l, p))))

/-- The pass loop of `merge_channels_metadata` over a list of passes that carry
their image handle and layer. -/
def annotate_items (out_spec : ImageSpec) :
    List (ImageInput × MergeImageLayer × MergeImagePass) →
      ImageSpec × List (ImageInput × MergeImageLayer × MergeImagePass)
  | [] => (out_spec, [])
  | it :: rest =>
    let r := merge_channel_pass out_spec it.2.2
    let rs := annotate_items r.1 rest
    (rs.1, (it.1, it.2.1, r.2) :: rs.2)

/-- The buffer `merge_pixels` reads from an image: all its channels. -/
def item_pixels (inp : ImageInput) : List ℚ :=
  (inp.read_image 0 inp.spec.nchannels).getD []

/-- The accumulated samples of a layer, `layer_samples.at(layer.name)`. -/
def item_samples (layer_samples : List (List Char × SampleCount)) (layer : MergeImageLayer) :
    SampleCount :=
  (layer_samples.lookup layer.name).getD { total := 0, per_pixel := [] }

/-- The new value of output pixel `p` in the channel of a pass, given the old one. -/
def item_effect (layer_samples : List (List Char × SampleCount))
    (it : ImageInput × MergeImageLayer × MergeImagePass) (p : Nat) (old : ℚ) : ℚ :=
  pass_body it.2.1 (item_samples layer_samples it.2.1) (item_pixels it.1) it.2.2.op p
    (it.2.2.offset + p * it.1.spec.nchannels)
    (it.2.1.sample_pass_offset + p * it.1.spec.nchannels) old

/-- The loop `merge_pixels` runs for one pass. -/
def apply_item (out_stride : Nat) (layer_samples : List (List Char × SampleCount))
    (it : ImageInput × MergeImageLayer × MergeImagePass) (out_pixels : List ℚ) : List ℚ :=
  pixel_loop (alloc_pixels it.1.spec) it.1.spec.nchannels out_stride
    (pass_body it.2.1 (item_samples layer_samples it.2.1) (item_pixels it.1) it.2.2.op)
    (alloc_pixels it.1.spec) 0 it.2.2.offset it.2.1.sample_pass_offset it.2.2.merge_offset
    out_pixels

/-- The passes fit the buffers: the image buffer holds `n` pixels of its channels,
the source channel exists in the image and the destination channel in the output. -/
def items_fit (n os : Nat) (items : List (ImageInput × MergeImageLayer × MergeImagePass)) :
    Prop :=
  ∀ it ∈ items, alloc_pixels it.1.spec = n * it.1.spec.nchannels ∧
    it.2.2.offset < it.1.spec.nchannels ∧ it.2.2.merge_offset < os

/-- What `merge_channels_metadata` makes of the passes of one channel name, in loop
order: all get the destination offset `j`; a copy pass becomes a no-op when the name
was `seen` before, which holds for all passes but possibly the first. -/
def annotate_named (j : Nat) :
    Bool → List (ImageInput × MergeImageLayer × MergeImagePass) →
      List (ImageInput × MergeImageLayer × MergeImagePass)
  | _, [] => []
  | seen, it :: rest =>
    (it.1, it.2.1,
      { it.2.2 with merge_offset := j,
                    op := if seen = true ∧ it.2.2.op = MERGE_CHANNEL_COPY then MERGE_CHANNEL_NOP
                          else it.2.2.op }) :: annotate_named j true rest

/-- Every pass of every layer of one image, with the handle and the layer. -/
def image_items (image : MergeImage) : List (ImageInput × MergeImageLayer × MergeImagePass) :=
  image.layers.flatMap (fun l => l.passes.map (fun p => (image.inp, strip l, p)))

/-- The passes of the channel called `c` over all images, in loop order. -/
def named_items (images : List MergeImage) (c : List Char) :
    List (ImageInput × MergeImageLayer × MergeImagePass) :=
  (pass_items images).filter (fun it => it.2.2.channel_name = c)

/-- The layout `merge_channels_metadata` starts the channel loop with. -/
def base_spec (images : List MergeImage) : ImageSpec :=
  { (images.head?.map (fun image => image.inp.spec)).getD ImageSpec.empty with
    nchannels := 0, channelformats := [], channelnames := [] }

/-- The keys of a sample map with the sizes of their per-pixel buffers. -/
def sample_shape (m : List (List Char × SampleCount)) : List (List Char × Nat) :=
  m.map (fun e => (e.1, e.2.per_pixel.length))

/-! ## Example inputs -/

/-- Example file layout: one pixel, the render layer "A" with an average-type, a
copy-type and a sum-type channel and no sample-count pass; attribute
"cycles.A.samples" as given. -/
def example_spec (samples : List Char) : ImageSpec :=
  { width := 1, height := 1, depth := 1, format := 0, deep := false, nchannels := 3,
    channelnames := ["A.Combined.R".toList, "A.Depth.Z".toList, "A.Debug Ray Bounces.X".toList],
    channelformats := [],
    extra_attribs := [{ name := "cycles.A.samples".toList, is_string := true, arraylen := 0,
                        value := samples }] }

/-- The layer `parse_channels` builds for `example_spec`, for a sample count. -/
def example_layer (samples : Int) : MergeImageLayer :=
  { name := "A".toList,
    passes := [
      { channel_name := "A.Combined.R".toList, name := "Combined".toList, format := 0,
        op := MERGE_CHANNEL_AVERAGE, offset := 0, merge_offset := 0 },
      { channel_name := "A.Depth.Z".toList, name := "Depth".toList, format := 0,
        op := MERGE_CHANNEL_COPY, offset := 1, merge_offset := 1 },
      { channel_name := "A.Debug Ray Bounces.X".toList, name := "Debug Ray Bounces".toList,
        format := 0, op := MERGE_CHANNEL_SUM, offset := 2, merge_offset := 2 }],
    samples := samples, has_sample_pass := false, sample_pass_offset := 0 }

/-- The layers `parse_channels` builds for `example_spec`, for a sample count. -/
def example_layers (samples : Int) : List MergeImageLayer :=
  [example_layer samples]

/-- Example image source: the paths "a" and "b" hold one-pixel files of the layout
`example_spec` with 2 and 6 samples. -/
def example_fs (path : List Char) : Option ImageInput :=
  if path = "a".toList then
    some { spec := example_spec "2".toList, data := some [8, 5, 1] }
  else if path = "b".toList then
    some { spec := example_spec "6".toList, data := some [4, 7, 3] }
  else none

/-- Example conversions of render times: every time reads as zero seconds and is
written as the empty string. -/
def example_time : TimeUtil :=
  { time_human_readable_to_seconds := fun _ => 0,
    time_human_readable_from_seconds := fun _ => [] }

/-- The image `open_images` builds from the path "a" of `example_fs`. -/
def example_image_a : MergeImage :=
  { inp := { spec := example_spec "2".toList, data := some [8, 5, 1] },
    filepath := "a".toList, layers := example_layers 2 }

/-- The image `open_images` builds from the path "b" of `example_fs`. -/
def example_image_b : MergeImage :=
  { inp := { spec := example_spec "6".toList, data := some [4, 7, 3] },
    filepath := "b".toList, layers := example_layers 6 }

/-- The images `open_images` builds from the paths "a" and "b" of `example_fs`. -/
def example_images : List MergeImage :=
  [example_image_a, example_image_b]

/-- The merged layout of the two example files. -/
def example_out_spec : ImageSpec :=
  (merge_channels_metadata example_time example_images).2

/-- Layout of a one-pixel file with the render layers "A" and "B", each with a colour
channel and its own "Debug Sample Count" channel, rendered with 4 samples. -/
def two_layer_spec : ImageSpec :=
  { width := 1, height := 1, depth := 1, format := 0, deep := false, nchannels := 4,
    channelnames := ["A.Combined.R".toList, "A.Debug Sample Count.X".toList,
                     "B.Combined.R".toList, "B.Debug Sample Count.X".toList],
    channelformats := [],
    extra_attribs := [{ name := "cycles.A.samples".toList, is_string := true, arraylen := 0,
                        value := "4".toList },
                      { name := "cycles.B.samples".toList, is_string := true, arraylen := 0,
                        value := "4".toList }] }

/-- Image source with two files of `two_layer_spec`: in both, layer "B" was sampled
fully (its sample-count channel is 1), layer "A" to 1/4 in "x" and to 3/4 in "y". -/
def two_layer_fs (path : List Char) : Option ImageInput :=
  if path = "x".toList then some { spec := two_layer_spec, data := some [10, 1 / 4, 20, 1] }
  else if path = "y".toList then some { spec := two_layer_spec, data := some [30, 3 / 4, 40, 1] }
  else none

/-- The images `open_images` builds from the paths "x" and "y" of `two_layer_fs`. -/
def two_layer_images : List MergeImage :=
  (open_images two_layer_fs ["x".toList, "y".toList] []).toOption.getD []

/-- Image source with the one-pixel example file "a" and a file "w" of the same
channels that is two pixels wide. -/
def wide_fs (path : List Char) : Option ImageInput :=
  if path = "a".toList then
    some { spec := example_spec "2".toList, data := some [8, 5, 1] }
  else if path = "w".toList then
    some { spec := { example_spec "6".toList with width := 2 },
           data := some [4, 7, 3, 4, 7, 3] }
  else none

/-- Layout of a one-pixel file whose only channel "R" has no layer name, with the
attributes "cycles.A.samples" = "2" and "cycles.B.samples" = "3", in this order. -/
def two_attribute_spec : ImageSpec :=
  { width := 1, height := 1, depth := 1, format := 0, deep := false, nchannels := 1,
    channelnames := ["R".toList],
    channelformats := [],
    extra_attribs := [{ name := "cycles.A.samples".toList, is_string := true, arraylen := 0,
                        value := "2".toList },
                      { name := "cycles.B.samples".toList, is_string := true, arraylen := 0,
                        value := "3".toList }] }

/-- Layout of a one-pixel file with the render layer "A" of the given sample count
and the given channels. -/
def layer_a_spec (samples : List Char) (channels : List (List Char)) : ImageSpec :=
  { width := 1, height := 1, depth := 1, format := 0, deep := false,
    nchannels := channels.length, channelnames := channels, channelformats := [],
    extra_attribs := [{ name := "cycles.A.samples".toList, is_string := true, arraylen := 0,
                        value := samples }] }

/-- Image source with two files of the render layer "A": "p" with 2 samples holds
the average-type channels "A.Combined.R" and "A.Diffuse.R", "q" with 6 samples holds
"A.Combined.R" only. -/
def lacking_fs (path : List Char) : Option ImageInput :=
  if path = "p".toList then
    some { spec := layer_a_spec "2".toList ["A.Combined.R".toList, "A.Diffuse.R".toList],
           data := some [8, 6] }
  else if path = "q".toList then
    some { spec := layer_a_spec "6".toList ["A.Combined.R".toList], data := some [4] }
  else none

/-- Layout of a file of 65536 x 65536 pixels with the render layer "A", 1 sample, and
the single average-type channel "A.Combined.R". -/
def huge_spec : ImageSpec :=
  { width := 65536, height := 65536, depth := 1, format := 0, deep := false, nchannels := 1,
    channelnames := ["A.Combined.R".toList], channelformats := [],
    extra_attribs := [{ name := "cycles.A.samples".toList, is_string := true, arraylen := 0,
                        value := "1".toList }] }

/-- Image source with the file "h" of `huge_spec`, all of whose pixels are 1. -/
def huge_fs (path : List Char) : Option ImageInput :=
  if path = "h".toList then
    some { spec := huge_spec, data := some (List.replicate (65536 * 65536) 1) }
  else none

/-! ## The pass classifier -/

theorem startswith_iff (s start : List Char) :
    string_startswith s start = true ↔ ∃ t, s = start ++ t := by
  unfold string_startswith
  rw [List.isPrefixOf_iff_prefix]
  constructor
  · rintro ⟨t, rfl⟩; exact ⟨t, rfl⟩
  · rintro ⟨t, rfl⟩; exact ⟨t, rfl⟩

theorem samples_not_copy (name : List Char)
    (h : string_startswith name "Debug Sample Count".toList = true) : ¬ copy_class name := by
  obtain ⟨t, rfl⟩ := (startswith_iff _ _).mp h
  unfold copy_class string_startswith
  simp [String.toList]

theorem samples_not_sum (name : List Char)
    (h : string_startswith name "Debug Sample Count".toList = true) : ¬ sum_prefixed name := by
  obtain ⟨t, rfl⟩ := (startswith_iff _ _).mp h
  unfold sum_prefixed string_startswith
  simp [String.toList]

theorem parse_channel_operation_cases (name : List Char) :
    (copy_class name ∧ parse_channel_operation name = MERGE_CHANNEL_COPY) ∨
    (¬ copy_class name ∧ sum_prefixed name ∧ parse_channel_operation name = MERGE_CHANNEL_SUM) ∨
    (¬ copy_class name ∧ ¬ sum_prefixed name ∧
      string_startswith name "Debug Sample Count".toList = true ∧
      parse_channel_operation name = MERGE_CHANNEL_SAMPLES) ∨
    (¬ copy_class name ∧ ¬ sum_prefixed name ∧
      string_startswith name "Debug Sample Count".toList = false ∧
      parse_channel_operation name = MERGE_CHANNEL_AVERAGE) := by
  unfold parse_channel_operation copy_class sum_prefixed
  by_cases h1 : name = "Depth".toList ∨ name = "IndexMA".toList ∨
      name = "IndexOB".toList ∨ string_startswith name "Crypto".toList = true
  · left; exact ⟨h1, by rw [if_pos h1]⟩
  · right
    rw [if_neg h1]
    by_cases h2 : string_startswith name "Debug BVH".toList = true ∨
      string_startswith name "Debug Ray".toList = true ∨
      string_startswith name "Debug Render Time".toList = true
    · left; exact ⟨h1, h2, by rw [if_pos h2]⟩
    · right
      rw [if_neg h2]
      by_cases h3 : string_startswith name "Debug Sample Count".toList = true
      · left; exact ⟨h1, h2, h3, by rw [if_pos h3]⟩
      · right; exact ⟨h1, h2, by simpa using h3, by rw [if_neg h3]⟩

/-- C4, as amended: `parse_channel_operation` returns sample-count-reconstruction
exactly for the pass names that start with "Debug Sample Count" (the name
"Debug Sample Count" itself among them), and sample-weighted-average exactly for
the names that do not start with it and are neither in the copy class nor start
with "Debug BVH", "Debug Ray" or "Debug Render Time". -/
theorem parse_channel_operation_samples_average (name : List Char) :
    parse_channel_operation "Debug Sample Count".toList = MERGE_CHANNEL_SAMPLES ∧
    (parse_channel_operation name = MERGE_CHANNEL_SAMPLES ↔
      string_startswith name "Debug Sample Count".toList = true) ∧
    (parse_channel_operation name = MERGE_CHANNEL_AVERAGE ↔
      (string_startswith name "Debug Sample Count".toList = false ∧
        ¬ copy_class name ∧ ¬ sum_prefixed name)) := by
  refine ⟨by decide, ?_, ?_⟩
  · constructor
    · intro h
      rcases parse_channel_operation_cases name with ⟨_, e⟩ | ⟨_, _, e⟩ | ⟨_, _, hs, _⟩ |
        ⟨_, _, _, e⟩
      · rw [h] at e; cases e
      · rw [h] at e; cases e
      · exact hs
      · rw [h] at e; cases e
    · intro h
      rcases parse_channel_operation_cases name with ⟨hc, _⟩ | ⟨_, hs, _⟩ | ⟨_, _, _, e⟩ |
        ⟨_, _, hs, _⟩
      · exact absurd hc (samples_not_copy name h)
      · exact absurd hs (samples_not_sum name h)
      · exact e
      · rw [h] at hs; cases hs
  · constructor
    · intro h
      rcases parse_channel_operation_cases name with ⟨_, e⟩ | ⟨_, _, e⟩ | ⟨_, _, _, e⟩ |
        ⟨hc, hs, hp, _⟩
      · rw [h] at e; cases e
      · rw [h] at e; cases e
      · rw [h] at e; cases e
      · exact ⟨hp, hc, hs⟩
    · rintro ⟨hp, hc, hs⟩
      rcases parse_channel_operation_cases name with ⟨hc1, _⟩ | ⟨_, hs1, _⟩ | ⟨_, _, hp1, _⟩ |
        ⟨_, _, _, e⟩
      · exact absurd hc1 hc
      · exact absurd hs1 hs
      · rw [hp] at hp1; cases hp1
      · exact e

/-- C4, counterexample: the pass name "Debug Sample Count2" differs from
"Debug Sample Count" and is in neither the copy nor the sum class, yet it is not
classified sample-weighted-average. -/
theorem parse_channel_operation_other_name_not_average :
    ¬ (∀ name : List Char, name ≠ "Debug Sample Count".toList → ¬ copy_class name →
        ¬ sum_prefixed name → parse_channel_operation name = MERGE_CHANNEL_AVERAGE) := by
  intro h
  have h1 := h "Debug Sample Count2".toList (by decide)
    (by unfold copy_class; decide) (by unfold sum_prefixed; decide)
  revert h1
  decide

/-- C5: `parse_channel_operation` returns copy exactly on the copy class ("Depth",
"IndexMA", "IndexOB", names starting with "Crypto"), returns sum exactly on the
names outside the copy class that start with "Debug BVH", "Debug Ray" or
"Debug Render Time", and never returns no-op. -/
theorem parse_channel_operation_copy_sum (name : List Char) :
    (parse_channel_operation name = MERGE_CHANNEL_COPY ↔ copy_class name) ∧
    (parse_channel_operation name = MERGE_CHANNEL_SUM ↔
      (¬ copy_class name ∧ sum_prefixed name)) ∧
    parse_channel_operation name ≠ MERGE_CHANNEL_NOP := by
  rcases parse_channel_operation_cases name with ⟨hc, e⟩ | ⟨hc, hs, e⟩ | ⟨hc, hs, _, e⟩ |
    ⟨hc, hs, _, e⟩ <;> rw [e] <;> simp [*]

/-! ## The channel name grammar -/

theorem rfind_dot_eq_none (s : List Char) : rfind_dot s = none ↔ '.' ∉ s := by
  induction s with
  | nil => simp [rfind_dot]
  | cons c cs ih =>
    unfold rfind_dot
    cases h : rfind_dot cs with
    | none =>
      have := ih.mp h
      by_cases hc : c = '.'
      · simp [hc]
      · simp [hc, this, Ne.symm hc]
    | some pos =>
      have : '.' ∈ cs := by
        by_contra hn
        rw [ih.mpr hn] at h
        cases h
      simp [this]

theorem rfind_dot_append (r c : List Char) (hc : '.' ∉ c) :
    rfind_dot (r ++ '.' :: c) = some r.length := by
  induction r with
  | nil => simp [rfind_dot, (rfind_dot_eq_none c).mpr hc]
  | cons a r ih => simp [rfind_dot, ih]

theorem split_last_dot_append (r c : List Char) (hc : '.' ∉ c) :
    split_last_dot (r ++ '.' :: c) = some (r, c) := by
  simp [split_last_dot, rfind_dot_append r c hc, substr]

theorem exists_last_dot (s : List Char) (h : '.' ∈ s) :
    ∃ r c, s = r ++ '.' :: c ∧ '.' ∉ c := by
  induction s with
  | nil => simp at h
  | cons a s ih =>
    by_cases hs : '.' ∈ s
    · obtain ⟨r, c, rfl, hc⟩ := ih hs
      exact ⟨a :: r, c, rfl, hc⟩
    · have : a = '.' := by
        rcases List.mem_cons.mp h with h1 | h1
        · exact h1.symm
        · exact absurd h1 hs
      exact ⟨[], s, by simp [this], hs⟩

theorem split_last_dot_eq_none (s : List Char) : split_last_dot s = none ↔ '.' ∉ s := by
  constructor
  · intro h hs
    obtain ⟨r, c, rfl, hc⟩ := exists_last_dot s hs
    rw [split_last_dot_append r c hc] at h
    cases h
  · intro h
    simp [split_last_dot, (rfind_dot_eq_none s).mpr h]

theorem dots_eq_zero (s : List Char) : dots s = 0 ↔ '.' ∉ s := by
  unfold dots
  exact List.count_eq_zero

theorem dots_append (r c : List Char) : dots (r ++ '.' :: c) = dots r + 1 + dots c := by
  unfold dots
  simp [List.count_append, List.count_cons]
  omega

theorem split_dots_ne_nil (s : List Char) : split_dots s ≠ [] := by
  induction s with
  | nil => simp [split_dots]
  | cons a s ih =>
    unfold split_dots
    split
    · simp
    · split <;> simp

theorem split_dots_no_dot (c : List Char) (hc : '.' ∉ c) : split_dots c = [c] := by
  induction c with
  | nil => rfl
  | cons a c ih =>
    have ha : a ≠ '.' := fun h => hc (by simp [h])
    have hc2 : '.' ∉ c := fun h => hc (List.mem_cons_of_mem _ h)
    simp [split_dots, ha, ih hc2]

theorem split_dots_append (r c : List Char) (hc : '.' ∉ c) :
    split_dots (r ++ '.' :: c) = split_dots r ++ [c] := by
  induction r with
  | nil => simp [split_dots, split_dots_no_dot c hc]
  | cons a r ih =>
    by_cases ha : a = '.'
    · simp [split_dots, ha, ih]
    · simp only [List.cons_append, split_dots, ha, if_false, List.append_eq]
      rw [ih]
      cases h : split_dots r with
      | nil => exact absurd h (split_dots_ne_nil r)
      | cons s ss => simp

theorem join_split_dots (s : List Char) : join_dots (split_dots s) = s := by
  induction s with
  | nil => rfl
  | cons a s ih =>
    cases h : split_dots s with
    | nil => exact absurd h (split_dots_ne_nil s)
    | cons t ss =>
      rw [h] at ih
      by_cases ha : a = '.'
      · simp [split_dots, ha, h, join_dots, ih]
      · simp only [split_dots, ha, if_false, h]
        cases ss with
        | nil => simpa [join_dots] using ih
        | cons u ss => simp only [join_dots, List.cons_append] at ih ⊢; rw [ih]

theorem split_cases (s : List Char) :
    (dots s = 0 ∧ split_last_dot s = none ∧ (split_dots s).reverse = [s]) ∨
    (∃ r c, s = r ++ '.' :: c ∧ dots c = 0 ∧ dots s = dots r + 1 ∧
      split_last_dot s = some (r, c) ∧ (split_dots s).reverse = c :: (split_dots r).reverse) := by
  by_cases hs : '.' ∈ s
  · obtain ⟨r, c, rfl, hc⟩ := exists_last_dot s hs
    refine Or.inr ⟨r, c, rfl, (dots_eq_zero c).mpr hc, ?_, split_last_dot_append r c hc, ?_⟩
    · rw [dots_append, (dots_eq_zero c).mpr hc]
    · rw [split_dots_append r c hc]; simp
  · exact Or.inl ⟨(dots_eq_zero s).mpr hs, (split_last_dot_eq_none s).mpr hs,
      by rw [split_dots_no_dot s hs]; rfl⟩

theorem split_dots_reverse_cons (s : List Char) :
    ∃ x xs, (split_dots s).reverse = x :: xs ∧ join_dots (x :: xs).reverse = s := by
  obtain ⟨x, xs, hx⟩ := List.exists_cons_of_ne_nil
    (show (split_dots s).reverse ≠ [] by simpa using split_dots_ne_nil s)
  exact ⟨x, xs, hx, by rw [← hx, List.reverse_reverse, join_split_dots]⟩

/-- C7: for every identifier and both settings of multiview, `parse_channel_name`
equals the reference grammar `parse_channel_name_ref` (channel = last segment, view =
the segment before it under multiview, pass = the segment before that, render layer
= the remaining segments joined by dots, with the view appended under multiview), and
it fails exactly when the identifier has fewer than 2 dots, under multiview fewer
than 3 dots. -/
theorem parse_channel_name_eq_ref (name : List Char) (multiview : Bool) :
    parse_channel_name name multiview = parse_channel_name_ref name multiview ∧
      (parse_channel_name name multiview = none ↔
        dots name < (if multiview then 3 else 2)) := by
  unfold parse_channel_name parse_channel_name_ref
  rcases split_cases name with ⟨d0, h0, e0⟩ | ⟨n1, c, rfl, dc, d0, h0, e0⟩
  · rw [h0, e0]
    cases multiview <;> simp [d0]
  · rw [h0, e0, d0]
    cases multiview
    · rcases split_cases n1 with ⟨d1, h1, e1⟩ | ⟨n3, p, rfl, dp, d1, h1, e1⟩
      · simp [h1, e1, d1]
      · obtain ⟨x, xs, hx, hj⟩ := split_dots_reverse_cons n3
        simp only [Bool.false_eq_true, if_false, h1, e1, d1, hx, hj]
        simp
    · rcases split_cases n1 with ⟨d1, h1, e1⟩ | ⟨n2, v, rfl, dv, d1, h1, e1⟩
      · simp [h1, e1, d1]
      · rcases split_cases n2 with ⟨d2, h2, e2⟩ | ⟨n3, p, rfl, dp, d2, h2, e2⟩
        · simp [h1, e1, d1, h2, e2, d2]
        · obtain ⟨x, xs, hx, hj⟩ := split_dots_reverse_cons n3
          simp only [if_true, h1, e1, d1, h2, e2, d2, hx, hj]
          simp

/-- C6, as amended: an identifier with at least 3 dot-separated segments (at least 4
under multiview) is parsed successfully; without multiview the returned render
layer, pass and channel joined by dots give back the identifier; under multiview the
returned render layer is `r.v` for a view segment `v` and `r.pass.v.channel` is the
identifier. -/
theorem parse_channel_name_join (name : List Char) (multiview : Bool)
    (h : (if multiview then 3 else 2) ≤ dots name) :
    ∃ r v p c, dots v = 0 ∧ dots p = 0 ∧ dots c = 0 ∧
      parse_channel_name name multiview =
        some (if multiview then r ++ ".".toList ++ v else r, p, c) ∧
      name = (if multiview then r ++ ".".toList ++ p ++ ".".toList ++ v ++ ".".toList ++ c
              else r ++ ".".toList ++ p ++ ".".toList ++ c) := by
  unfold parse_channel_name
  rcases split_cases name with ⟨d0, h0, e0⟩ | ⟨n1, c, rfl, dc, d0, h0, e0⟩
  · rw [d0] at h; split at h <;> omega
  · rw [h0]
    rw [d0] at h
    cases multiview
    · rcases split_cases n1 with ⟨d1, h1, e1⟩ | ⟨n3, p, rfl, dp, d1, h1, e1⟩
      · simp at h; omega
      · exact ⟨n3, [], p, c, rfl, dp, dc, by simp [h1], by simp⟩
    · rcases split_cases n1 with ⟨d1, h1, e1⟩ | ⟨n2, v, rfl, dv, d1, h1, e1⟩
      · simp at h; omega
      · rcases split_cases n2 with ⟨d2, h2, e2⟩ | ⟨n3, p, rfl, dp, d2, h2, e2⟩
        · simp at h; omega
        · exact ⟨n3, v, p, c, dv, dp, dc, by simp only [if_true, h1, h2]; simp, by simp⟩


/-- Witness of `parse_channel_name_join` on a three-segment identifier. -/
theorem parse_channel_name_join_witness :
    (if false then 3 else 2) ≤ dots "View Layer.Combined.R".toList ∧
    ∃ r v p c, dots v = 0 ∧ dots p = 0 ∧ dots c = 0 ∧
      parse_channel_name "View Layer.Combined.R".toList false =
        some (if false then r ++ ".".toList ++ v else r, p, c) ∧
      "View Layer.Combined.R".toList =
        (if false then r ++ ".".toList ++ p ++ ".".toList ++ v ++ ".".toList ++ c
         else r ++ ".".toList ++ p ++ ".".toList ++ c) :=
  ⟨by decide, parse_channel_name_join "View Layer.Combined.R".toList false (by decide)⟩

/-- C6, counterexample: under multiview the four-segment identifier
"View Layer.Combined.left.R" is parsed, but the returned render layer, pass and
channel joined by dots give "View Layer.left.Combined.R", not the identifier. -/
theorem parse_channel_name_multiview_no_roundtrip :
    4 ≤ dots "View Layer.Combined.left.R".toList + 1 ∧
    parse_channel_name "View Layer.Combined.left.R".toList true =
      some ("View Layer.left".toList, "Combined".toList, "R".toList) ∧
    "View Layer.left".toList ++ ".".toList ++ "Combined".toList ++ ".".toList ++ "R".toList ≠
      "View Layer.Combined.left.R".toList := by
  decide

/-! ## The layer model -/

theorem str_lt_irrefl (a : List Char) : str_lt a a = false := by
  induction a with
  | nil => rfl
  | cons x xs ih => simp [str_lt, ih]

theorem str_lt_trans (a b c : List Char) (h1 : str_lt a b = true) (h2 : str_lt b c = true) :
    str_lt a c = true := by
  induction a generalizing b c with
  | nil =>
    cases b with
    | nil => simp [str_lt] at h1
    | cons y ys =>
      cases c with
      | nil => simp [str_lt] at h2
      | cons z zs => simp [str_lt]
  | cons x xs ih =>
    cases b with
    | nil => simp [str_lt] at h1
    | cons y ys =>
      cases c with
      | nil => simp [str_lt] at h2
      | cons z zs =>
        simp only [str_lt, Bool.decide_or, Bool.decide_and, Bool.or_eq_true, Bool.and_eq_true,
          decide_eq_true_eq] at h1 h2 ⊢
        rcases h1 with h1 | ⟨rfl, h1⟩
        · rcases h2 with h2 | ⟨rfl, h2⟩
          · exact Or.inl (lt_trans h1 h2)
          · exact Or.inl h1
        · rcases h2 with h2 | ⟨rfl, h2⟩
          · exact Or.inl h2
          · exact Or.inr ⟨rfl, ih ys zs h1 h2⟩

theorem str_lt_total (a b : List Char) (h1 : str_lt a b = false) (h2 : a ≠ b) :
    str_lt b a = true := by
  induction a generalizing b with
  | nil =>
    cases b with
    | nil => exact absurd rfl h2
    | cons y ys => simp [str_lt] at h1
  | cons x xs ih =>
    cases b with
    | nil => simp [str_lt]
    | cons y ys =>
      simp only [str_lt, Bool.decide_or, Bool.decide_and, Bool.or_eq_false_iff,
        Bool.and_eq_false_imp, decide_eq_false_iff_not, decide_eq_true_eq,
        Bool.or_eq_true, Bool.and_eq_true] at h1 ⊢
      rcases lt_trichotomy x y with h | h | h
      · exact absurd h h1.1
      · subst h
        have h3 : str_lt xs ys = false := by simpa using h1.2 rfl
        have h4 : xs ≠ ys := fun e => h2 (by rw [e])
        exact Or.inr ⟨rfl, ih ys h3 h4⟩
      · exact Or.inl h

theorem sorted_keys_nodup {β : Type} (m : List (List Char × β)) (h : sorted_keys m) :
    (m.map (fun e => e.1)).Nodup := by
  unfold sorted_keys at h
  rw [List.Nodup, List.pairwise_map]
  refine h.imp ?_
  intro a b hab e
  rw [e, str_lt_irrefl] at hab
  cases hab


theorem map_push_pass_keys (k : List Char) (p : MergeImagePass)
    (m : List (List Char × MergeImageLayer)) :
    ∀ e ∈ map_push_pass k p m, e.1 = k ∨ ∃ e0 ∈ m, e0.1 = e.1 := by
  induction m with
  | nil => intro e he; simp [map_push_pass] at he; left; rw [he]
  | cons a m ih =>
    obtain ⟨k1, v1⟩ := a
    intro e he
    unfold map_push_pass at he
    split_ifs at he with h1 h2
    · rcases List.mem_cons.mp he with rfl | he
      · right; exact ⟨(k1, v1), by simp, rfl⟩
      · right; exact ⟨e, by simp [he], rfl⟩
    · rcases List.mem_cons.mp he with rfl | he
      · left; rfl
      · right; exact ⟨e, he, rfl⟩
    · rcases List.mem_cons.mp he with rfl | he
      · right; exact ⟨(k1, v1), by simp, rfl⟩
      · rcases ih e he with h | ⟨e0, h0, h⟩
        · left; exact h
        · right; exact ⟨e0, by simp [h0], h⟩

theorem map_push_pass_sorted (k : List Char) (p : MergeImagePass)
    (m : List (List Char × MergeImageLayer)) (h : sorted_keys m) :
    sorted_keys (map_push_pass k p m) := by
  induction m with
  | nil => simp [map_push_pass, sorted_keys]
  | cons a m ih =>
    obtain ⟨k1, v1⟩ := a
    unfold sorted_keys at h ih ⊢
    rw [List.pairwise_cons] at h
    unfold map_push_pass
    split_ifs with h1 h2
    · rw [List.pairwise_cons]; exact ⟨h.1, h.2⟩
    · rw [List.pairwise_cons]
      refine ⟨?_, List.pairwise_cons.mpr h⟩
      intro e he
      rcases List.mem_cons.mp he with rfl | he
      · exact h2
      · exact str_lt_trans _ _ _ h2 (h.1 e he)
    · rw [List.pairwise_cons]
      refine ⟨?_, ih h.2⟩
      intro e he
      rcases map_push_pass_keys k p m e he with h3 | ⟨e0, h0, h3⟩
      · rw [h3]
        exact str_lt_total k k1 (by simpa using h2) h1
      · rw [← h3]; exact h.1 e0 h0

theorem map_push_pass_perm (k : List Char) (p : MergeImagePass)
    (m : List (List Char × MergeImageLayer)) :
    (map_passes (map_push_pass k p m)).Perm (map_passes m ++ [p]) := by
  induction m with
  | nil => simp [map_push_pass, map_passes, MergeImageLayer.empty]
  | cons a m ih =>
    obtain ⟨k1, v1⟩ := a
    unfold map_push_pass
    unfold map_passes at ih ⊢
    split_ifs with h1 h2
    · simp only [List.flatMap_cons, List.append_assoc]
      exact List.Perm.append_left _ List.perm_append_comm
    · simp only [List.flatMap_cons, MergeImageLayer.empty]
      exact List.perm_append_comm
    · simp only [List.flatMap_cons, List.append_assoc]
      exact List.Perm.append_left _ ih

theorem parse_channel_loop_sorted (in_spec : ImageSpec) (n i : Nat)
    (m : List (List Char × MergeImageLayer)) (h : sorted_keys m) :
    sorted_keys (parse_channel_loop in_spec n i m) := by
  induction n generalizing i m with
  | zero => exact h
  | succ n ih => exact ih _ _ (map_push_pass_sorted _ _ _ h)

theorem parse_channel_loop_perm (in_spec : ImageSpec) (n i : Nat)
    (m : List (List Char × MergeImageLayer)) :
    (map_passes (parse_channel_loop in_spec n i m)).Perm
      (map_passes m ++ (List.range' i n).map (fun j => (parse_channel in_spec j).2)) := by
  induction n generalizing i m with
  | zero => simp [parse_channel_loop]
  | succ n ih =>
    unfold parse_channel_loop
    refine (ih (i + 1) _).trans ?_
    rw [List.range'_succ, List.map_cons]
    have := map_push_pass_perm (parse_channel in_spec i).1 (parse_channel in_spec i).2 m
    refine (List.Perm.append_right _ this).trans ?_
    simp

theorem rename_layer_step_cases (m : List (List Char × MergeImageLayer)) (attrib : ParamValue) :
    rename_layer_step m attrib = m ∨
      ∃ name, rename_layer_step m attrib = [(name, (m.lookup []).getD MergeImageLayer.empty)] := by
  unfold rename_layer_step
  simp only []
  split_ifs
  · right; exact ⟨_, rfl⟩
  · left; rfl

theorem rename_layer_step_single (l0 : MergeImageLayer) (m : List (List Char × MergeImageLayer))
    (attrib : ParamValue) (h : single_of l0 m) : single_of l0 (rename_layer_step m attrib) := by
  rcases rename_layer_step_cases m attrib with e | ⟨name, e⟩
  · rw [e]; exact h
  · rw [e]
    obtain ⟨k, l, rfl, hl⟩ := h
    refine ⟨name, _, rfl, ?_⟩
    by_cases hk : k = []
    · subst hk
      simp [List.lookup]
      exact hl
    · right
      have : (([] : List Char) == k) = false := by
        simpa using hk
      simp [List.lookup, this]

theorem rename_fold_single (l0 : MergeImageLayer) (attribs : List ParamValue)
    (m : List (List Char × MergeImageLayer)) (h : single_of l0 m) :
    single_of l0 (attribs.foldl rename_layer_step m) := by
  induction attribs generalizing m with
  | nil => exact h
  | cons a as ih => exact ih _ (rename_layer_step_single l0 m a h)

theorem rename_single_layer_cases (in_spec : ImageSpec) (m : List (List Char × MergeImageLayer)) :
    rename_single_layer in_spec m = m ∨
      ∃ l0, m = [([], l0)] ∧ single_of l0 (rename_single_layer in_spec m) := by
  unfold rename_single_layer
  split_ifs with h
  · right
    obtain ⟨h1, h2⟩ := h
    match m, h1 with
    | [(k, l0)], _ =>
      by_cases hk : k = []
      · subst hk
        exact ⟨l0, rfl, rename_fold_single l0 _ _ ⟨[], l0, rfl, Or.inl rfl⟩⟩
      · have : (([] : List Char) == k) = false := by
          simpa using hk
        simp [List.lookup, this] at h2
  · left; rfl

theorem rename_single_layer_sorted (in_spec : ImageSpec) (m : List (List Char × MergeImageLayer))
    (h : sorted_keys m) : sorted_keys (rename_single_layer in_spec m) := by
  rcases rename_single_layer_cases in_spec m with e | ⟨l0, _, name, l, e, _⟩
  · rw [e]; exact h
  · rw [e]; simp [sorted_keys]

theorem rename_single_layer_sublist (in_spec : ImageSpec)
    (m : List (List Char × MergeImageLayer)) :
    (map_passes (rename_single_layer in_spec m)).Sublist (map_passes m) := by
  rcases rename_single_layer_cases in_spec m with e | ⟨l0, hm, name, l, e, hl⟩
  · rw [e]
  · rw [e, hm]
    rcases hl with rfl | rfl
    · simp [map_passes]
    · simp [map_passes, MergeImageLayer.empty]

theorem finish_layer_ok (in_spec : ImageSpec) (name : List Char) (layer0 l : MergeImageLayer)
    (h : finish_layer in_spec name layer0 = Except.ok l) :
    l.name = name ∧ l.passes = layer0.passes ∧ 1 ≤ l.samples ∧
    (name = [] → l.samples = 1) ∧
    (name ≠ [] → sample_string in_spec name ≠ [] ∧
      l.samples = (sscanf_d (sample_string in_spec name) 0).2) ∧
    (l.has_sample_pass = true →
      l.sample_pass_offset = l.passes.findIdx (fun pass => pass.name = "Debug Sample Count".toList) ∧
      l.sample_pass_offset < l.passes.length) ∧
    (l.has_sample_pass = false → ∀ pass ∈ l.passes, pass.name ≠ "Debug Sample Count".toList) := by
  unfold finish_layer at h
  simp only at h
  cases hr : resolve_samples in_spec name { layer0 with name := name, samples := 0 } with
  | error e => rw [hr] at h; cases h
  | ok samples =>
    rw [hr] at h
    simp only at h
    have hres : (name = [] → samples = 1) ∧
        (name ≠ [] → sample_string in_spec name ≠ [] ∧
          samples = (sscanf_d (sample_string in_spec name) 0).2 ∨ samples = 0) := by
      unfold resolve_samples at hr
      simp only at hr
      split_ifs at hr with h1 h2 h3 h4 <;> cases hr <;> simp_all [sample_string]
    split_ifs at h with h1 h2 <;> cases h
    all_goals simp_all
    all_goals
      intro hne
      rcases hres.2 hne with h3 | h3
      · exact h3
      · omega

theorem finish_layers_ok (in_spec : ImageSpec) (m : List (List Char × MergeImageLayer))
    (acc layers : List MergeImageLayer) (h : finish_layers in_spec m acc = Except.ok layers) :
    ∃ ls, layers = acc ++ ls ∧
      List.Forall₂ (fun e l => finish_layer in_spec e.1 e.2 = Except.ok l) m ls := by
  induction m generalizing acc with
  | nil =>
    simp only [finish_layers, Except.ok.injEq] at h
    exact ⟨[], by simp [h], List.Forall₂.nil⟩
  | cons e m ih =>
    obtain ⟨name, layer⟩ := e
    unfold finish_layers at h
    cases hf : finish_layer in_spec name layer with
    | error e => rw [hf] at h; cases h
    | ok l =>
      rw [hf] at h
      obtain ⟨ls, h1, h2⟩ := ih _ h
      exact ⟨l :: ls, by simp [h1], List.Forall₂.cons hf h2⟩

theorem forall₂_finish_names (in_spec : ImageSpec) (m : List (List Char × MergeImageLayer))
    (ls : List MergeImageLayer)
    (h : List.Forall₂ (fun e l => finish_layer in_spec e.1 e.2 = Except.ok l) m ls) :
    ls.map (fun l => l.name) = m.map (fun e => e.1) ∧ all_passes ls = map_passes m := by
  induction h with
  | nil => exact ⟨rfl, rfl⟩
  | cons h1 _ ih =>
    obtain ⟨hn, hp, _⟩ := finish_layer_ok _ _ _ _ h1
    unfold all_passes map_passes at ih ⊢
    simp [hn, hp, ih.1, ih.2]

theorem forall₂_finish_mem (in_spec : ImageSpec) (m : List (List Char × MergeImageLayer))
    (ls : List MergeImageLayer)
    (h : List.Forall₂ (fun e l => finish_layer in_spec e.1 e.2 = Except.ok l) m ls) :
    (∀ l ∈ ls, ∃ e ∈ m, finish_layer in_spec e.1 e.2 = Except.ok l) ∧
    (∀ e ∈ m, ∃ l ∈ ls, finish_layer in_spec e.1 e.2 = Except.ok l) := by
  induction h with
  | nil => exact ⟨fun l hl => (by cases hl), fun e he => (by cases he)⟩
  | cons h1 _ ih =>
    constructor
    · intro l hl
      rcases List.mem_cons.mp hl with rfl | hl
      · exact ⟨_, by simp, h1⟩
      · obtain ⟨e, he, h⟩ := ih.1 l hl
        exact ⟨e, by simp [he], h⟩
    · intro e he
      rcases List.mem_cons.mp he with rfl | he
      · exact ⟨_, by simp, h1⟩
      · obtain ⟨l, hl, h⟩ := ih.2 e he
        exact ⟨l, by simp [hl], h⟩

theorem file_layers_sorted (in_spec : ImageSpec) : sorted_keys (file_layers in_spec) :=
  rename_single_layer_sorted _ _ (parse_channel_loop_sorted _ _ _ _ (by simp [sorted_keys]))

theorem file_layers_passes (in_spec : ImageSpec) :
    ∃ ps, (map_passes (file_layers in_spec)).Sublist ps ∧
      ps.Perm ((List.range in_spec.nchannels).map (fun j => (parse_channel in_spec j).2)) := by
  refine ⟨_, rename_single_layer_sublist _ _, ?_⟩
  have := parse_channel_loop_perm in_spec in_spec.nchannels 0 []
  simpa [map_passes, List.range_eq_range'] using this

theorem parse_channel_offset (in_spec : ImageSpec) (i : Nat) :
    (parse_channel in_spec i).2.offset = i ∧
    (parse_channel in_spec i).2.channel_name = in_spec.channelnames.getD i [] := by
  unfold parse_channel
  simp only []
  split <;> exact ⟨rfl, rfl⟩



theorem parse_channels_ok (in_spec : ImageSpec) (layers : List MergeImageLayer)
    (h : parse_channels in_spec = Except.ok layers) :
    (layers.map (fun l => l.name)).Nodup ∧
    ((all_passes layers).map (fun p => p.offset)).Nodup ∧
    (∀ p ∈ all_passes layers, p.offset < in_spec.nchannels ∧
      p.channel_name = in_spec.channelnames.getD p.offset []) ∧
    (∀ l ∈ layers, ∃ e ∈ file_layers in_spec, finish_layer in_spec e.1 e.2 = Except.ok l) ∧
    (∀ e ∈ file_layers in_spec, ∃ l ∈ layers, finish_layer in_spec e.1 e.2 = Except.ok l) := by
  unfold parse_channels at h
  obtain ⟨ls, h1, h2⟩ := finish_layers_ok _ _ _ _ h
  rw [List.nil_append] at h1
  subst h1
  obtain ⟨hn, hp⟩ := forall₂_finish_names _ _ _ h2
  obtain ⟨hm1, hm2⟩ := forall₂_finish_mem _ _ _ h2
  obtain ⟨ps, hsub, hperm⟩ := file_layers_passes in_spec
  refine ⟨?_, ?_, ?_, hm1, hm2⟩
  · rw [hn]; exact sorted_keys_nodup _ (file_layers_sorted in_spec)
  · rw [hp]
    refine List.Nodup.sublist (hsub.map _) ?_
    rw [(hperm.map _).nodup_iff, List.map_map]
    have : ((fun p => p.offset) ∘ fun j => (parse_channel in_spec j).2) = id := by
      funext j; exact (parse_channel_offset in_spec j).1
    rw [this, List.map_id]
    exact List.nodup_range _
  · intro p hp2
    rw [hp] at hp2
    have := hperm.subset (hsub.subset hp2)
    obtain ⟨j, hj, rfl⟩ := List.mem_map.mp this
    rw [(parse_channel_offset in_spec j).1, (parse_channel_offset in_spec j).2]
    exact ⟨List.mem_range.mp hj, rfl⟩

theorem parse_channels_names_nodup (in_spec : ImageSpec) (layers : List MergeImageLayer)
    (hwf : in_spec.wf) (h : parse_channels in_spec = Except.ok layers) :
    ((all_passes layers).map (fun p => p.channel_name)).Nodup := by
  obtain ⟨_, h2, h3, _⟩ := parse_channels_ok in_spec layers h
  rw [List.Nodup, List.pairwise_map] at h2 ⊢
  have h4 : (all_passes layers).Pairwise (fun a b => a ∈ all_passes layers ∧ b ∈ all_passes layers ∧ a.offset ≠ b.offset) := by
    rw [List.pairwise_iff_forall_sublist] at h2 ⊢
    intro a b hab
    exact ⟨hab.subset (by simp), hab.subset (by simp), h2 hab⟩
  refine h4.imp ?_
  rintro a b ⟨ha, hb, hab⟩ e
  obtain ⟨ha1, ha2⟩ := h3 a ha
  obtain ⟨hb1, hb2⟩ := h3 b hb
  rw [ha2, hb2] at e
  rw [hwf.1] at ha1 hb1
  rw [List.getD_eq_getElem _ _ ha1, List.getD_eq_getElem _ _ hb1] at e
  exact hab ((List.Nodup.getElem_inj_iff hwf.2).mp e)

/-- C10: `parse_channels` fails whenever a named layer of the file has a sample
count that resolves to less than 1: its "cycles.<layer>.samples" attribute is
missing or empty, or holds a number below 1. Whenever it succeeds, every returned
layer has at least 1 sample, a named layer has the number its attribute holds, and
a layer with the empty name has exactly 1 sample. -/
theorem parse_channels_sample_validation (in_spec : ImageSpec) :
    (∀ e ∈ file_layers in_spec, e.1 ≠ [] →
      (sample_string in_spec e.1 = [] ∨ (sscanf_d (sample_string in_spec e.1) 0).2 < 1) →
      ∃ msg, parse_channels in_spec = Except.error msg) ∧
    (∀ layers, parse_channels in_spec = Except.ok layers →
      ∀ l ∈ layers, 1 ≤ l.samples ∧ (l.name = [] → l.samples = 1) ∧
        (l.name ≠ [] → sample_string in_spec l.name ≠ [] ∧
          l.samples = (sscanf_d (sample_string in_spec l.name) 0).2)) := by
  constructor
  · intro e he hne hbad
    cases hp : parse_channels in_spec with
    | error msg => exact ⟨msg, rfl⟩
    | ok layers =>
      exfalso
      obtain ⟨_, _, _, _, h5⟩ := parse_channels_ok in_spec layers hp
      obtain ⟨l, _, hl⟩ := h5 e he
      obtain ⟨_, _, h1, _, h2, _⟩ := finish_layer_ok _ _ _ _ hl
      obtain ⟨h3, h4⟩ := h2 hne
      rcases hbad with hb | hb
      · exact h3 hb
      · rw [← h4] at hb; omega
  · intro layers hp l hl
    obtain ⟨_, _, _, h4, _⟩ := parse_channels_ok in_spec layers hp
    obtain ⟨e, _, he⟩ := h4 l hl
    obtain ⟨hn, _, h1, h2, h3, _⟩ := finish_layer_ok _ _ _ _ he
    rw [hn]
    exact ⟨h1, h2, h3⟩

/-- Witness of `parse_channels_sample_validation`: the example layout with the
samples attribute "0" is rejected, and the one with "16" yields a layer of 16
samples. -/
theorem parse_channels_sample_validation_witness :
    (∃ msg, parse_channels (example_spec "0".toList) = Except.error msg) ∧
    (∀ l ∈ example_layers 16, 1 ≤ l.samples ∧ (l.name = [] → l.samples = 1) ∧
      (l.name ≠ [] → sample_string (example_spec "16".toList) l.name ≠ [] ∧
        l.samples = (sscanf_d (sample_string (example_spec "16".toList) l.name) 0).2)) :=
  ⟨(parse_channels_sample_validation (example_spec "0".toList)).1
      ("A".toList, (((file_layers (example_spec "0".toList)).lookup "A".toList).getD
        MergeImageLayer.empty)) (by decide) (by decide) (Or.inr (by decide)),
    (parse_channels_sample_validation (example_spec "16".toList)).2 (example_layers 16)
      (by rfl)⟩


/-! ## Opening the images -/

theorem open_image_ok (fs : List Char → Option ImageInput) (path : List Char)
    (acc images : List MergeImage) (h : open_image fs path acc = Except.ok images) :
    ∃ image, images = acc ++ [image] ∧ opened_from fs path image ∧
      ∀ base, acc.head? = some base → same_layout base.inp.spec image.inp.spec := by
  unfold open_image at h
  cases hf : fs path with
  | none => rw [hf] at h; cases h
  | some inp =>
    rw [hf] at h
    simp only at h
    cases hp : parse_channels inp.spec with
    | error e => rw [hp] at h; cases h
    | ok layers =>
      rw [hp] at h
      simp only at h
      split_ifs at h with h1 h2
      cases acc with
      | nil =>
        simp only [Except.ok.injEq] at h
        subst h
        refine ⟨_, rfl, ⟨hf, rfl, hp, ?_, by simpa using h2⟩, by simp⟩
        intro e; apply h1; simp only at e; simp [e]
      | cons base rest =>
        simp only at h
        split_ifs at h with h3
        simp only [Except.ok.injEq] at h
        subst h
        refine ⟨_, rfl, ⟨hf, rfl, hp, ?_, by simpa using h2⟩, ?_⟩
        · intro e; apply h1; simp only at e; simp [e]
        · intro b hb
          simp only [List.head?_cons, Option.some.injEq] at hb
          subst hb
          simp only [not_or, not_not] at h3
          exact h3

theorem open_images_ok (fs : List Char → Option ImageInput) (paths : List (List Char))
    (acc images : List MergeImage) (h : open_images fs paths acc = Except.ok images) :
    ∃ new, images = acc ++ new ∧ List.Forall₂ (opened_from fs) paths new ∧
      ∀ base, images.head? = some base →
        ∀ image ∈ new, same_layout base.inp.spec image.inp.spec := by
  induction paths generalizing acc with
  | nil =>
    simp only [open_images, Except.ok.injEq] at h
    exact ⟨[], by simp [h], List.Forall₂.nil, fun _ _ _ hi => by cases hi⟩
  | cons path rest ih =>
    unfold open_images at h
    cases ho : open_image fs path acc with
    | error e => rw [ho] at h; cases h
    | ok images1 =>
      rw [ho] at h
      simp only at h
      obtain ⟨image, h1, h2, h3⟩ := open_image_ok _ _ _ _ ho
      obtain ⟨new, h4, h5, h6⟩ := ih _ h
      subst h1
      refine ⟨image :: new, by simp [h4], List.Forall₂.cons h2 h5, ?_⟩
      intro base hb img himg
      rcases List.mem_cons.mp himg with rfl | himg
      · cases acc with
        | nil =>
          rw [h4] at hb
          simp only [List.nil_append, List.singleton_append, List.head?_cons,
            Option.some.injEq] at hb
          subst hb
          exact ⟨rfl, rfl, rfl, rfl, rfl⟩
        | cons b acc1 =>
          rw [h4] at hb
          simp only [List.cons_append, List.head?_cons, Option.some.injEq] at hb
          subst hb
          exact h3 _ rfl
      · exact h6 base hb img himg

theorem open_images_nil_ok (fs : List Char → Option ImageInput) (paths : List (List Char))
    (images : List MergeImage) (h : open_images fs paths [] = Except.ok images) :
    List.Forall₂ (opened_from fs) paths images ∧
      ∀ base, images.head? = some base →
        ∀ image ∈ images, same_layout base.inp.spec image.inp.spec := by
  obtain ⟨new, h1, h2, h3⟩ := open_images_ok _ _ _ _ h
  rw [List.nil_append] at h1
  subst h1
  exact ⟨h2, h3⟩


/-! ## Merged metadata -/

theorem wrap32_id (x : Int) (h1 : -2147483648 ≤ x) (h2 : x ≤ 2147483647) : wrap32 x = x := by
  unfold wrap32
  omega

theorem lookup_cons_ne {β : Type} (k k1 : List Char) (v : β) (m : List (List Char × β))
    (h : k ≠ k1) : ((k1, v) :: m).lookup k = m.lookup k := by
  have : (k == k1) = false := by simpa using h
  simp only [List.lookup, this]

theorem lookup_cons_self {β : Type} (k : List Char) (v : β) (m : List (List Char × β)) :
    ((k, v) :: m).lookup k = some v := by
  simp [List.lookup]

theorem read_layer_samples_eq_items (images : List MergeImage)
    (m : List (List Char × SampleCount)) :
    read_layer_samples images m = read_layer_items (layer_items images) m := by
  unfold read_layer_samples read_layer_items layer_items
  induction images generalizing m with
  | nil => rfl
  | cons image rest ih =>
    simp only [List.foldl_cons, List.flatMap_cons, List.foldl_append]
    rw [ih]
    congr 1
    unfold read_layer_samples_image
    rw [List.foldl_map]

theorem lookup_append_single {β : Type} (m : List (List Char × β)) (name k : List Char) (x : β)
    (h : m.lookup name = none) :
    (m ++ [(name, x)]).lookup k = if k = name then some x else m.lookup k := by
  induction m with
  | nil =>
    by_cases hk : k = name
    · subst hk; simp [lookup_cons_self]
    · simp [lookup_cons_ne _ _ _ _ hk, hk]
  | cons a m ih =>
    obtain ⟨k1, v1⟩ := a
    by_cases hn : name = k1
    · subst hn; rw [lookup_cons_self] at h; cases h
    · rw [lookup_cons_ne _ _ _ _ hn] at h
      rw [List.cons_append]
      by_cases hk : k = k1
      · subst hk
        have : ¬ k = name := fun e => hn e.symm
        simp [lookup_cons_self, this]
      · rw [lookup_cons_ne _ _ _ _ hk, lookup_cons_ne _ _ _ _ hk, ih h]

theorem lookup_umap_set (m : List (List Char × SampleCount)) (name k : List Char)
    (v : SampleCount) (h : (m.lookup name).isSome) :
    (umap_set name v m).lookup k = if k = name then some v else m.lookup k := by
  induction m with
  | nil => simp at h
  | cons a m ih =>
    obtain ⟨k1, v1⟩ := a
    unfold umap_set
    by_cases hn : name = k1
    · subst hn
      rw [if_pos rfl]
      by_cases hk : k = name
      · subst hk; simp [lookup_cons_self]
      · simp [lookup_cons_ne _ _ _ _ hk, hk]
    · rw [if_neg hn]
      rw [lookup_cons_ne _ _ _ _ hn] at h
      by_cases hk : k = k1
      · subst hk
        have : ¬ k = name := fun e => hn e.symm
        simp [lookup_cons_self, this]
      · rw [lookup_cons_ne _ _ _ _ hk, lookup_cons_ne _ _ _ _ hk, ih h]

theorem read_layer_samples_layer_lookup (inp : ImageInput) (m : List (List Char × SampleCount))
    (layer : MergeImageLayer) (k : List Char) :
    (read_layer_samples_layer inp m layer).lookup k =
      if k = layer.name then
        some (accumulate_layer inp layer (m.lookup layer.name).isNone
          ((m.lookup layer.name).getD { total := 0, per_pixel := [] }))
      else m.lookup k := by
  unfold read_layer_samples_layer
  cases h : m.lookup layer.name with
  | none => simp only [lookup_append_single m layer.name k _ h]; rfl
  | some cur =>
    simp only [lookup_umap_set m layer.name k _ (by simp [h])]; rfl

theorem getD_map_range (n : Nat) (f : Nat → ℚ) (p : Nat) (hp : p < n) :
    ((List.range n).map f).getD p 0 = f p := by
  rw [List.getD_eq_getElem _ _ (by simpa using hp)]
  simp

theorem accumulate_layer_new (inp : ImageInput) (layer : MergeImageLayer) (cur : SampleCount) :
    (accumulate_layer inp layer true cur).total = wrap32 (0 + layer.samples) ∧
    (accumulate_layer inp layer true cur).per_pixel.length = inp.spec.width * inp.spec.height ∧
    ∀ p < inp.spec.width * inp.spec.height,
      (accumulate_layer inp layer true cur).per_pixel.getD p 0 =
        layer_pixel_samples inp layer p := by
  unfold accumulate_layer layer_pixel_samples
  refine ⟨by simp, ?_, ?_⟩
  · simp only [if_true]
    split_ifs <;> simp
  · intro p hp
    simp only [if_true]
    split_ifs
    · simp only [List.length_replicate]
      rw [getD_map_range _ _ p hp]
      simp [List.getD_eq_getElem?_getD, List.getElem?_replicate, hp]
    · simp only [List.length_replicate]
      rw [getD_map_range _ _ p hp]
      simp [List.getD_eq_getElem?_getD, List.getElem?_replicate, hp]

theorem accumulate_layer_old (inp : ImageInput) (layer : MergeImageLayer) (cur : SampleCount) :
    (accumulate_layer inp layer false cur).total = wrap32 (cur.total + layer.samples) ∧
    (accumulate_layer inp layer false cur).per_pixel.length = cur.per_pixel.length ∧
    ∀ p < cur.per_pixel.length,
      (accumulate_layer inp layer false cur).per_pixel.getD p 0 =
        cur.per_pixel.getD p 0 + layer_pixel_samples inp layer p := by
  unfold accumulate_layer layer_pixel_samples
  refine ⟨by simp, ?_, ?_⟩
  · simp only [Bool.false_eq_true, if_false]
    split_ifs <;> simp
  · intro p hp
    simp only [Bool.false_eq_true, if_false]
    split_ifs
    · rw [getD_map_range _ _ p hp]
    · rw [getD_map_range _ _ p hp]


theorem wrapped_sum_append (xs : List Int) (x : Int) :
    wrapped_sum (xs ++ [x]) = wrap32 (wrapped_sum xs + x) := by
  simp [wrapped_sum, List.foldl_append]

theorem read_layer_items_lookup (its : List (ImageInput × MergeImageLayer)) (n : Nat)
    (hdim : ∀ it ∈ its, it.1.spec.width * it.1.spec.height = n) (L : List Char) :
    ((read_layer_items its []).lookup L = none ↔ its.filter (fun it => it.2.name = L) = []) ∧
    ∀ sc, (read_layer_items its []).lookup L = some sc →
      sc.total = wrapped_sum ((its.filter (fun it => it.2.name = L)).map (fun it => it.2.samples)) ∧
      sc.per_pixel.length = n ∧
      ∀ p < n, sc.per_pixel.getD p 0 =
        ((its.filter (fun it => it.2.name = L)).map
          (fun it => layer_pixel_samples it.1 it.2 p)).sum := by
  induction its using List.reverseRecOn with
  | nil =>
    simp [read_layer_items, List.lookup]
  | append_singleton its it ih =>
    have hdim1 : ∀ it ∈ its, it.1.spec.width * it.1.spec.height = n :=
      fun x hx => hdim x (by simp [hx])
    have hit : it.1.spec.width * it.1.spec.height = n := hdim it (by simp)
    obtain ⟨ih1, ih2⟩ := ih hdim1
    have hstep : read_layer_items (its ++ [it]) [] =
        read_layer_samples_layer it.1 (read_layer_items its []) it.2 := by
      simp [read_layer_items, List.foldl_append]
    rw [hstep, read_layer_samples_layer_lookup]
    by_cases hL : L = it.2.name
    · subst hL
      have hf : (its ++ [it]).filter (fun x => x.2.name = it.2.name) =
          its.filter (fun x => x.2.name = it.2.name) ++ [it] := by
        simp [List.filter_append, List.filter_cons]
      rw [if_pos rfl, hf]
      refine ⟨by simp, ?_⟩
      intro sc hsc
      simp only [Option.some.injEq] at hsc
      subst hsc
      cases hl : (read_layer_items its []).lookup it.2.name with
      | none =>
        have hnil := ih1.mp hl
        simp only [Option.isNone_none, Option.getD_none, hnil, List.nil_append, List.map_cons,
          List.map_nil, List.sum_cons, List.sum_nil, add_zero]
        obtain ⟨a1, a2, a3⟩ := accumulate_layer_new it.1 it.2 { total := 0, per_pixel := [] }
        refine ⟨by rw [a1]; simp [wrapped_sum], by rw [a2, hit], ?_⟩
        intro p hp
        exact a3 p (by rw [hit]; exact hp)
      | some cur =>
        obtain ⟨c1, c2, c3⟩ := ih2 cur hl
        simp only [Option.isNone_some, Option.getD_some]
        obtain ⟨a1, a2, a3⟩ := accumulate_layer_old it.1 it.2 cur
        refine ⟨?_, by rw [a2, c2], ?_⟩
        · rw [a1, c1, List.map_append, List.map_cons, List.map_nil, wrapped_sum_append]
        · intro p hp
          rw [a3 p (by rw [c2]; exact hp), c3 p hp]
          simp [List.sum_append]
    · have hf : (its ++ [it]).filter (fun x => x.2.name = L) =
          its.filter (fun x => x.2.name = L) := by
        have : ¬ it.2.name = L := fun e => hL e.symm
        simp [List.filter_append, List.filter_cons, this]
      rw [if_neg hL, hf]
      exact ⟨ih1, ih2⟩

theorem read_layer_samples_lookup (images : List MergeImage) (n : Nat)
    (hdim : ∀ image ∈ images, image.inp.spec.width * image.inp.spec.height = n)
    (L : List Char) :
    ((read_layer_samples images []).lookup L = none ↔ layers_named images L = []) ∧
    ∀ sc, (read_layer_samples images []).lookup L = some sc →
      sc.total = wrapped_sum ((layers_named images L).map (fun it => it.2.samples)) ∧
      sc.per_pixel.length = n ∧
      ∀ p < n, sc.per_pixel.getD p 0 =
        ((layers_named images L).map (fun it => layer_pixel_samples it.1 it.2 p)).sum := by
  rw [read_layer_samples_eq_items]
  unfold layers_named
  refine read_layer_items_lookup (layer_items images) n ?_ L
  intro it hit
  unfold layer_items at hit
  obtain ⟨image, himg, hl⟩ := List.mem_flatMap.mp hit
  obtain ⟨l, _, rfl⟩ := List.mem_map.mp hl
  exact hdim image himg


theorem annotate_items_append (spec : ImageSpec)
    (xs ys : List (ImageInput × MergeImageLayer × MergeImagePass)) :
    annotate_items spec (xs ++ ys) =
      ((annotate_items (annotate_items spec xs).1 ys).1,
        (annotate_items spec xs).2 ++ (annotate_items (annotate_items spec xs).1 ys).2) := by
  induction xs generalizing spec with
  | nil => simp [annotate_items]
  | cons x xs ih => simp [annotate_items, ih]

theorem merge_channel_passes_items (spec : ImageSpec) (inp : ImageInput) (sl : MergeImageLayer)
    (ps : List MergeImagePass) :
    annotate_items spec (ps.map (fun p => (inp, sl, p))) =
      ((merge_channel_passes spec ps).1,
        (merge_channel_passes spec ps).2.map (fun p => (inp, sl, p))) := by
  induction ps generalizing spec with
  | nil => rfl
  | cons p ps ih => simp [annotate_items, merge_channel_passes, ih]

theorem merge_channel_layers_items (spec : ImageSpec) (inp : ImageInput)
    (ls : List MergeImageLayer) :
    annotate_items spec (ls.flatMap (fun l => l.passes.map (fun p => (inp, strip l, p)))) =
      ((merge_channel_layers spec ls).1,
        (merge_channel_layers spec ls).2.flatMap
          (fun l => l.passes.map (fun p => (inp, strip l, p)))) ∧
    (merge_channel_layers spec ls).2.map (fun l => strip l) = ls.map (fun l => strip l) := by
  induction ls generalizing spec with
  | nil => exact ⟨rfl, rfl⟩
  | cons l ls ih =>
    obtain ⟨ih1, ih2⟩ := ih (merge_channel_passes spec l.passes).1
    constructor
    · simp only [List.flatMap_cons, annotate_items_append, merge_channel_passes_items,
        merge_channel_layers, ih1]
      rfl
    · simp only [merge_channel_layers, List.map_cons, ih2]
      rfl

theorem merge_channel_images_items (spec : ImageSpec) (images : List MergeImage) :
    annotate_items spec (pass_items images) =
      ((merge_channel_images spec images).1, pass_items (merge_channel_images spec images).2) ∧
    (merge_channel_images spec images).2.map (fun i => (i.inp, i.layers.map (fun l => strip l))) =
      images.map (fun i => (i.inp, i.layers.map (fun l => strip l))) := by
  induction images generalizing spec with
  | nil => exact ⟨rfl, rfl⟩
  | cons image rest ih =>
    obtain ⟨ih1, ih2⟩ := ih (merge_channel_layers spec image.layers).1
    obtain ⟨h1, h2⟩ := merge_channel_layers_items spec image.inp image.layers
    constructor
    · simp only [pass_items, List.flatMap_cons, annotate_items_append, h1, merge_channel_images]
      simp only [pass_items] at ih1
      rw [ih1]
    · simp only [merge_channel_images, List.map_cons, ih2, h2]

theorem forall₂_exists_left {α β : Type} (R : α → β → Prop) (xs : List α) (ys : List β)
    (h : List.Forall₂ R xs ys) : ∀ y ∈ ys, ∃ x ∈ xs, R x y := by
  induction h with
  | nil => intro y hy; cases hy
  | cons h1 _ ih =>
    intro y hy
    rcases List.mem_cons.mp hy with rfl | hy
    · exact ⟨_, List.mem_cons_self _ _, h1⟩
    · obtain ⟨x, hx, hr⟩ := ih y hy
      exact ⟨x, List.mem_cons_of_mem _ hx, hr⟩

theorem open_images_opened (fs : List Char → Option ImageInput) (input : List (List Char))
    (images : List MergeImage) (h : open_images fs input [] = Except.ok images) :
    ∀ image ∈ images, ∃ path ∈ input, opened_from fs path image :=
  forall₂_exists_left _ _ _ (open_images_nil_ok fs input images h).1

theorem open_images_dims (fs : List Char → Option ImageInput) (input : List (List Char))
    (images : List MergeImage) (h : open_images fs input [] = Except.ok images) :
    ∃ w ht, (∀ base, images.head? = some base →
        base.inp.spec.width = w ∧ base.inp.spec.height = ht) ∧
      ∀ image ∈ images, image.inp.spec.width = w ∧ image.inp.spec.height = ht := by
  cases images with
  | nil => exact ⟨0, 0, fun _ hb => (by cases hb), fun _ hi => (by cases hi)⟩
  | cons base rest =>
    refine ⟨base.inp.spec.width, base.inp.spec.height, ?_, ?_⟩
    · intro b hb
      simp only [List.head?_cons, Option.some.injEq] at hb
      subst hb
      exact ⟨rfl, rfl⟩
    · intro image himg
      obtain ⟨h1, h2, _⟩ := (open_images_nil_ok fs input _ h).2 base rfl image himg
      exact ⟨h1.symm, h2.symm⟩

theorem getD_set_eq (l : List ℚ) (k m : Nat) (a : ℚ) :
    (l.set k a).getD m 0 = if k = m ∧ k < l.length then a else l.getD m 0 := by
  rw [List.getD_eq_getElem?_getD, List.getD_eq_getElem?_getD, List.getElem?_set]
  by_cases h1 : k = m
  · subst h1
    by_cases h2 : k < l.length
    · simp [h2]
    · simp [h2, List.getElem?_eq_none (Nat.le_of_not_lt h2)]
  · simp [h1]

theorem index_inj (os p i j k : Nat) (hj : j < os) (hk : k < os) (h : p * os + j = k + i * os) :
    p = i ∧ j = k := by
  have h1 : (p * os + j) / os = p := by
    rw [Nat.add_comm, Nat.add_mul_div_right _ _ (by omega), Nat.div_eq_of_lt hj, Nat.zero_add]
  have h2 : (k + i * os) / os = i := by
    rw [Nat.add_mul_div_right _ _ (by omega), Nat.div_eq_of_lt hk, Nat.zero_add]
  have h3 : p = i := by rw [← h1, ← h2, h]
  subst h3
  exact ⟨rfl, by omega⟩

theorem index_lt (n os i k : Nat) (hi : i < n) (hk : k < os) : k + i * os < n * os := by
  have : (i + 1) * os ≤ n * os := Nat.mul_le_mul_right _ hi
  rw [Nat.add_mul, Nat.one_mul] at this
  omega

theorem pixel_loop_spec (n stride os : Nat) (body : Nat → Nat → Nat → ℚ → ℚ)
    (off0 spo0 oo0 : Nat) (hoff : off0 < stride) (hoo : oo0 < os) (fuel i : Nat) (out : List ℚ)
    (hi : i ≤ n) (hfuel : n - i ≤ fuel) (hlen : out.length = n * os) :
    (pixel_loop (n * stride) stride os body fuel i (off0 + i * stride) (spo0 + i * stride)
      (oo0 + i * os) out).length = n * os ∧
    ∀ p j, p < n → j < os →
      (pixel_loop (n * stride) stride os body fuel i (off0 + i * stride) (spo0 + i * stride)
        (oo0 + i * os) out).getD (p * os + j) 0 =
      if j = oo0 ∧ i ≤ p then
        body p (off0 + p * stride) (spo0 + p * stride) (out.getD (p * os + j) 0)
      else out.getD (p * os + j) 0 := by
  induction fuel generalizing i out with
  | zero =>
    have : i = n := by omega
    subst this
    refine ⟨hlen, ?_⟩
    intro p j hp hj
    have : ¬ (j = oo0 ∧ i ≤ p) := by omega
    simp [pixel_loop, this]
  | succ fuel ih =>
    unfold pixel_loop
    by_cases hin : i < n
    · have hcond : off0 + i * stride < n * stride := index_lt n stride i off0 hin hoff
      rw [if_pos hcond]
      have e1 : off0 + i * stride + stride = off0 + (i + 1) * stride := by
        rw [Nat.add_mul, Nat.one_mul, Nat.add_assoc]
      have e2 : spo0 + i * stride + stride = spo0 + (i + 1) * stride := by
        rw [Nat.add_mul, Nat.one_mul, Nat.add_assoc]
      have e3 : oo0 + i * os + os = oo0 + (i + 1) * os := by
        rw [Nat.add_mul, Nat.one_mul, Nat.add_assoc]
      rw [e1, e2, e3]
      obtain ⟨ih1, ih2⟩ := ih (i + 1)
        (out.set (oo0 + i * os)
          (body i (off0 + i * stride) (spo0 + i * stride) (out.getD (oo0 + i * os) 0)))
        (by omega) (by omega) (by rw [List.length_set]; exact hlen)
      refine ⟨ih1, ?_⟩
      intro p j hp hj
      rw [ih2 p j hp hj, getD_set_eq]
      have hb : oo0 + i * os < out.length := by rw [hlen]; exact index_lt n os i oo0 hin hoo
      by_cases hpi : p = i
      · rw [hpi]
        by_cases hjo : j = oo0
        · rw [hjo]
          have e : oo0 + i * os = i * os + oo0 := Nat.add_comm _ _
          have h1 : ¬ (oo0 = oo0 ∧ i + 1 ≤ i) := by omega
          have h2 : (oo0 + i * os = i * os + oo0 ∧ oo0 + i * os < out.length) := ⟨e, hb⟩
          have h3 : (oo0 = oo0 ∧ i ≤ i) := ⟨rfl, le_refl i⟩
          rw [if_neg h1, if_pos h2, if_pos h3, e]
        · have h1 : ¬ (j = oo0 ∧ i + 1 ≤ i) := by omega
          have h2 : ¬ (oo0 + i * os = i * os + j ∧ oo0 + i * os < out.length) := by omega
          have h3 : ¬ (j = oo0 ∧ i ≤ i) := by omega
          rw [if_neg h1, if_neg h2, if_neg h3]
      · have e : ¬ (oo0 + i * os = p * os + j ∧ oo0 + i * os < out.length) := by
          intro h
          exact hpi (index_inj os p i j oo0 hj hoo h.1.symm).1
        rw [if_neg e]
        by_cases hc : j = oo0 ∧ i ≤ p
        · have h1 : j = oo0 ∧ i + 1 ≤ p := ⟨hc.1, by omega⟩
          rw [if_pos h1, if_pos hc]
        · have h1 : ¬ (j = oo0 ∧ i + 1 ≤ p) := by omega
          rw [if_neg h1, if_neg hc]
    · have : i = n := by omega
      subst this
      have hcond : ¬ off0 + i * stride < i * stride := by omega
      rw [if_neg hcond]
      refine ⟨hlen, ?_⟩
      intro p j hp hj
      have : ¬ (j = oo0 ∧ i ≤ p) := by omega
      simp [this]


/-- The strided loop needs no more than `num_pixels - offset` iterations: with a
positive stride (or nothing left to do) any larger bound gives the same buffer, so
the bound never cuts the loop of the source short. -/
theorem pixel_loop_fuel (num stride os : Nat) (body : Nat → Nat → Nat → ℚ → ℚ)
    (fuel1 fuel2 i off spo oo : Nat) (out : List ℚ) (hs : 0 < stride ∨ num ≤ off)
    (h1 : num - off ≤ fuel1) (h2 : num - off ≤ fuel2) :
    pixel_loop num stride os body fuel1 i off spo oo out =
      pixel_loop num stride os body fuel2 i off spo oo out := by
  induction fuel1 generalizing fuel2 i off spo oo out with
  | zero =>
    have hle : num ≤ off := by omega
    cases fuel2 with
    | zero => rfl
    | succ f2 =>
      simp only [pixel_loop]
      rw [if_neg (by omega)]
  | succ f1 ih =>
    by_cases hc : off < num
    · have hs1 : 0 < stride := by
        rcases hs with h | h
        · exact h
        · omega
      cases fuel2 with
      | zero => omega
      | succ f2 =>
        simp only [pixel_loop]
        rw [if_pos hc, if_pos hc]
        exact ih f2 _ _ _ _ _ (Or.inl hs1) (by omega) (by omega)
    · cases fuel2 with
      | zero => simp only [pixel_loop]; rw [if_neg hc]
      | succ f2 => simp only [pixel_loop]; rw [if_neg hc, if_neg hc]

theorem set_getD_self (l : List ℚ) (k : Nat) : l.set k (l.getD k 0) = l := by
  apply List.ext_getElem?
  intro m
  rw [List.getElem?_set]
  by_cases h1 : k = m
  · subst h1
    by_cases h2 : k < l.length
    · simp [h2, List.getD_eq_getElem?_getD, List.getElem?_eq_getElem h2]
    · simp [h2, List.getElem?_eq_none (Nat.le_of_not_lt h2)]
  · simp [h1]

theorem pixel_loop_nop (num stride os : Nat) (body : Nat → Nat → Nat → ℚ → ℚ)
    (hbody : ∀ i a b old, body i a b old = old) (fuel i off spo oo : Nat) (out : List ℚ) :
    pixel_loop num stride os body fuel i off spo oo out = out := by
  induction fuel generalizing i off spo oo out with
  | zero => rfl
  | succ fuel ih =>
    unfold pixel_loop
    split_ifs
    · rw [hbody, ih, set_getD_self]
    · rfl

theorem merge_pass_eq (ls : List (List Char × SampleCount)) (inp : ImageInput)
    (layer : MergeImageLayer) (out out1 : List ℚ) (pass : MergeImagePass)
    (h : merge_pass ls layer (item_pixels inp) inp.spec.nchannels os (alloc_pixels inp.spec) out
      pass = Except.ok out1) :
    out1 = apply_item os ls (inp, strip layer, pass) out := by
  unfold merge_pass at h
  unfold apply_item
  cases hop : pass.op with
  | MERGE_CHANNEL_NOP =>
    rw [hop] at h
    simp only [Except.ok.injEq] at h
    rw [← h]
    exact (pixel_loop_nop _ _ _ _ (fun _ _ _ _ => rfl) _ _ _ _ _ _).symm
  | MERGE_CHANNEL_COPY =>
    rw [hop] at h
    simp only [Except.ok.injEq] at h
    rw [← h]; rfl
  | MERGE_CHANNEL_SUM =>
    rw [hop] at h
    simp only [Except.ok.injEq] at h
    rw [← h]; rfl
  | MERGE_CHANNEL_AVERAGE =>
    rw [hop] at h
    simp only at h
    cases hl : ls.lookup layer.name with
    | none => rw [hl] at h; cases h
    | some sc =>
      rw [hl] at h
      simp only [Except.ok.injEq] at h
      rw [← h]
      simp only [item_samples, strip, hl, Option.getD_some]
      rfl
  | MERGE_CHANNEL_SAMPLES =>
    rw [hop] at h
    simp only at h
    cases hl : ls.lookup layer.name with
    | none => rw [hl] at h; cases h
    | some sc =>
      rw [hl] at h
      simp only [Except.ok.injEq] at h
      rw [← h]
      simp only [item_samples, strip, hl, Option.getD_some]
      rfl

theorem merge_passes_eq (ls : List (List Char × SampleCount)) (inp : ImageInput)
    (layer : MergeImageLayer) (passes : List MergeImagePass) (out out1 : List ℚ)
    (h : merge_passes ls layer (item_pixels inp) inp.spec.nchannels os (alloc_pixels inp.spec)
      passes out = Except.ok out1) :
    out1 = (passes.map (fun p => (inp, strip layer, p))).foldl
      (fun o it => apply_item os ls it o) out := by
  induction passes generalizing out with
  | nil => simp only [merge_passes, Except.ok.injEq] at h; rw [← h]; rfl
  | cons pass rest ih =>
    unfold merge_passes at h
    cases hp : merge_pass ls layer (item_pixels inp) inp.spec.nchannels os
        (alloc_pixels inp.spec) out pass with
    | error e => rw [hp] at h; cases h
    | ok o1 =>
      rw [hp] at h
      simp only at h
      rw [ih _ h, merge_pass_eq ls inp layer out o1 pass hp]
      rfl

theorem merge_layers_eq (ls : List (List Char × SampleCount)) (inp : ImageInput)
    (layers : List MergeImageLayer) (out out1 : List ℚ)
    (h : merge_layers ls (item_pixels inp) inp.spec.nchannels os (alloc_pixels inp.spec)
      layers out = Except.ok out1) :
    out1 = (layers.flatMap (fun l => l.passes.map (fun p => (inp, strip l, p)))).foldl
      (fun o it => apply_item os ls it o) out := by
  induction layers generalizing out with
  | nil => simp only [merge_layers, Except.ok.injEq] at h; rw [← h]; rfl
  | cons layer rest ih =>
    unfold merge_layers at h
    cases hp : merge_passes ls layer (item_pixels inp) inp.spec.nchannels os
        (alloc_pixels inp.spec) layer.passes out with
    | error e => rw [hp] at h; cases h
    | ok o1 =>
      rw [hp] at h
      simp only at h
      rw [ih _ h, merge_passes_eq ls inp layer _ out o1 hp, List.flatMap_cons, List.foldl_append]

theorem merge_images_eq (out_spec : ImageSpec) (ls : List (List Char × SampleCount))
    (images : List MergeImage) (out out1 : List ℚ)
    (h : merge_images out_spec ls images out = Except.ok out1) :
    out1 = (pass_items images).foldl (fun o it => apply_item out_spec.nchannels ls it o) out := by
  induction images generalizing out with
  | nil => simp only [merge_images, Except.ok.injEq] at h; rw [← h]; rfl
  | cons image rest ih =>
    unfold merge_images at h
    cases hp : merge_image out_spec ls image out with
    | error e => rw [hp] at h; cases h
    | ok o1 =>
      rw [hp] at h
      simp only at h
      rw [ih _ h]
      unfold merge_image at hp
      simp only at hp
      cases hr : image.inp.read_image 0 image.inp.spec.nchannels with
      | none => rw [hr] at hp; cases hp
      | some pixels =>
        rw [hr] at hp
        simp only at hp
        have hpx : item_pixels image.inp = pixels := by simp [item_pixels, hr]
        rw [← hpx] at hp
        rw [merge_layers_eq ls image.inp image.layers out o1 hp]
        simp only [pass_items, List.flatMap_cons, List.foldl_append]


theorem apply_item_getD (os n : Nat) (ls : List (List Char × SampleCount))
    (it : ImageInput × MergeImageLayer × MergeImagePass) (out : List ℚ)
    (halloc : alloc_pixels it.1.spec = n * it.1.spec.nchannels)
    (hoff : it.2.2.offset < it.1.spec.nchannels) (hmo : it.2.2.merge_offset < os)
    (hlen : out.length = n * os) :
    (apply_item os ls it out).length = n * os ∧
    ∀ p j, p < n → j < os →
      (apply_item os ls it out).getD (p * os + j) 0 =
        if it.2.2.merge_offset = j then item_effect ls it p (out.getD (p * os + j) 0)
        else out.getD (p * os + j) 0 := by
  have hfuel : n - 0 ≤ n * it.1.spec.nchannels := by
    have : 1 ≤ it.1.spec.nchannels := by omega
    calc n - 0 = n * 1 := by omega
      _ ≤ n * it.1.spec.nchannels := Nat.mul_le_mul_left _ this
  have h := pixel_loop_spec n it.1.spec.nchannels os
    (pass_body it.2.1 (item_samples ls it.2.1) (item_pixels it.1) it.2.2.op)
    it.2.2.offset it.2.1.sample_pass_offset it.2.2.merge_offset hoff hmo
    (n * it.1.spec.nchannels) 0 out (Nat.zero_le _) hfuel hlen
  simp only [Nat.zero_mul, Nat.add_zero] at h
  unfold apply_item
  rw [halloc]
  refine ⟨h.1, ?_⟩
  intro p j hp hj
  rw [h.2 p j hp hj]
  by_cases hc : it.2.2.merge_offset = j
  · have : j = it.2.2.merge_offset ∧ 0 ≤ p := ⟨hc.symm, Nat.zero_le _⟩
    rw [if_pos this, if_pos hc]
    rfl
  · have : ¬ (j = it.2.2.merge_offset ∧ 0 ≤ p) := fun h => hc h.1.symm
    rw [if_neg this, if_neg hc]

theorem fold_items_getD (os n : Nat) (ls : List (List Char × SampleCount))
    (items : List (ImageInput × MergeImageLayer × MergeImagePass)) (out : List ℚ)
    (hfit : items_fit n os items) (hlen : out.length = n * os) :
    (items.foldl (fun o it => apply_item os ls it o) out).length = n * os ∧
    ∀ p j, p < n → j < os →
      (items.foldl (fun o it => apply_item os ls it o) out).getD (p * os + j) 0 =
        (items.filter (fun it => it.2.2.merge_offset = j)).foldl
          (fun v it => item_effect ls it p v) (out.getD (p * os + j) 0) := by
  induction items generalizing out with
  | nil => exact ⟨hlen, fun _ _ _ _ => rfl⟩
  | cons it rest ih =>
    obtain ⟨h1, h2, h3⟩ := hfit it (List.mem_cons_self _ _)
    obtain ⟨a1, a2⟩ := apply_item_getD os n ls it out h1 h2 h3 hlen
    obtain ⟨b1, b2⟩ := ih (apply_item os ls it out)
      (fun x hx => hfit x (List.mem_cons_of_mem _ hx)) a1
    refine ⟨b1, ?_⟩
    intro p j hp hj
    rw [List.foldl_cons, b2 p j hp hj, a2 p j hp hj, List.filter_cons]
    by_cases hc : it.2.2.merge_offset = j
    · simp [hc]
    · simp [hc]

theorem merge_pixels_getD (images : List MergeImage) (out_spec : ImageSpec)
    (ls : List (List Char × SampleCount)) (out : List ℚ) (n : Nat)
    (hn : alloc_pixels out_spec = n * out_spec.nchannels)
    (hfit : items_fit n out_spec.nchannels (pass_items images))
    (h : merge_pixels images out_spec ls = Except.ok out) :
    out.length = n * out_spec.nchannels ∧
    ∀ p j, p < n → j < out_spec.nchannels →
      out.getD (p * out_spec.nchannels + j) 0 =
        ((pass_items images).filter (fun it => it.2.2.merge_offset = j)).foldl
          (fun v it => item_effect ls it p v) 0 := by
  unfold merge_pixels at h
  rw [merge_images_eq _ _ _ _ _ h]
  obtain ⟨h1, h2⟩ := fold_items_getD out_spec.nchannels n ls (pass_items images)
    (List.replicate (alloc_pixels out_spec) 0) hfit (by rw [List.length_replicate, hn])
  refine ⟨h1, ?_⟩
  intro p j hp hj
  rw [h2 p j hp hj]
  congr 1
  rw [List.getD_eq_getElem?_getD, List.getElem?_replicate]
  split_ifs <;> rfl


/-! ## The output channel layout -/

theorem channel_index_lt (names : List (List Char)) (c : List Char) :
    channel_index names c < names.length ↔ c ∈ names := by
  unfold channel_index
  rw [List.findIdx_lt_length]
  constructor
  · rintro ⟨x, hx, h⟩
    simp only [decide_eq_true_eq] at h
    rw [h]; exact hx
  · intro h
    exact ⟨c, h, by simp⟩

theorem channel_index_eq_length (names : List (List Char)) (c : List Char) (h : c ∉ names) :
    channel_index names c = names.length := by
  have h1 : ¬ channel_index names c < names.length := fun hl => h ((channel_index_lt _ _).mp hl)
  have h2 : channel_index names c ≤ names.length := by
    unfold channel_index; exact List.findIdx_le_length _
  omega

theorem channel_index_append_mem (names more : List (List Char)) (c : List Char)
    (h : c ∈ names) : channel_index (names ++ more) c = channel_index names c := by
  unfold channel_index
  rw [List.findIdx_append]
  have := (channel_index_lt names c).mpr h
  unfold channel_index at this
  rw [if_pos this]

theorem channel_index_append_new (names more : List (List Char)) (c : List Char)
    (h : c ∉ names) : channel_index (names ++ c :: more) c = names.length := by
  have h1 := channel_index_eq_length names c h
  unfold channel_index at h1 ⊢
  rw [List.findIdx_append, h1]
  simp [List.findIdx_cons]

theorem merge_channel_pass_mem (spec : ImageSpec) (pass : MergeImagePass)
    (h : pass.channel_name ∈ spec.channelnames) :
    merge_channel_pass spec pass =
      (spec, { pass with merge_offset := channel_index spec.channelnames pass.channel_name,
                         op := if pass.op = MERGE_CHANNEL_COPY then MERGE_CHANNEL_NOP
                               else pass.op }) := by
  have := (channel_index_lt _ _).mpr h
  unfold channel_index at this
  unfold merge_channel_pass channel_index
  simp only []
  rw [if_pos (Nat.ne_of_lt this)]

theorem merge_channel_pass_new (spec : ImageSpec) (pass : MergeImagePass)
    (h : pass.channel_name ∉ spec.channelnames) :
    merge_channel_pass spec pass =
      ({ spec with channelnames := spec.channelnames ++ [pass.channel_name],
                   channelformats := spec.channelformats ++ [pass.format],
                   nchannels := spec.nchannels + 1 },
        { pass with merge_offset := spec.nchannels }) := by
  have := channel_index_eq_length _ _ h
  unfold channel_index at this
  unfold merge_channel_pass
  simp only []
  rw [if_neg (not_not.mpr this)]

theorem annotate_items_spec (items : List (ImageInput × MergeImageLayer × MergeImagePass))
    (spec : ImageSpec) (hinv : spec.nchannels = spec.channelnames.length) :
    (annotate_items spec items).1.nchannels = (annotate_items spec items).1.channelnames.length ∧
    (∃ more, (annotate_items spec items).1.channelnames = spec.channelnames ++ more) ∧
    (∀ c, c ∈ (annotate_items spec items).1.channelnames ↔
      (c ∈ spec.channelnames ∨ ∃ it ∈ items, it.2.2.channel_name = c)) ∧
    (∀ it ∈ (annotate_items spec items).2,
      it.2.2.merge_offset =
        channel_index (annotate_items spec items).1.channelnames it.2.2.channel_name ∧
      it.2.2.channel_name ∈ (annotate_items spec items).1.channelnames ∧
      ∃ it0 ∈ items, it.1 = it0.1 ∧ it.2.2.offset = it0.2.2.offset) ∧
    (∀ c, (annotate_items spec items).2.filter (fun it => it.2.2.channel_name = c) =
      annotate_named (channel_index (annotate_items spec items).1.channelnames c)
        (decide (c ∈ spec.channelnames)) (items.filter (fun it => it.2.2.channel_name = c))) ∧
    (annotate_items spec items).1.width = spec.width ∧
    (annotate_items spec items).1.height = spec.height := by
  induction items generalizing spec with
  | nil =>
    refine ⟨hinv, ⟨[], by simp [annotate_items]⟩, ?_, ?_, ?_, rfl, rfl⟩
    · intro c; simp [annotate_items]
    · intro it hit; simp [annotate_items] at hit
    · intro c; simp [annotate_items, annotate_named]
  | cons x rest ih =>
    by_cases hx : x.2.2.channel_name ∈ spec.channelnames
    · -- the channel exists already
      have hstep := merge_channel_pass_mem spec x.2.2 hx
      obtain ⟨i1, ⟨more, i2⟩, i3, i4, i5, i6, i7⟩ := ih spec hinv
      simp only [annotate_items, hstep]
      refine ⟨i1, ⟨more, i2⟩, ?_, ?_, ?_, i6, i7⟩
      · intro c
        rw [i3 c]
        constructor
        · rintro (h | ⟨it, hit, h⟩)
          · exact Or.inl h
          · exact Or.inr ⟨it, List.mem_cons_of_mem _ hit, h⟩
        · rintro (h | ⟨it, hit, h⟩)
          · exact Or.inl h
          · rcases List.mem_cons.mp hit with rfl | hit
            · left; rw [← h]; exact hx
            · exact Or.inr ⟨it, hit, h⟩
      · intro it hit
        rcases List.mem_cons.mp hit with rfl | hit
        · refine ⟨?_, ?_, x, List.mem_cons_self _ _, rfl, rfl⟩
          · simp only [i2]
            rw [channel_index_append_mem _ _ _ hx]
          · exact (i3 _).mpr (Or.inl hx)
        · obtain ⟨a, b, it0, h0, c⟩ := i4 it hit
          exact ⟨a, b, it0, List.mem_cons_of_mem _ h0, c⟩
      · intro c
        by_cases hc : x.2.2.channel_name = c
        · subst hc
          simp only [List.filter_cons, decide_True, if_true, annotate_named, hx, true_and]
          congr 1
          · simp only [i2]
            rw [channel_index_append_mem _ _ _ hx]
          · have := i5 x.2.2.channel_name
            simp only [hx, decide_True] at this
            exact this
        · simp only [List.filter_cons, hc, decide_False, Bool.false_eq_true, if_false]
          exact i5 c
    · -- a new channel is added
      have hstep := merge_channel_pass_new spec x.2.2 hx
      have hinv1 : (merge_channel_pass spec x.2.2).1.nchannels =
          (merge_channel_pass spec x.2.2).1.channelnames.length := by
        rw [hstep]; simp [hinv]
      rw [hstep] at hinv1
      obtain ⟨i1, ⟨more, i2⟩, i3, i4, i5, i6, i7⟩ := ih _ hinv1
      simp only [annotate_items, hstep]
      simp only [List.append_assoc, List.singleton_append] at i2
      refine ⟨i1, ⟨x.2.2.channel_name :: more, i2⟩, ?_, ?_, ?_, i6, i7⟩
      · intro c
        rw [i3 c]
        constructor
        · rintro (h | ⟨it, hit, h⟩)
          · rcases List.mem_append.mp h with h | h
            · exact Or.inl h
            · exact Or.inr ⟨x, List.mem_cons_self _ _, (List.mem_singleton.mp h).symm⟩
          · exact Or.inr ⟨it, List.mem_cons_of_mem _ hit, h⟩
        · rintro (h | ⟨it, hit, h⟩)
          · exact Or.inl (List.mem_append.mpr (Or.inl h))
          · rcases List.mem_cons.mp hit with rfl | hit
            · exact Or.inl (List.mem_append.mpr (Or.inr (List.mem_singleton.mpr h.symm)))
            · exact Or.inr ⟨it, hit, h⟩
      · intro it hit
        rcases List.mem_cons.mp hit with rfl | hit
        · refine ⟨?_, ?_, x, List.mem_cons_self _ _, rfl, rfl⟩
          · simp only [i2]
            rw [channel_index_append_new _ _ _ hx, hinv]
          · exact (i3 _).mpr (Or.inl (by simp))
        · obtain ⟨a, b, it0, h0, c⟩ := i4 it hit
          exact ⟨a, b, it0, List.mem_cons_of_mem _ h0, c⟩
      · intro c
        by_cases hc : x.2.2.channel_name = c
        · subst hc
          simp only [List.filter_cons, decide_True, if_true, annotate_named, hx, decide_False,
            Bool.false_eq_true, false_and, if_false]
          congr 1
          · simp only [i2]
            rw [channel_index_append_new _ _ _ hx, hinv]
          · have := i5 x.2.2.channel_name
            simp only [List.mem_append, List.mem_singleton, or_true, decide_True] at this
            exact this
        · simp only [List.filter_cons, hc, decide_False, Bool.false_eq_true, if_false]
          have := i5 c
          have hmem : (c ∈ spec.channelnames ++ [x.2.2.channel_name]) ↔ c ∈ spec.channelnames := by
            simp only [List.mem_append, List.mem_singleton]
            constructor
            · rintro (h | h)
              · exact h
              · exact absurd h.symm hc
            · exact Or.inl
          simp only [hmem] at this
          exact this


theorem merge_layer_metadata_layout (tu : TimeUtil) (images : List MergeImage)
    (entries : List (List Char × Int)) (spec : ImageSpec) :
    (entries.foldl (merge_layer_metadata tu images) spec).nchannels = spec.nchannels ∧
    (entries.foldl (merge_layer_metadata tu images) spec).channelnames = spec.channelnames ∧
    (entries.foldl (merge_layer_metadata tu images) spec).width = spec.width ∧
    (entries.foldl (merge_layer_metadata tu images) spec).height = spec.height := by
  induction entries generalizing spec with
  | nil => exact ⟨rfl, rfl, rfl, rfl⟩
  | cons e rest ih =>
    rw [List.foldl_cons]
    obtain ⟨h1, h2, h3, h4⟩ := ih (merge_layer_metadata tu images spec e)
    rw [h1, h2, h3, h4]
    exact ⟨rfl, rfl, rfl, rfl⟩

theorem merge_channels_metadata_eq (tu : TimeUtil) (images : List MergeImage) :
    pass_items (merge_channels_metadata tu images).1 =
      (annotate_items (base_spec images) (pass_items images)).2 ∧
    (merge_channels_metadata tu images).2.nchannels =
      (annotate_items (base_spec images) (pass_items images)).1.nchannels ∧
    (merge_channels_metadata tu images).2.channelnames =
      (annotate_items (base_spec images) (pass_items images)).1.channelnames ∧
    (merge_channels_metadata tu images).2.width = (base_spec images).width ∧
    (merge_channels_metadata tu images).2.height = (base_spec images).height := by
  obtain ⟨h1, _⟩ := merge_channel_images_items (base_spec images) images
  obtain ⟨_, _, _, _, _, h6, h7⟩ := annotate_items_spec (pass_items images) (base_spec images) rfl
  unfold merge_channels_metadata
  simp only []
  obtain ⟨l1, l2, l3, l4⟩ := merge_layer_metadata_layout tu
    (merge_channel_images (base_spec images) images).2
    (layer_num_samples (merge_channel_images (base_spec images) images).2)
    (merge_render_time tu (merge_channel_images (base_spec images) images).1
      (merge_channel_images (base_spec images) images).2 "RenderTime".toList false)
  rw [h1] at h6 h7
  refine ⟨?_, ?_, ?_, ?_, ?_⟩
  · rw [h1]; rfl
  · rw [h1]; exact l1
  · rw [h1]; exact l2
  · exact l3.trans h6
  · exact l4.trans h7

theorem channel_index_inj (names : List (List Char)) (a b : List Char) (ha : a ∈ names)
    (h : channel_index names a = channel_index names b) : a = b := by
  have h1 := (channel_index_lt names a).mpr ha
  have h2 : channel_index names b < names.length := by rw [← h]; exact h1
  unfold channel_index at h h1 h2
  have e1 := @List.findIdx_getElem _ (fun channel_name => decide (a = channel_name)) names h1
  have e2 := @List.findIdx_getElem _ (fun channel_name => decide (b = channel_name)) names h2
  simp only [decide_eq_true_eq] at e1 e2
  rw [e1, e2]
  simp only [h]

theorem mem_pass_items (images : List MergeImage)
    (it : ImageInput × MergeImageLayer × MergeImagePass) (h : it ∈ pass_items images) :
    ∃ image ∈ images, ∃ l ∈ image.layers, ∃ p ∈ l.passes, it = (image.inp, strip l, p) := by
  unfold pass_items at h
  obtain ⟨image, himg, h1⟩ := List.mem_flatMap.mp h
  obtain ⟨l, hl, h2⟩ := List.mem_flatMap.mp h1
  obtain ⟨p, hp, rfl⟩ := List.mem_map.mp h2
  exact ⟨image, himg, l, hl, p, hp, rfl⟩

theorem open_images_items_fit (tu : TimeUtil) (fs : List Char → Option ImageInput)
    (input : List (List Char)) (images : List MergeImage)
    (hopen : open_images fs input [] = Except.ok images) :
    ∃ n, n = (merge_channels_metadata tu images).2.width *
        (merge_channels_metadata tu images).2.height ∧
      (∀ image ∈ images, image.inp.spec.width * image.inp.spec.height = n) ∧
      (images ≠ [] → alloc_pixels (merge_channels_metadata tu images).2 =
        n * (merge_channels_metadata tu images).2.nchannels) ∧
      items_fit n (merge_channels_metadata tu images).2.nchannels
        (pass_items (merge_channels_metadata tu images).1) := by
  obtain ⟨m1, m2, m3, m4, m5⟩ := merge_channels_metadata_eq tu images
  obtain ⟨i1, _, _, i4, _⟩ := annotate_items_spec (pass_items images) (base_spec images) rfl
  obtain ⟨w, ht, hd1, hd2⟩ := open_images_dims fs input images hopen
  cases images with
  | nil =>
    refine ⟨_, rfl, fun _ h => (by cases h), fun h => absurd rfl h, ?_⟩
    intro it hit
    rw [m1] at hit
    simp [pass_items, annotate_items] at hit
  | cons base rest =>
    obtain ⟨hb1, hb2⟩ := hd1 base rfl
    have hw : (merge_channels_metadata tu (base :: rest)).2.width = w := by
      rw [m4]; exact hb1
    have hh : (merge_channels_metadata tu (base :: rest)).2.height = ht := by
      rw [m5]; exact hb2
    refine ⟨w * ht, by rw [hw, hh], ?_, ?_, ?_⟩
    · intro image himg
      rw [(hd2 image himg).1, (hd2 image himg).2]
    · intro _
      unfold alloc_pixels
      rw [hw, hh]
    · intro it hit
      rw [m1] at hit
      obtain ⟨a1, a2, it0, h0, a3, a4⟩ := i4 it hit
      obtain ⟨image, himg, l, hl, p, hp, rfl⟩ := mem_pass_items _ it0 h0
      obtain ⟨path, _, _, _, hparse, _⟩ := open_images_opened fs input _ hopen image himg
      obtain ⟨_, _, hoff, _⟩ := parse_channels_ok _ _ hparse
      have hp2 : p ∈ all_passes image.layers := List.mem_flatMap.mpr ⟨l, hl, hp⟩
      refine ⟨?_, ?_, ?_⟩
      · rw [a3]
        unfold alloc_pixels
        rw [(hd2 image himg).1, (hd2 image himg).2]
      · rw [a3, a4]; exact (hoff p hp2).1
      · rw [a1, m2, i1]
        exact (channel_index_lt _ _).mpr a2


theorem mem_named_items (images : List MergeImage) (c : List Char)
    (h : ∃ it ∈ pass_items images, it.2.2.channel_name = c) :
    c ∈ (annotate_items (base_spec images) (pass_items images)).1.channelnames := by
  obtain ⟨_, _, i3, _⟩ := annotate_items_spec (pass_items images) (base_spec images) rfl
  exact (i3 c).mpr (Or.inr h)

/-- The merged value of a channel is the value obtained by running, from zero, the
operations of the passes of that channel name in loop order, after
`merge_channels_metadata` demoted the copy passes that follow the first pass. -/
theorem merged_value_eq (tu : TimeUtil) (fs : List Char → Option ImageInput)
    (input : List (List Char)) (images : List MergeImage) (out : List ℚ) (c : List Char)
    (p : Nat) (hopen : open_images fs input [] = Except.ok images)
    (hmerge : merge_pixels (merge_channels_metadata tu images).1
      (merge_channels_metadata tu images).2 (read_layer_samples images []) = Except.ok out)
    (hc : ∃ it ∈ pass_items images, it.2.2.channel_name = c)
    (hp : p < (merge_channels_metadata tu images).2.width *
      (merge_channels_metadata tu images).2.height) :
    merged_value (merge_channels_metadata tu images).2 out c p =
      (annotate_named (channel_index (merge_channels_metadata tu images).2.channelnames c) false
        (named_items images c)).foldl
        (fun v it => item_effect (read_layer_samples images []) it p v) 0 := by
  obtain ⟨m1, m2, m3, m4, m5⟩ := merge_channels_metadata_eq tu images
  obtain ⟨i1, _, i3, i4, i5, _⟩ := annotate_items_spec (pass_items images) (base_spec images) rfl
  obtain ⟨n, hn, _, halloc, hfit⟩ := open_images_items_fit tu fs input images hopen
  have hne : images ≠ [] := by
    intro e
    obtain ⟨it, hit, _⟩ := hc
    rw [e] at hit
    simp [pass_items] at hit
  have hcm := mem_named_items images c hc
  have hj : channel_index (merge_channels_metadata tu images).2.channelnames c <
      (merge_channels_metadata tu images).2.nchannels := by
    rw [m3, m2, i1]; exact (channel_index_lt _ _).mpr hcm
  obtain ⟨_, hget⟩ := merge_pixels_getD _ _ _ out n (halloc hne) hfit hmerge
  unfold merged_value
  rw [hget p _ (by rw [hn]; exact hp) hj]
  congr 1
  rw [m1, m3]
  have hfilter : (annotate_items (base_spec images) (pass_items images)).2.filter
      (fun it => it.2.2.merge_offset =
        channel_index (annotate_items (base_spec images) (pass_items images)).1.channelnames c) =
      (annotate_items (base_spec images) (pass_items images)).2.filter
        (fun it => it.2.2.channel_name = c) := by
    apply List.filter_congr
    intro it hit
    obtain ⟨a1, a2, _⟩ := i4 it hit
    by_cases hcc : it.2.2.channel_name = c
    · simp [hcc, a1]
    · have : ¬ it.2.2.merge_offset =
          channel_index (annotate_items (base_spec images) (pass_items images)).1.channelnames
            c := by
        intro e
        rw [a1] at e
        exact hcc (channel_index_inj _ _ _ a2 e)
      simp [hcc, this]
  rw [hfilter, i5 c]
  have : decide (c ∈ (base_spec images).channelnames) = false := by
    simp [base_spec]
  rw [this]
  rfl


/-! ## Values of the merged channels -/

theorem clamp_full (n : Nat) (h : 1 ≤ n) : clamp n (0 + 1) n - 0 = n := by
  unfold clamp
  simp [h]

theorem item_pixels_getD (inp : ImageInput) (ch p : Nat) (hch : ch < inp.spec.nchannels)
    (hp : p < inp.spec.width * inp.spec.height) :
    (item_pixels inp).getD (ch + p * inp.spec.nchannels) 0 = pixel_value inp ch p := by
  unfold item_pixels pixel_value ImageInput.read_image
  cases hd : inp.data with
  | none => simp
  | some d =>
    simp only [Option.getD_some]
    rw [clamp_full _ (by omega)]
    have hk : ch + p * inp.spec.nchannels < inp.spec.width * inp.spec.height * inp.spec.nchannels :=
      index_lt _ _ _ _ hp hch
    rw [getD_map_range _ _ _ hk]
    have e1 : (ch + p * inp.spec.nchannels) / inp.spec.nchannels = p := by
      rw [Nat.add_mul_div_right _ _ (by omega), Nat.div_eq_of_lt hch, Nat.zero_add]
    have e2 : (ch + p * inp.spec.nchannels) % inp.spec.nchannels = ch := by
      rw [Nat.add_mul_mod_self_right, Nat.mod_eq_of_lt hch]
    rw [e1, e2, Nat.add_zero]

theorem nodup_filter_eq {α : Type} (f : α → List Char) (xs : List α) (x : α) (c : List Char)
    (hnd : (xs.map f).Nodup) (hx : x ∈ xs) (hc : f x = c) :
    xs.filter (fun y => f y = c) = [x] := by
  induction xs with
  | nil => cases hx
  | cons a rest ih =>
    rw [List.map_cons, List.nodup_cons] at hnd
    rcases List.mem_cons.mp hx with rfl | hx
    · have : rest.filter (fun y => f y = c) = [] := by
        rw [List.filter_eq_nil_iff]
        intro y hy
        simp only [decide_eq_true_eq]
        intro e
        apply hnd.1
        rw [hc, ← e]
        exact List.mem_map_of_mem f hy
      simp [List.filter_cons, hc, this]
    · have hne : ¬ f a = c := by
        intro e
        apply hnd.1
        rw [e, ← hc]
        exact List.mem_map_of_mem f hx
      simp only [List.filter_cons, hne, decide_False, Bool.false_eq_true, if_false]
      exact ih hnd.2 hx

theorem image_items_names (image : MergeImage) :
    (image_items image).map (fun it => it.2.2.channel_name) =
      (all_passes image.layers).map (fun p => p.channel_name) := by
  unfold image_items all_passes
  induction image.layers with
  | nil => rfl
  | cons l rest ih => simp [List.flatMap_cons, ih]

theorem channel_index_getD (names : List (List Char)) (k : Nat) (hnd : names.Nodup)
    (hk : k < names.length) : channel_index names (names.getD k []) = k := by
  have hmem : names.getD k [] ∈ names := by
    rw [List.getD_eq_getElem _ _ hk]; exact List.getElem_mem _
  have h1 := (channel_index_lt names _).mpr hmem
  unfold channel_index at h1 ⊢
  have e := @List.findIdx_getElem _ (fun channel_name => decide (names.getD k [] = channel_name))
    names h1
  simp only [decide_eq_true_eq] at e
  have e2 : names[k] = names[List.findIdx
      (fun channel_name => decide (names.getD k [] = channel_name)) names] := by
    rw [← e, List.getD_eq_getElem _ _ hk]
  exact ((List.Nodup.getElem_inj_iff hnd).mp e2).symm

/-- In an image that `open_images` built from a well-formed file, the passes called
`c` are the single pass of that name, whose offset is the index of the channel. -/
theorem image_items_named (fs : List Char → Option ImageInput) (path : List Char)
    (image : MergeImage) (hopen : opened_from fs path image) (hwf : image.inp.spec.wf)
    (l : MergeImageLayer) (pass : MergeImagePass) (c : List Char) (hl : l ∈ image.layers)
    (hp : pass ∈ l.passes) (hc : pass.channel_name = c) :
    (image_items image).filter (fun it => it.2.2.channel_name = c) =
      [(image.inp, strip l, pass)] ∧
    pass.offset = channel_index image.inp.spec.channelnames c ∧
    pass.offset < image.inp.spec.nchannels := by
  obtain ⟨_, _, hparse, _⟩ := hopen
  have hnd := parse_channels_names_nodup _ _ hwf hparse
  obtain ⟨_, _, hoff, _⟩ := parse_channels_ok _ _ hparse
  have hp2 : pass ∈ all_passes image.layers := List.mem_flatMap.mpr ⟨l, hl, hp⟩
  refine ⟨?_, ?_, (hoff pass hp2).1⟩
  · refine nodup_filter_eq
      (fun it : ImageInput × MergeImageLayer × MergeImagePass => it.2.2.channel_name)
      _ _ c ?_ ?_ hc
    · rw [image_items_names]; exact hnd
    · exact List.mem_flatMap.mpr ⟨l, hl, List.mem_map.mpr ⟨pass, hp, rfl⟩⟩
  · rw [← hc, (hoff pass hp2).2]
    have := (hoff pass hp2).1
    rw [hwf.1] at this
    exact (channel_index_getD _ _ hwf.2 this).symm

theorem image_items_not_named (image : MergeImage) (c : List Char)
    (h : ∀ l ∈ image.layers, ∀ pass ∈ l.passes, pass.channel_name ≠ c) :
    (image_items image).filter (fun it => it.2.2.channel_name = c) = [] := by
  rw [List.filter_eq_nil_iff]
  intro it hit
  unfold image_items at hit
  obtain ⟨l, hl, h1⟩ := List.mem_flatMap.mp hit
  obtain ⟨pass, hp, rfl⟩ := List.mem_map.mp h1
  simpa using h l hl pass hp

theorem named_items_cons (image : MergeImage) (rest : List MergeImage) (c : List Char) :
    named_items (image :: rest) c =
      (image_items image).filter (fun it => it.2.2.channel_name = c) ++ named_items rest c := by
  unfold named_items pass_items image_items
  rw [List.flatMap_cons, List.filter_append]

theorem named_items_append (xs ys : List MergeImage) (c : List Char) :
    named_items (xs ++ ys) c = named_items xs c ++ named_items ys c := by
  induction xs with
  | nil => simp [named_items, pass_items]
  | cons x xs ih => rw [List.cons_append, named_items_cons, named_items_cons, ih, List.append_assoc]

theorem run_ok (tu : TimeUtil) (fs : List Char → Option ImageInput) (input : List (List Char))
    (output : List Char) (images : List MergeImage) (r : ImageSpec × List ℚ)
    (hopen : open_images fs input [] = Except.ok images)
    (hrun : ImageMerger.run tu fs input output = Except.ok r) :
    r.1 = (merge_channels_metadata tu images).2 ∧
    merge_pixels (merge_channels_metadata tu images).1 (merge_channels_metadata tu images).2
      (read_layer_samples images []) = Except.ok r.2 := by
  unfold ImageMerger.run at hrun
  split_ifs at hrun
  rw [hopen] at hrun
  simp only at hrun
  cases hm : merge_pixels (merge_channels_metadata tu images).1
      (merge_channels_metadata tu images).2 (read_layer_samples images []) with
  | error e => rw [hm] at hrun; cases hrun
  | ok out =>
    rw [hm] at hrun
    simp only [Except.ok.injEq] at hrun
    rw [← hrun]
    exact ⟨rfl, rfl⟩

theorem open_images_pixel_lt (tu : TimeUtil) (fs : List Char → Option ImageInput)
    (input : List (List Char)) (images : List MergeImage) (p : Nat)
    (hopen : open_images fs input [] = Except.ok images)
    (hp : p < (merge_channels_metadata tu images).2.width *
      (merge_channels_metadata tu images).2.height) :
    (∀ image ∈ images, p < image.inp.spec.width * image.inp.spec.height) ∧
    (∀ image ∈ images, image.inp.spec.width * image.inp.spec.height =
      (merge_channels_metadata tu images).2.width *
        (merge_channels_metadata tu images).2.height) := by
  obtain ⟨n, hn, hdim, _⟩ := open_images_items_fit tu fs input images hopen
  refine ⟨fun image himg => ?_, fun image himg => ?_⟩
  · rw [hdim image himg, hn]; exact hp
  · rw [hdim image himg, hn]

theorem example_run :
    ImageMerger.run example_time example_fs ["a".toList, "b".toList] "out".toList =
      Except.ok (example_out_spec, [5, 5, 4]) := by
  have h : (ImageMerger.run example_time example_fs ["a".toList, "b".toList]
      "out".toList).toOption = some (example_out_spec, [5, 5, 4]) := by decide!
  revert h
  cases ImageMerger.run example_time example_fs ["a".toList, "b".toList] "out".toList with
  | error e => intro h; cases h
  | ok v => intro h; simp only [Except.toOption, Option.some.injEq] at h; rw [h]

theorem example_wf : ∀ image ∈ example_images, image.inp.spec.wf := by
  intro image h
  simp only [example_images, List.mem_cons, List.mem_singleton, List.not_mem_nil,
    or_false] at h
  rcases h with rfl | rfl <;> exact ⟨by decide, by decide⟩

theorem annotate_named_copy_fold (ls : List (List Char × SampleCount)) (p j : Nat)
    (xs : List (ImageInput × MergeImageLayer × MergeImagePass)) (v : ℚ)
    (h : ∀ it ∈ xs, it.2.2.op = MERGE_CHANNEL_COPY) :
    (annotate_named j true xs).foldl (fun v it => item_effect ls it p v) v = v := by
  induction xs generalizing v with
  | nil => rfl
  | cons x rest ih =>
    have hx := h x (List.mem_cons_self _ _)
    simp only [annotate_named, List.foldl_cons]
    rw [ih _ (fun it hit => h it (List.mem_cons_of_mem _ hit))]
    simp [item_effect, hx, pass_body]

theorem annotate_named_seen_op (j : Nat)
    (xs : List (ImageInput × MergeImageLayer × MergeImagePass))
    (h : ∀ it ∈ xs, it.2.2.op = MERGE_CHANNEL_COPY) :
    ∀ it ∈ annotate_named j true xs, it.2.2.op = MERGE_CHANNEL_NOP := by
  induction xs with
  | nil => intro it hit; cases hit
  | cons x rest ih =>
    intro it hit
    simp only [annotate_named, List.mem_cons] at hit
    rcases hit with rfl | hit
    · simp [h x (List.mem_cons_self _ _)]
    · exact ih (fun i hi => h i (List.mem_cons_of_mem _ hi)) it hit

theorem merge_channel_images_append (spec : ImageSpec) (xs ys : List MergeImage) :
    (merge_channel_images spec (xs ++ ys)).2 =
      (merge_channel_images spec xs).2 ++
        (merge_channel_images (merge_channel_images spec xs).1 ys).2 ∧
    (merge_channel_images spec xs).2.length = xs.length := by
  induction xs generalizing spec with
  | nil => exact ⟨rfl, rfl⟩
  | cons x xs ih =>
    obtain ⟨h1, h2⟩ := ih (merge_channel_layers spec x.layers).1
    constructor
    · simp only [List.cons_append, merge_channel_images, List.append_eq]
      rw [h1]
    · simp only [merge_channel_images, List.length_cons, h2]

theorem named_items_all_copy (images : List MergeImage) (c : List Char)
    (hcopy : ∀ image ∈ images, ∀ l ∈ image.layers, ∀ pass ∈ l.passes,
      pass.channel_name = c → pass.op = MERGE_CHANNEL_COPY) :
    ∀ it ∈ named_items images c, it.2.2.op = MERGE_CHANNEL_COPY := by
  intro it hit
  obtain ⟨hmem, hname⟩ := List.mem_filter.mp hit
  obtain ⟨image, himg, l, hl, pass, hpass, rfl⟩ := mem_pass_items images it hmem
  exact hcopy image himg l hl pass hpass (by simpa using hname)

theorem named_items_nil (images : List MergeImage) (c : List Char)
    (h : ∀ image ∈ images, ∀ l ∈ image.layers, ∀ pass ∈ l.passes, pass.channel_name ≠ c) :
    named_items images c = [] := by
  induction images with
  | nil => rfl
  | cons image rest ih =>
    rw [named_items_cons, image_items_not_named image c (h image (List.mem_cons_self _ _)),
      ih (fun i hi => h i (List.mem_cons_of_mem _ hi))]
    rfl

/-- C8: when the passes of the channel name `c` are copy passes (the files being
well-formed), the merged value of `c` is, at every pixel, the value in the first
image in input order that holds a pass of that name, and `merge_channels_metadata`
turns the passes of that name of every later image into no-ops. -/
theorem copy_first_image_wins (tu : TimeUtil) (fs : List Char → Option ImageInput)
    (input : List (List Char)) (output : List Char) (images : List MergeImage)
    (r : ImageSpec × List ℚ) (c : List Char) (p : Nat)
    (pre post : List MergeImage) (first : MergeImage)
    (hopen : open_images fs input [] = Except.ok images)
    (hrun : ImageMerger.run tu fs input output = Except.ok r)
    (hwf : ∀ image ∈ images, image.inp.spec.wf)
    (hcopy : ∀ image ∈ images, ∀ l ∈ image.layers, ∀ pass ∈ l.passes,
      pass.channel_name = c → pass.op = MERGE_CHANNEL_COPY)
    (hsplit : images = pre ++ first :: post)
    (hpre : ∀ image ∈ pre, ∀ l ∈ image.layers, ∀ pass ∈ l.passes, pass.channel_name ≠ c)
    (hfirst : ∃ l ∈ first.layers, ∃ pass ∈ l.passes, pass.channel_name = c)
    (hp : p < r.1.width * r.1.height) :
    merged_value r.1 r.2 c p = channel_value first.inp c p ∧
    ∀ k image1, pre.length < k → (merge_channels_metadata tu images).1[k]? = some image1 →
      ∀ l ∈ image1.layers, ∀ pass ∈ l.passes, pass.channel_name = c →
        pass.op = MERGE_CHANNEL_NOP := by
  obtain ⟨h1, h2⟩ := run_ok tu fs input output images r hopen hrun
  obtain ⟨l, hl, pass, hpass, hc⟩ := hfirst
  have hfm : first ∈ images := by rw [hsplit]; simp
  obtain ⟨path, _, ho⟩ := open_images_opened fs input images hopen first hfm
  obtain ⟨n1, n2, n3⟩ := image_items_named fs path first ho (hwf first hfm) l pass c hl hpass hc
  have hitem : (first.inp, strip l, pass) ∈ pass_items images := by
    rw [hsplit]
    unfold pass_items
    rw [List.flatMap_append, List.flatMap_cons]
    exact List.mem_append_right _ (List.mem_append_left _
      (List.mem_flatMap.mpr ⟨l, hl, List.mem_map.mpr ⟨pass, hpass, rfl⟩⟩))
  rw [h1] at hp ⊢
  obtain ⟨hlt, _⟩ := open_images_pixel_lt tu fs input images p hopen hp
  constructor
  · rw [merged_value_eq tu fs input images r.2 c p hopen h2 ⟨_, hitem, hc⟩ hp]
    have hnamed : named_items images c = (first.inp, strip l, pass) :: named_items post c := by
      rw [hsplit, named_items_append, named_items_nil pre c hpre, named_items_cons, n1]
      rfl
    rw [hnamed]
    simp only [annotate_named, List.foldl_cons]
    rw [annotate_named_copy_fold _ _ _ _ _ (fun it hit => by
      refine named_items_all_copy images c hcopy it ?_
      rw [hnamed]; exact List.mem_cons_of_mem _ hit)]
    have hop := hcopy first hfm l hl pass hpass hc
    simp only [item_effect, pass_body, hop, Bool.false_eq_true, false_and, if_false]
    rw [item_pixels_getD first.inp _ p n3 (hlt first hfm)]
    unfold channel_value
    rw [← n2]
  · intro k image1 hk hget l1 hl1 pass1 hpass1 hc1
    -- the later images are processed with the channel already in the layout
    have hsplit2 : images = (pre ++ [first]) ++ post := by rw [hsplit]; simp
    have hmcm : (merge_channels_metadata tu images).1 =
        (merge_channel_images (base_spec images) images).2 := rfl
    obtain ⟨a1, a2⟩ := merge_channel_images_append (base_spec images) (pre ++ [first]) post
    rw [hmcm] at hget
    rw [hsplit2] at hget
    have hbase : base_spec (pre ++ [first] ++ post) = base_spec images := by rw [← hsplit2]
    rw [hbase, a1, List.getElem?_append_right (by rw [a2]; simp; omega)] at hget
    have hmem1 : image1 ∈ (merge_channel_images
        (merge_channel_images (base_spec images) (pre ++ [first])).1 post).2 :=
      List.getElem?_mem hget
    obtain ⟨b1, _⟩ := merge_channel_images_items (base_spec images) (pre ++ [first])
    obtain ⟨c1, _, c3, _⟩ := annotate_items_spec (pass_items (pre ++ [first]))
      (base_spec images) rfl
    rw [b1] at c1 c3
    have hcmem : c ∈ (merge_channel_images (base_spec images) (pre ++ [first])).1.channelnames := by
      refine (c3 c).mpr (Or.inr ⟨(first.inp, strip l, pass), ?_, hc⟩)
      unfold pass_items
      rw [List.flatMap_append]
      refine List.mem_append_right _ ?_
      simp only [List.flatMap_cons, List.flatMap_nil, List.append_nil]
      exact List.mem_flatMap.mpr ⟨l, hl, List.mem_map.mpr ⟨pass, hpass, rfl⟩⟩
    obtain ⟨d1, _⟩ := merge_channel_images_items
      (merge_channel_images (base_spec images) (pre ++ [first])).1 post
    obtain ⟨_, _, _, _, e5, _⟩ := annotate_items_spec (pass_items post)
      (merge_channel_images (base_spec images) (pre ++ [first])).1 c1
    have hin : (image1.inp, strip l1, pass1) ∈ (annotate_items
        (merge_channel_images (base_spec images) (pre ++ [first])).1 (pass_items post)).2.filter
          (fun it => it.2.2.channel_name = c) := by
      refine List.mem_filter.mpr ⟨?_, by simpa using hc1⟩
      rw [d1]
      exact List.mem_flatMap.mpr ⟨image1, hmem1,
        List.mem_flatMap.mpr ⟨l1, hl1, List.mem_map.mpr ⟨pass1, hpass1, rfl⟩⟩⟩
    rw [e5 c] at hin
    simp only [hcmem, decide_True] at hin
    refine annotate_named_seen_op _ _ (fun it hit => ?_) _ hin
    refine named_items_all_copy images c hcopy it ?_
    rw [hsplit, named_items_append, named_items_cons]
    exact List.mem_append_right _ (List.mem_append_right _ hit)


/-- Witness of `copy_first_image_wins` on the two example files: the merged
"A.Depth.Z" is the value of the first file, and the pass of the second is a no-op. -/
theorem copy_first_image_wins_witness :
    merged_value example_out_spec [5, 5, 4] "A.Depth.Z".toList 0 =
      channel_value example_image_a.inp "A.Depth.Z".toList 0 ∧
    ∀ k image1, ([] : List MergeImage).length < k →
      (merge_channels_metadata example_time example_images).1[k]? = some image1 →
      ∀ l ∈ image1.layers, ∀ pass ∈ l.passes, pass.channel_name = "A.Depth.Z".toList →
        pass.op = MERGE_CHANNEL_NOP :=
  copy_first_image_wins example_time example_fs ["a".toList, "b".toList] "out".toList
    example_images (example_out_spec, [5, 5, 4]) "A.Depth.Z".toList 0 [] [example_image_b]
    example_image_a (by rfl) example_run example_wf (by decide) (by rfl)
    (fun _ h => (by cases h))
    ⟨example_layer 2, by decide,
      { channel_name := "A.Depth.Z".toList, name := "Depth".toList, format := 0,
        op := MERGE_CHANNEL_COPY, offset := 1, merge_offset := 1 }, by decide, rfl⟩
    (by decide)

/-- C1, evaluated at a failing input: two one-pixel files with the layers "A" and "B",
each layer with its own "Debug Sample Count" channel. `parse_channels` records for
layer "B" the position of the pass in the layer (1) as `sample_pass_offset`, so the
weights of "B.Combined.R" are read from channel 1, the sample count of layer "A":
the merged value is 35, while the weighted average with the sample counts of layer
"B" itself is 30. -/
theorem adaptive_average_reads_other_layer :
    ((parse_channels two_layer_spec).toOption.map
      (fun layers => layers.map (fun l => (l.name, l.has_sample_pass, l.sample_pass_offset)))) =
      some [("A".toList, true, 1), ("B".toList, true, 1)] ∧
    ((ImageMerger.run example_time two_layer_fs ["x".toList, "y".toList] "out".toList).toOption.map
      (fun r => merged_value r.1 r.2 "B.Combined.R".toList 0)) = some 35 ∧
    adaptive_average two_layer_images "B".toList "B.Combined.R".toList
      "B.Debug Sample Count.X".toList 0 = 30 := by
  refine ⟨by decide!, by decide!, by decide!⟩


/-! ## Denominators of the pixel merge -/

theorem mem_layers_named (images : List MergeImage) (L : List Char)
    (it : ImageInput × MergeImageLayer) :
    it ∈ layers_named images L ↔
      ∃ image ∈ images, ∃ l ∈ image.layers, it = (image.inp, l) ∧ l.name = L := by
  unfold layers_named layer_items
  simp only [List.mem_filter, List.mem_flatMap, List.mem_map, decide_eq_true_eq]
  constructor
  · rintro ⟨⟨image, himg, l, hl, rfl⟩, hn⟩
    exact ⟨image, himg, l, hl, rfl, hn⟩
  · rintro ⟨image, himg, l, hl, rfl, hn⟩
    exact ⟨⟨image, himg, l, hl, rfl⟩, hn⟩

theorem run_steps_result (tu : TimeUtil) (fs : List Char → Option ImageInput)
    (input : List (List Char)) (output : List Char) :
    (ImageMerger.run_steps tu fs input output).2 = ImageMerger.run tu fs input output := by
  unfold ImageMerger.run_steps ImageMerger.run
  by_cases h1 : input = []
  · simp only [if_pos h1]
  · simp only [if_neg h1]
    by_cases h2 : output = []
    · simp only [if_pos h2]
    · simp only [if_neg h2]
      cases open_images fs input [] with
      | error e => rfl
      | ok images =>
        simp only []
        cases merge_pixels (merge_channels_metadata tu images).1
            (merge_channels_metadata tu images).2 (read_layer_samples images []) with
        | error e => rfl
        | ok out => rfl

theorem open_images_append (fs : List Char → Option ImageInput) (xs ys : List (List Char))
    (acc : List MergeImage) :
    open_images fs (xs ++ ys) acc =
      match open_images fs xs acc with
      | Except.error e => Except.error e
      | Except.ok images => open_images fs ys images := by
  induction xs generalizing acc with
  | nil => rfl
  | cons x xs ih =>
    simp only [List.cons_append, open_images]
    cases open_image fs x acc with
    | error e => rfl
    | ok images1 => exact ih images1

theorem forall₂_exists_right {α β : Type} (R : α → β → Prop) (xs : List α) (ys : List β)
    (h : List.Forall₂ R xs ys) : ∀ x ∈ xs, ∃ y ∈ ys, R x y := by
  induction h with
  | nil => intro x hx; cases hx
  | cons hab _ ih =>
    intro x hx
    rcases List.mem_cons.mp hx with rfl | hx
    · exact ⟨_, List.mem_cons_self _ _, hab⟩
    · obtain ⟨y, hy, hr⟩ := ih x hx
      exact ⟨y, List.mem_cons_of_mem _ hy, hr⟩

theorem open_images_deep (fs : List Char → Option ImageInput) (input : List (List Char))
    (images : List MergeImage) (h : open_images fs input [] = Except.ok images) :
    ∀ image ∈ images, image.inp.spec.deep = false := by
  intro image himg
  obtain ⟨path, _, hop⟩ := open_images_opened fs input images h image himg
  exact hop.2.2.2.2

/-- C12: `open_images` succeeds only if no image is deep and every image agrees with
the first on width, height, depth, numeric format and deep flag; when a file after
the first differs from the first in one of these, `open_images` fails, and it fails
with "Images do not have matching size and data layout." when the files before it
were opened and the file itself passes the earlier checks (it opens, its channels
parse to at least one layer, it is not deep); whenever `open_images` fails,
`ImageMerger::run` returns failure and has called nothing but `open_images`: not
`read_layer_samples`, `merge_channels_metadata`, `merge_pixels` or `save_output`. -/
theorem layout_validation (tu : TimeUtil) (fs : List Char → Option ImageInput)
    (input : List (List Char)) (output : List Char) :
    (∀ images, open_images fs input [] = Except.ok images →
      (∀ image ∈ images, image.inp.spec.deep = false) ∧
      ∀ first, images.head? = some first →
        ∀ image ∈ images, same_layout first.inp.spec image.inp.spec) ∧
    (∀ p0 rest path i0 ik, input = p0 :: rest → path ∈ rest → fs p0 = some i0 →
      fs path = some ik → ¬ same_layout i0.spec ik.spec →
      ∃ e, open_images fs input [] = Except.error e) ∧
    (∀ pre path post first others inp layers, input = pre ++ path :: post →
      open_images fs pre [] = Except.ok (first :: others) → fs path = some inp →
      parse_channels inp.spec = Except.ok layers → layers ≠ [] → inp.spec.deep = false →
      ¬ same_layout first.inp.spec inp.spec →
      open_images fs input [] =
        Except.error "Images do not have matching size and data layout.".toList) ∧
    (∀ e, open_images fs input [] = Except.error e →
      (∃ e1, ImageMerger.run tu fs input output = Except.error e1) ∧
      (ImageMerger.run_steps tu fs input output).2 = ImageMerger.run tu fs input output ∧
      ∀ s ∈ (ImageMerger.run_steps tu fs input output).1, s = RunStep.call_open_images) := by
  refine ⟨?_, ?_, ?_, ?_⟩
  · intro images h
    exact ⟨open_images_deep fs input images h, (open_images_nil_ok fs input images h).2⟩
  · intro p0 rest path i0 ik hin hpath h0 hk hdiff
    cases hres : open_images fs input [] with
    | error e => exact ⟨e, rfl⟩
    | ok images =>
      exfalso
      obtain ⟨hall, hlay⟩ := open_images_nil_ok fs input images hres
      rw [hin] at hall
      rw [List.forall₂_cons_left_iff] at hall
      obtain ⟨im0, imrest, hop0, hrest, rfl⟩ := hall
      obtain ⟨image, himg, hopk⟩ := forall₂_exists_right _ _ _ hrest path hpath
      have e0 : im0.inp = i0 := by
        have := hop0.1
        rw [h0] at this
        exact (Option.some.inj this).symm
      have ek : image.inp = ik := by
        have := hopk.1
        rw [hk] at this
        exact (Option.some.inj this).symm
      apply hdiff
      rw [← e0, ← ek]
      exact hlay im0 rfl image (List.mem_cons_of_mem _ himg)
  · intro pre path post first others inp layers hin hpre hfs hparse hne hdeep hdiff
    rw [hin, open_images_append, hpre]
    simp only [open_images, open_image, hfs, hparse]
    have hlen : ¬ layers.length = 0 := fun e => hne (List.length_eq_zero.mp e)
    rw [if_neg hlen]
    simp only [hdeep, Bool.false_eq_true, if_false]
    have hcond : first.inp.spec.width ≠ inp.spec.width ∨
        first.inp.spec.height ≠ inp.spec.height ∨ first.inp.spec.depth ≠ inp.spec.depth ∨
        first.inp.spec.format ≠ inp.spec.format ∨ first.inp.spec.deep ≠ inp.spec.deep := by
      by_contra hc
      simp only [not_or, ne_eq, not_not] at hc
      exact hdiff ⟨hc.1, hc.2.1, hc.2.2.1, hc.2.2.2.1, hc.2.2.2.2⟩
    rw [hdeep] at hcond
    rw [if_pos hcond]
  · intro e he
    refine ⟨?_, run_steps_result tu fs input output, ?_⟩
    · unfold ImageMerger.run
      by_cases h1 : input = []
      · exact ⟨_, if_pos h1⟩
      · rw [if_neg h1]
        by_cases h2 : output = []
        · exact ⟨_, if_pos h2⟩
        · rw [if_neg h2, he]
          exact ⟨e, rfl⟩
    · unfold ImageMerger.run_steps
      by_cases h1 : input = []
      · rw [if_pos h1]
        intro s hs
        cases hs
      · rw [if_neg h1]
        by_cases h2 : output = []
        · rw [if_pos h2]
          intro s hs
          cases hs
        · rw [if_neg h2, he]
          intro s hs
          simpa using hs

/-- Witness of `layout_validation` on the files "a" (one pixel wide) and "w" (two
pixels wide): `open_images` fails with the layout message and `ImageMerger::run`
calls `open_images` only. -/
theorem layout_validation_witness :
    open_images wide_fs ["a".toList, "w".toList] [] =
      Except.error "Images do not have matching size and data layout.".toList ∧
    ImageMerger.run_steps example_time wide_fs ["a".toList, "w".toList] "out".toList =
      ([RunStep.call_open_images],
        Except.error "Images do not have matching size and data layout.".toList) := by
  have h := layout_validation example_time wide_fs ["a".toList, "w".toList] "out".toList
  have h3 := h.2.2.1 ["a".toList] "w".toList [] example_image_a []
    { spec := { example_spec "6".toList with width := 2 }, data := some [4, 7, 3, 4, 7, 3] }
    (example_layers 6) (by rfl) (by rfl) (by rfl) (by rfl) (by decide) (by rfl)
    (fun hs => absurd hs.1 (by decide))
  refine ⟨h3, ?_⟩
  unfold ImageMerger.run_steps
  rw [if_neg (by decide), if_neg (by decide), h3]


/-! ## Sample-count reconstruction -/

theorem mem_pass_items_of (images : List MergeImage) (image : MergeImage) (l : MergeImageLayer)
    (pass : MergeImagePass) (himg : image ∈ images) (hl : l ∈ image.layers)
    (hp : pass ∈ l.passes) : (image.inp, strip l, pass) ∈ pass_items images := by
  unfold pass_items
  simp only [List.mem_flatMap, List.mem_map]
  exact ⟨image, himg, l, hl, pass, hp, rfl⟩

theorem merge_channels_metadata_strip (tu : TimeUtil) (images : List MergeImage) :
    (merge_channels_metadata tu images).1.map (fun i => (i.inp, i.layers.map (fun l => strip l))) =
      images.map (fun i => (i.inp, i.layers.map (fun l => strip l))) :=
  (merge_channel_images_items _ images).2

theorem mem_strip_images (images images1 : List MergeImage)
    (h : images1.map (fun i => (i.inp, i.layers.map (fun l => strip l))) =
      images.map (fun i => (i.inp, i.layers.map (fun l => strip l))))
    (image1 : MergeImage) (h1 : image1 ∈ images1) :
    ∃ image ∈ images, image1.inp = image.inp ∧
      image1.layers.map (fun l => strip l) = image.layers.map (fun l => strip l) := by
  have : (image1.inp, image1.layers.map (fun l => strip l)) ∈
      images1.map (fun i => (i.inp, i.layers.map (fun l => strip l))) :=
    List.mem_map.mpr ⟨image1, h1, rfl⟩
  rw [h] at this
  obtain ⟨image, himg, he⟩ := List.mem_map.mp this
  exact ⟨image, himg, (congrArg Prod.fst he).symm, (congrArg Prod.snd he).symm⟩

/-- C14, evaluated at a failing input: for the two files of `two_layer_fs`, whose layer
"B" has 4 samples and the sample-count channel "B.Debug Sample Count.X" of value 1 in
both files, `read_layer_samples` accumulates the per-pixel total 4 for "B", whereas
the sum of `c_k(p) * S_k` over the two layers called "B" is 8: the values 1/4 and 3/4
that were added are those of channel 1, the sample-count channel of layer "A", because
`sample_pass_offset` is 1, the index of the pass in the pass list of "B". -/
theorem sample_accumulator_reads_other_layer :
    two_layer_images.flatMap (fun image => image.layers.map (fun l =>
        (l.name, l.samples, l.has_sample_pass, l.sample_pass_offset))) =
      [("A".toList, 4, true, 1), ("B".toList, 4, true, 1),
       ("A".toList, 4, true, 1), ("B".toList, 4, true, 1)] ∧
    (read_layer_samples two_layer_images []).lookup "B".toList =
      some { total := 8, per_pixel := [4] } ∧
    (two_layer_images.map (fun image =>
      channel_value image.inp "B.Debug Sample Count.X".toList 0 *
        layer_samples_in image "B".toList)).sum = 8 := by
  refine ⟨by decide!, by decide!, by decide!⟩


/-! ## Order of the output channels -/

theorem first_occurrences_filter (p : List Char → Bool) (xs : List (List Char)) :
    (first_occurrences xs).filter p = first_occurrences (xs.filter p) := by
  induction xs with
  | nil => rfl
  | cons c cs ih =>
    by_cases hc : p c = true
    · rw [List.filter_cons_of_pos hc]
      simp only [first_occurrences]
      rw [List.filter_cons_of_pos hc, ← ih, List.filter_filter, List.filter_filter]
      congr 1
      apply List.filter_congr
      intro d _
      exact Bool.and_comm _ _
    · rw [List.filter_cons_of_neg hc]
      simp only [first_occurrences]
      rw [List.filter_cons_of_neg hc, ← ih, List.filter_filter]
      apply List.filter_congr
      intro d _
      by_cases hd : p d = true
      · have : d ≠ c := fun e => hc (e ▸ hd)
        simp [hd, this]
      · simp [hd]

theorem mem_first_occurrences (xs : List (List Char)) (c : List Char) :
    c ∈ first_occurrences xs ↔ c ∈ xs := by
  induction xs with
  | nil => simp [first_occurrences]
  | cons d ds ih =>
    simp only [first_occurrences, List.mem_cons, List.mem_filter, ih, decide_eq_true_eq]
    by_cases h : c = d
    · simp [h]
    · simp [h]

theorem first_occurrences_nodup (xs : List (List Char)) : (first_occurrences xs).Nodup := by
  induction xs with
  | nil => exact List.nodup_nil
  | cons d ds ih =>
    simp only [first_occurrences]
    rw [List.nodup_cons]
    refine ⟨?_, ih.filter _⟩
    intro h
    have := (List.mem_filter.mp h).2
    simp at this

theorem annotate_items_names (items : List (ImageInput × MergeImageLayer × MergeImagePass))
    (spec : ImageSpec) :
    (annotate_items spec items).1.channelnames =
      spec.channelnames ++ first_occurrences
        ((items.map (fun it => it.2.2.channel_name)).filter
          (fun c => decide (c ∉ spec.channelnames))) ∧
    (annotate_items spec items).2.map (fun it => it.2.2.channel_name) =
      items.map (fun it => it.2.2.channel_name) := by
  induction items generalizing spec with
  | nil => simp [annotate_items, first_occurrences]
  | cons it rest ih =>
    simp only [annotate_items, List.map_cons]
    by_cases hc : it.2.2.channel_name ∈ spec.channelnames
    · rw [merge_channel_pass_mem spec it.2.2 hc]
      simp only []
      rw [(ih spec).1, (ih spec).2]
      rw [List.filter_cons_of_neg (by simpa using hc)]
      exact ⟨rfl, rfl⟩
    · rw [merge_channel_pass_new spec it.2.2 hc]
      simp only []
      rw [(ih _).1, (ih _).2]
      rw [List.filter_cons_of_pos (by simpa using hc)]
      simp only [first_occurrences, first_occurrences_filter, List.filter_filter,
        List.append_assoc, List.singleton_append]
      refine ⟨?_, trivial⟩
      congr 3
      apply List.filter_congr
      intro d _
      by_cases h1 : d ∈ spec.channelnames
      · simp [h1]
      · by_cases h2 : d = it.2.2.channel_name
        · simp [h2]
        · simp [h1, h2]

theorem pass_items_names (images : List MergeImage) :
    (pass_items images).map (fun it => it.2.2.channel_name) = pass_channel_names images := by
  unfold pass_items pass_channel_names
  induction images with
  | nil => rfl
  | cons image rest ih =>
    simp only [List.flatMap_cons, List.map_append, ih]
    congr 1
    induction image.layers with
    | nil => rfl
    | cons l ls ihl =>
      simp only [List.flatMap_cons, List.map_append, ihl, List.map_map]
      rfl

theorem channel_index_get (names : List (List Char)) (c : List Char) (h : c ∈ names) :
    names[channel_index names c]? = some c := by
  have hlt := (channel_index_lt names c).mpr h
  rw [List.getElem?_eq_getElem hlt]
  have := List.findIdx_getElem (w := hlt)
  simp only [decide_eq_true_eq] at this
  exact congrArg some this.symm

/-- C15: after `merge_channels_metadata` the output channel names are pairwise
distinct; they are the full channel names of all passes of all images in the order
of first occurrence (images in input order, layers in layer order, passes in pass
order); `out_spec.nchannels` is their number; and the `merge_offset` of every pass of
the updated images, whose passes carry the same names, is the index of the output
channel with the pass's full channel name. -/
theorem output_channel_layout (tu : TimeUtil) (images : List MergeImage) :
    (merge_channels_metadata tu images).2.channelnames.Nodup ∧
    (merge_channels_metadata tu images).2.channelnames =
      first_occurrences (pass_channel_names images) ∧
    (merge_channels_metadata tu images).2.nchannels =
      (merge_channels_metadata tu images).2.channelnames.length ∧
    pass_channel_names (merge_channels_metadata tu images).1 = pass_channel_names images ∧
    ∀ image ∈ (merge_channels_metadata tu images).1, ∀ l ∈ image.layers, ∀ pass ∈ l.passes,
      (merge_channels_metadata tu images).2.channelnames[pass.merge_offset]? =
        some pass.channel_name ∧
      pass.merge_offset =
        channel_index (merge_channels_metadata tu images).2.channelnames pass.channel_name := by
  obtain ⟨h1, h2, h3, _, _⟩ := merge_channels_metadata_eq tu images
  obtain ⟨a1, _, _, a4, _, _, _⟩ :=
    annotate_items_spec (pass_items images) (base_spec images) rfl
  obtain ⟨n1, n2⟩ := annotate_items_names (pass_items images) (base_spec images)
  have hnames : (merge_channels_metadata tu images).2.channelnames =
      first_occurrences (pass_channel_names images) := by
    rw [h3, n1, pass_items_names]
    show [] ++ first_occurrences ((pass_channel_names images).filter _) = _
    rw [List.nil_append]
    congr 1
    apply List.filter_eq_self.mpr
    intro c _
    show decide (c ∉ ([] : List (List Char))) = true
    simp
  refine ⟨?_, hnames, ?_, ?_, ?_⟩
  · rw [hnames]
    exact first_occurrences_nodup _
  · rw [h2, h3]
    exact a1
  · rw [← pass_items_names, ← pass_items_names, h1, n2]
  · intro image himg l hl pass hpass
    have hmem := mem_pass_items_of _ image l pass himg hl hpass
    rw [h1] at hmem
    obtain ⟨b1, b2, _⟩ := a4 _ hmem
    simp only at b1 b2
    rw [← h3] at b1 b2
    refine ⟨?_, b1⟩
    rw [b1]
    exact channel_index_get _ _ b2


/-- Witness of `output_channel_layout` on the two example files, which hold the same
three channels: the six pass names reduce to the three output channels. -/
theorem output_channel_layout_witness :
    pass_channel_names example_images =
      ["A.Combined.R".toList, "A.Depth.Z".toList, "A.Debug Ray Bounces.X".toList,
       "A.Combined.R".toList, "A.Depth.Z".toList, "A.Debug Ray Bounces.X".toList] ∧
    first_occurrences (pass_channel_names example_images) =
      ["A.Combined.R".toList, "A.Depth.Z".toList, "A.Debug Ray Bounces.X".toList] ∧
    (merge_channels_metadata example_time example_images).2.channelnames =
      first_occurrences (pass_channel_names example_images) :=
  ⟨by decide, by decide, (output_channel_layout example_time example_images).2.1⟩

/-! ## Naming a single unnamed layer -/

/-- C16, evaluated at a failing input: for the layout `two_attribute_spec` the only
channel falls into the unnamed layer and the metadata holds "cycles.A.samples" before
"cycles.B.samples"; `parse_channels` returns a single layer that is called "B", after
the last attribute, with the sample count 3 of "B" and without any pass. -/
theorem rename_uses_last_attribute :
    (parse_channel_loop two_attribute_spec two_attribute_spec.nchannels 0 []).map
        (fun e => (e.1, e.2.passes.map (fun pass => pass.channel_name))) =
      [([], ["R".toList])] ∧
    two_attribute_spec.extra_attribs.map (fun a => a.name) =
      ["cycles.A.samples".toList, "cycles.B.samples".toList] ∧
    (parse_channels two_attribute_spec).toOption.map
        (fun layers => layers.map (fun l => (l.name, l.samples, l.passes.length))) =
      some [("B".toList, 3, 0)] := by
  refine ⟨by decide!, by decide!, by decide!⟩

/-- C19, evaluated at a failing input: `parse_channels` succeeds on the layout
`two_attribute_spec` of one channel, and the layers it returns hold no pass at all:
channel index 0 is the source offset of no pass. -/
theorem rename_drops_passes :
    two_attribute_spec.nchannels = 1 ∧
    (parse_channels two_attribute_spec).toOption.map
        (fun layers => (all_passes layers).map (fun pass => pass.offset)) = some [] := by
  refine ⟨by decide!, by decide!⟩

/-! ## Average of a channel that an image lacks -/

/-- C18, evaluated at a failing input: the files "p" (2 samples) and "q" (6 samples) both
hold the layer "A"; the average-type channel "A.Diffuse.R" is in "p" only, with the
value 6. Its merged value is `6 * 2 / (2 + 6) = 3/2`: the weight of "p" is its share
of the samples of all images with the layer "A", not of those that hold the channel. -/
theorem average_weights_count_other_images :
    (ImageMerger.run example_time lacking_fs ["p".toList, "q".toList] "out".toList).toOption.map
        (fun r => (r.1.channelnames, merged_value r.1 r.2 "A.Diffuse.R".toList 0)) =
      some (["A.Combined.R".toList, "A.Diffuse.R".toList], 3 / 2) ∧
    (lacking_fs "p".toList).map (fun inp => channel_value inp "A.Diffuse.R".toList 0) = some 6 ∧
    (lacking_fs "q".toList).map (fun inp => inp.spec.channelnames) =
      some ["A.Combined.R".toList] ∧
    parse_channel_operation "Diffuse".toList = MERGE_CHANNEL_AVERAGE := by
  refine ⟨by decide!, by decide!, by decide!, by decide!⟩


/-! ## Channels without layer name -/

/-- The loop makes the accesses of the iterations `i`, ..., `n - 1`, each once and in
order, when the buffer holds `n` pixels of `stride` channels and the first offset is
a channel of the first pixel; `n - i` iterations are enough. -/
theorem pixel_loop_accesses_eq (n stride os : Nat) (body : Nat → Nat → Nat → Nat → List Access)
    (off0 spo0 oo0 : Nat) (hoff : off0 < stride) (fuel i : Nat) (hi : i ≤ n)
    (hfuel : n - i ≤ fuel) :
    pixel_loop_accesses (n * stride) stride os body fuel i (off0 + i * stride)
        (spo0 + i * stride) (oo0 + i * os) =
      (List.range' i (n - i)).flatMap
        (fun k => body k (off0 + k * stride) (spo0 + k * stride) (oo0 + k * os)) := by
  induction fuel generalizing i with
  | zero =>
    have : n - i = 0 := by omega
    rw [this]
    rfl
  | succ fuel ih =>
    unfold pixel_loop_accesses
    by_cases hin : i < n
    · have hcond : off0 + i * stride < n * stride := index_lt n stride i off0 hin hoff
      rw [if_pos hcond]
      have e1 : off0 + i * stride + stride = off0 + (i + 1) * stride := by
        rw [Nat.add_mul, Nat.one_mul, Nat.add_assoc]
      have e2 : spo0 + i * stride + stride = spo0 + (i + 1) * stride := by
        rw [Nat.add_mul, Nat.one_mul, Nat.add_assoc]
      have e3 : oo0 + i * os + os = oo0 + (i + 1) * os := by
        rw [Nat.add_mul, Nat.one_mul, Nat.add_assoc]
      rw [e1, e2, e3, ih (i + 1) (by omega) (by omega)]
      have e4 : n - i = (n - (i + 1)) + 1 := by omega
      rw [e4, List.range'_succ, List.flatMap_cons]
    · have : i = n := by omega
      subst this
      have hcond : ¬ off0 + i * stride < i * stride := by omega
      rw [if_neg hcond, Nat.sub_self]
      rfl

theorem merge_pass_accesses_ok (ls : List (List Char × SampleCount)) (layer : MergeImageLayer)
    (pixels : List ℚ) (stride os num out_size : Nat) (out : List ℚ) (pass : MergeImagePass) :
    (merge_pass_accesses ls layer stride os num out_size pass).2 =
      (merge_pass ls layer pixels stride os num out pass).toOption.isSome := by
  unfold merge_pass_accesses merge_pass
  cases pass.op with
  | MERGE_CHANNEL_NOP => rfl
  | MERGE_CHANNEL_COPY => rfl
  | MERGE_CHANNEL_SUM => rfl
  | MERGE_CHANNEL_AVERAGE =>
    simp only []
    cases ls.lookup layer.name <;> rfl
  | MERGE_CHANNEL_SAMPLES =>
    simp only []
    cases ls.lookup layer.name <;> rfl

theorem merge_passes_accesses_ok (ls : List (List Char × SampleCount)) (layer : MergeImageLayer)
    (pixels : List ℚ) (stride os num out_size : Nat) (passes : List MergeImagePass)
    (out : List ℚ) :
    (merge_passes_accesses ls layer stride os num out_size passes).2 =
      (merge_passes ls layer pixels stride os num passes out).toOption.isSome := by
  induction passes generalizing out with
  | nil => rfl
  | cons pass rest ih =>
    have h1 := merge_pass_accesses_ok ls layer pixels stride os num out_size out pass
    simp only [merge_passes_accesses, merge_passes]
    cases hm : merge_pass ls layer pixels stride os num out pass with
    | error e =>
      rw [hm] at h1
      rw [h1]
      rfl
    | ok out1 =>
      rw [hm] at h1
      rw [h1]
      exact ih out1

theorem merge_layers_accesses_ok (ls : List (List Char × SampleCount)) (pixels : List ℚ)
    (stride os num out_size : Nat) (layers : List MergeImageLayer) (out : List ℚ) :
    (merge_layers_accesses ls stride os num out_size layers).2 =
      (merge_layers ls pixels stride os num layers out).toOption.isSome := by
  induction layers generalizing out with
  | nil => rfl
  | cons layer rest ih =>
    have h1 := merge_passes_accesses_ok ls layer pixels stride os num out_size layer.passes out
    simp only [merge_layers_accesses, merge_layers]
    cases hm : merge_passes ls layer pixels stride os num layer.passes out with
    | error e =>
      rw [hm] at h1
      rw [h1]
      rfl
    | ok out1 =>
      rw [hm] at h1
      rw [h1]
      exact ih out1

theorem merge_image_accesses_ok (out_spec : ImageSpec) (ls : List (List Char × SampleCount))
    (image : MergeImage) (out : List ℚ) :
    (merge_image_accesses out_spec ls image).2 =
      (merge_image out_spec ls image out).toOption.isSome := by
  unfold merge_image_accesses merge_image
  simp only []
  cases image.inp.read_image 0 image.inp.spec.nchannels with
  | none => rfl
  | some pixels => exact merge_layers_accesses_ok ls pixels _ _ _ _ image.layers out

theorem merge_images_accesses_ok (out_spec : ImageSpec) (ls : List (List Char × SampleCount))
    (images : List MergeImage) (out : List ℚ) :
    (merge_images_accesses out_spec ls images).2 =
      (merge_images out_spec ls images out).toOption.isSome := by
  induction images generalizing out with
  | nil => rfl
  | cons image rest ih =>
    have h1 := merge_image_accesses_ok out_spec ls image out
    simp only [merge_images_accesses, merge_images]
    cases hm : merge_image out_spec ls image out with
    | error e =>
      rw [hm] at h1
      rw [h1]
      rfl
    | ok out1 =>
      rw [hm] at h1
      rw [h1]
      exact ih out1

/-- The recorded run of `merge_pixels` goes to the end exactly when `merge_pixels`
returns its buffer. -/
theorem merge_pixels_accesses_ok (images : List MergeImage) (out_spec : ImageSpec)
    (ls : List (List Char × SampleCount)) :
    (merge_pixels_accesses images out_spec ls).2 = true ↔
      ∃ out, merge_pixels images out_spec ls = Except.ok out := by
  unfold merge_pixels_accesses merge_pixels
  rw [merge_images_accesses_ok out_spec ls images (List.replicate (alloc_pixels out_spec) 0)]
  cases merge_images out_spec ls images (List.replicate (alloc_pixels out_spec) 0) with
  | error e => simp [Except.toOption]
  | ok out => simp [Except.toOption]

theorem mem_merge_passes_accesses (ls : List (List Char × SampleCount)) (layer : MergeImageLayer)
    (stride os num out_size : Nat) (passes : List MergeImagePass) (a : Access)
    (h : a ∈ (merge_passes_accesses ls layer stride os num out_size passes).1) :
    ∃ pass ∈ passes, a ∈ (merge_pass_accesses ls layer stride os num out_size pass).1 := by
  induction passes with
  | nil => cases h
  | cons pass rest ih =>
    simp only [merge_passes_accesses] at h
    by_cases hr : (merge_pass_accesses ls layer stride os num out_size pass).2 = true
    · rw [if_pos hr] at h
      rcases List.mem_append.mp h with h | h
      · exact ⟨pass, List.mem_cons_self _ _, h⟩
      · obtain ⟨q, hq, ha⟩ := ih h
        exact ⟨q, List.mem_cons_of_mem _ hq, ha⟩
    · rw [if_neg hr] at h
      exact ⟨pass, List.mem_cons_self _ _, h⟩

theorem mem_merge_layers_accesses (ls : List (List Char × SampleCount))
    (stride os num out_size : Nat) (layers : List MergeImageLayer) (a : Access)
    (h : a ∈ (merge_layers_accesses ls stride os num out_size layers).1) :
    ∃ layer ∈ layers, ∃ pass ∈ layer.passes,
      a ∈ (merge_pass_accesses ls layer stride os num out_size pass).1 := by
  induction layers with
  | nil => cases h
  | cons layer rest ih =>
    simp only [merge_layers_accesses] at h
    by_cases hr : (merge_passes_accesses ls layer stride os num out_size layer.passes).2 = true
    · rw [if_pos hr] at h
      rcases List.mem_append.mp h with h | h
      · exact ⟨layer, List.mem_cons_self _ _, mem_merge_passes_accesses _ _ _ _ _ _ _ _ h⟩
      · obtain ⟨l, hl, rest1⟩ := ih h
        exact ⟨l, List.mem_cons_of_mem _ hl, rest1⟩
    · rw [if_neg hr] at h
      exact ⟨layer, List.mem_cons_self _ _, mem_merge_passes_accesses _ _ _ _ _ _ _ _ h⟩

theorem mem_merge_image_accesses (out_spec : ImageSpec) (ls : List (List Char × SampleCount))
    (image : MergeImage) (a : Access) (h : a ∈ (merge_image_accesses out_spec ls image).1) :
    ∃ layer ∈ image.layers, ∃ pass ∈ layer.passes,
      a ∈ (merge_pass_accesses ls layer image.inp.spec.nchannels out_spec.nchannels
        (alloc_pixels image.inp.spec) (alloc_pixels out_spec) pass).1 := by
  unfold merge_image_accesses at h
  simp only [] at h
  cases hr : image.inp.read_image 0 image.inp.spec.nchannels with
  | none =>
    rw [hr] at h
    cases h
  | some pixels =>
    rw [hr] at h
    exact mem_merge_layers_accesses _ _ _ _ _ _ _ h

theorem mem_merge_pixels_accesses (images : List MergeImage) (out_spec : ImageSpec)
    (ls : List (List Char × SampleCount)) (a : Access)
    (h : a ∈ (merge_pixels_accesses images out_spec ls).1) :
    ∃ image ∈ images, ∃ layer ∈ image.layers, ∃ pass ∈ layer.passes,
      a ∈ (merge_pass_accesses ls layer image.inp.spec.nchannels out_spec.nchannels
        (alloc_pixels image.inp.spec) (alloc_pixels out_spec) pass).1 := by
  unfold merge_pixels_accesses at h
  induction images with
  | nil => cases h
  | cons image rest ih =>
    simp only [merge_images_accesses] at h
    by_cases hr : (merge_image_accesses out_spec ls image).2 = true
    · rw [if_pos hr] at h
      rcases List.mem_append.mp h with h | h
      · exact ⟨image, List.mem_cons_self _ _, mem_merge_image_accesses _ _ _ _ h⟩
      · obtain ⟨i, hi, rest1⟩ := ih h
        exact ⟨i, List.mem_cons_of_mem _ hi, rest1⟩
    · rw [if_neg hr] at h
      exact ⟨image, List.mem_cons_self _ _, mem_merge_image_accesses _ _ _ _ h⟩

theorem mem_pixel_loop_accesses (n stride os : Nat) (body : Nat → Nat → Nat → Nat → List Access)
    (off0 spo0 oo0 : Nat) (hoff : off0 < stride) (a : Access)
    (h : a ∈ pixel_loop_accesses (n * stride) stride os body (n * stride) 0 off0 spo0 oo0) :
    ∃ k < n, a ∈ body k (off0 + k * stride) (spo0 + k * stride) (oo0 + k * os) := by
  have hfuel : n - 0 ≤ n * stride := by
    have : n * 1 ≤ n * stride := Nat.mul_le_mul_left _ (by omega)
    omega
  have e := pixel_loop_accesses_eq n stride os body off0 spo0 oo0 hoff (n * stride) 0
    (Nat.zero_le _) hfuel
  simp only [Nat.zero_mul, Nat.add_zero, Nat.sub_zero] at e
  rw [e] at h
  obtain ⟨k, hk, ha⟩ := List.mem_flatMap.mp h
  refine ⟨k, ?_, ha⟩
  have := List.mem_range'_1.mp hk
  omega

/-- The accesses of one pass are in bounds when the buffers hold `n` pixels, the
source, sample-count and destination channels exist, and the sample map holds an
entry of `n` per-pixel values for the layer. -/
theorem merge_pass_accesses_safe (ls : List (List Char × SampleCount)) (layer : MergeImageLayer)
    (n stride os : Nat) (channels : List Nat) (pass : MergeImagePass)
    (hch : stride ∈ channels) (hoff : pass.offset < stride) (hmo : pass.merge_offset < os)
    (hspo : layer.has_sample_pass = true → layer.sample_pass_offset < stride)
    (hlk : ∃ sc, ls.lookup layer.name = some sc ∧ sc.per_pixel.length = n) :
    ∀ a ∈ (merge_pass_accesses ls layer stride os (n * stride) (n * os) pass).1,
      a.in_bounds ∧ a.sized n channels os := by
  obtain ⟨sc, hsc, hlen⟩ := hlk
  have hsrc : ∀ k < n, (Access.source (pass.offset + k * stride) (n * stride)).in_bounds ∧
      (Access.source (pass.offset + k * stride) (n * stride)).sized n channels os :=
    fun k hk => ⟨index_lt n stride k pass.offset hk hoff, stride, hch, rfl⟩
  have hdst : ∀ k < n, (Access.destination (pass.merge_offset + k * os) (n * os)).in_bounds ∧
      (Access.destination (pass.merge_offset + k * os) (n * os)).sized n channels os :=
    fun k hk => ⟨index_lt n os k pass.merge_offset hk hmo, rfl⟩
  have hpp : ∀ k < n, (Access.per_pixel k sc.per_pixel.length).in_bounds ∧
      (Access.per_pixel k sc.per_pixel.length).sized n channels os :=
    fun k hk => ⟨by rw [hlen]; exact hk, hlen⟩
  intro a ha
  unfold merge_pass_accesses at ha
  cases hop : pass.op with
  | MERGE_CHANNEL_NOP =>
    rw [hop] at ha
    cases ha
  | MERGE_CHANNEL_COPY =>
    rw [hop] at ha
    obtain ⟨k, hk, hb⟩ := mem_pixel_loop_accesses n stride os _ _ _ _ hoff a ha
    simp only [pass_accesses, List.mem_cons, List.mem_singleton, List.not_mem_nil,
      or_false] at hb
    rcases hb with rfl | rfl
    · exact hsrc k hk
    · exact hdst k hk
  | MERGE_CHANNEL_SUM =>
    rw [hop] at ha
    obtain ⟨k, hk, hb⟩ := mem_pixel_loop_accesses n stride os _ _ _ _ hoff a ha
    simp only [pass_accesses, List.mem_cons, List.mem_singleton, List.not_mem_nil,
      or_false] at hb
    rcases hb with rfl | rfl
    · exact hsrc k hk
    · exact hdst k hk
  | MERGE_CHANNEL_AVERAGE =>
    rw [hop] at ha
    simp only [hsc] at ha
    rcases List.mem_cons.mp ha with rfl | ha
    · exact ⟨rfl, trivial⟩
    · obtain ⟨k, hk, hb⟩ := mem_pixel_loop_accesses n stride os _ _ _ _ hoff a ha
      simp only [pass_accesses, List.mem_cons, List.mem_append, List.mem_singleton,
        List.not_mem_nil, or_false] at hb
      rcases hb with rfl | hb | rfl | rfl
      · exact hpp k hk
      · by_cases hs : layer.has_sample_pass = true
        · rw [if_pos hs] at hb
          rw [List.mem_singleton.mp hb]
          exact ⟨index_lt n stride k layer.sample_pass_offset hk (hspo hs), stride, hch, rfl⟩
        · rw [if_neg hs] at hb
          cases hb
      · exact hsrc k hk
      · exact hdst k hk
  | MERGE_CHANNEL_SAMPLES =>
    rw [hop] at ha
    simp only [hsc] at ha
    rcases List.mem_cons.mp ha with rfl | ha
    · exact ⟨rfl, trivial⟩
    · obtain ⟨k, hk, hb⟩ := mem_pixel_loop_accesses n stride os _ _ _ _ hoff a ha
      simp only [pass_accesses, List.mem_cons, List.mem_singleton, List.not_mem_nil,
        or_false] at hb
      rcases hb with rfl | rfl
      · exact hpp k hk
      · exact hdst k hk

theorem length_le_flatMap {α β : Type} (f : α → List β) (xs : List α) (x : α) (h : x ∈ xs) :
    (f x).length ≤ (xs.flatMap f).length := by
  induction xs with
  | nil => cases h
  | cons y ys ih =>
    rw [List.flatMap_cons, List.length_append]
    rcases List.mem_cons.mp h with rfl | h
    · omega
    · have := ih h
      omega

/-- A layer of an opened image has no more passes than the file has channels, so
the position of its sample-count pass in its pass list is below the channel count. -/
theorem sample_pass_offset_lt (fs : List Char → Option ImageInput) (path : List Char)
    (image : MergeImage) (hopen : opened_from fs path image) (l : MergeImageLayer)
    (hl : l ∈ image.layers) (hs : l.has_sample_pass = true) :
    l.sample_pass_offset < image.inp.spec.nchannels := by
  obtain ⟨_, _, hparse, _, _⟩ := hopen
  obtain ⟨_, hnd, hoff, hfin, _⟩ := parse_channels_ok _ _ hparse
  obtain ⟨e, _, hf⟩ := hfin l hl
  obtain ⟨_, _, _, _, _, h6, _⟩ := finish_layer_ok image.inp.spec e.1 e.2 l hf
  have h1 : l.passes.length ≤ (all_passes image.layers).length :=
    length_le_flatMap (fun l => l.passes) image.layers l hl
  have h2 : ((all_passes image.layers).map (fun p => p.offset)).length ≤
      (List.range image.inp.spec.nchannels).length := by
    apply List.Subperm.length_le
    apply List.subperm_of_subset hnd
    intro x hx
    obtain ⟨p, hp, rfl⟩ := List.mem_map.mp hx
    exact List.mem_range.mpr (hoff p hp).1
  rw [List.length_map, List.length_range] at h2
  have := (h6 hs).2
  omega

/-! ## The sample accumulator in machine arithmetic -/

/-- The `int` product of a width and a height, converted to `size_t`, is the number
of pixels when that is below 2^31. -/
theorem size_fits (w h : Nat) (hfit : w * h < 2147483648) :
    to_size_t (int_mul w h) = w * h := by
  unfold to_size_t int_mul
  have e : ((w : Int) * (h : Int)) = ((w * h : Nat) : Int) := by push_cast; rfl
  rw [e, wrap32_id _ (by omega) (by omega)]
  omega

/-- The shape of a sample map holds, for each key, the size of the buffer of its entry. -/
theorem sample_shape_lookup (m : List (List Char × SampleCount)) (k : List Char) :
    (sample_shape m).lookup k = (m.lookup k).map (fun sc => sc.per_pixel.length) := by
  induction m with
  | nil => rfl
  | cons e rest ih =>
    obtain ⟨k1, v⟩ := e
    unfold sample_shape at ih ⊢
    simp only [List.map_cons, List.lookup]
    cases k == k1 with
    | true => rfl
    | false => exact ih

/-- Assignments of buffers of one size keep two sample maps of one shape in one shape. -/
theorem sample_shape_umap_set (m mm : List (List Char × SampleCount)) (k : List Char)
    (v vm : SampleCount) (h : sample_shape m = sample_shape mm)
    (hv : v.per_pixel.length = vm.per_pixel.length) :
    sample_shape (umap_set k v m) = sample_shape (umap_set k vm mm) := by
  induction m generalizing mm with
  | nil =>
    cases mm with
    | nil => rfl
    | cons e rest => simp [sample_shape] at h
  | cons e rest ih =>
    cases mm with
    | nil => simp [sample_shape] at h
    | cons em restm =>
      obtain ⟨k1, v1⟩ := e
      obtain ⟨k2, v2⟩ := em
      simp only [sample_shape, List.map_cons, List.cons.injEq, Prod.mk.injEq] at h
      obtain ⟨⟨hk, hl⟩, hrest⟩ := h
      subst hk
      simp only [umap_set]
      by_cases hkk : k = k1
      · rw [if_pos hkk, if_pos hkk]
        simp only [sample_shape, List.map_cons, hv]
        exact congrArg _ hrest
      · rw [if_neg hkk, if_neg hkk]
        simp only [sample_shape, List.map_cons, hl]
        exact congrArg _ (ih restm hrest)

/-- Size of the per-pixel buffer after `accumulate_layer_machine`: the `int` product
for a fresh entry, the size it had otherwise. -/
theorem accumulate_layer_machine_length (inp : ImageInput) (layer : MergeImageLayer)
    (is_new : Bool) (cur : SampleCount) :
    (accumulate_layer_machine inp layer is_new cur).per_pixel.length =
      if is_new then to_size_t (int_mul inp.spec.width inp.spec.height)
      else cur.per_pixel.length := by
  unfold accumulate_layer_machine
  simp only []
  cases is_new <;> cases layer.has_sample_pass <;> simp

/-- Size of the per-pixel buffer after `accumulate_layer`: the number of pixels for a
fresh entry, the size it had otherwise. -/
theorem accumulate_layer_length (inp : ImageInput) (layer : MergeImageLayer)
    (is_new : Bool) (cur : SampleCount) :
    (accumulate_layer inp layer is_new cur).per_pixel.length =
      if is_new then inp.spec.width * inp.spec.height else cur.per_pixel.length := by
  cases is_new with
  | true => exact (accumulate_layer_new inp layer cur).2.1
  | false => exact (accumulate_layer_old inp layer cur).2.1

/-- One layer, accumulated in machine arithmetic and in exact arithmetic, keeps two
sample maps of one shape in one shape, when the image has fewer than 2^31 pixels. -/
theorem read_layer_samples_layer_shape (inp : ImageInput) (m mm : List (List Char × SampleCount))
    (layer : MergeImageLayer) (hfit : inp.spec.width * inp.spec.height < 2147483648)
    (h : sample_shape m = sample_shape mm) :
    sample_shape (read_layer_samples_layer inp m layer) =
      sample_shape (read_layer_samples_layer_machine inp mm layer) := by
  have hl := sample_shape_lookup m layer.name
  rw [h, sample_shape_lookup mm layer.name] at hl
  unfold read_layer_samples_layer read_layer_samples_layer_machine
  cases h1 : m.lookup layer.name with
  | none =>
    rw [h1] at hl
    cases h2 : mm.lookup layer.name with
    | some c => rw [h2] at hl; cases hl
    | none =>
      simp only []
      unfold sample_shape at h ⊢
      rw [List.map_append, List.map_append, h]
      simp only [List.map_cons, List.map_nil, accumulate_layer_machine_length,
        accumulate_layer_length, if_true, size_fits _ _ hfit]
  | some c =>
    rw [h1] at hl
    cases h2 : mm.lookup layer.name with
    | none => rw [h2] at hl; cases hl
    | some cm =>
      rw [h2] at hl
      simp only [Option.map_some', Option.some.injEq] at hl
      simp only []
      apply sample_shape_umap_set _ _ _ _ _ h
      rw [accumulate_layer_machine_length, accumulate_layer_length]
      simp only [Bool.false_eq_true, if_false]
      exact hl.symm

/-- The sample maps built in machine arithmetic and in exact arithmetic from maps of
one shape have one shape, when the images have fewer than 2^31 pixels. -/
theorem read_layer_samples_shape (images : List MergeImage)
    (hfit : ∀ image ∈ images, image.inp.spec.width * image.inp.spec.height < 2147483648)
    (m mm : List (List Char × SampleCount)) (h : sample_shape m = sample_shape mm) :
    sample_shape (read_layer_samples images m) =
      sample_shape (read_layer_samples_machine images mm) := by
  induction images generalizing m mm with
  | nil => exact h
  | cons image rest ih =>
    unfold read_layer_samples read_layer_samples_machine
    simp only [List.foldl_cons]
    apply ih (fun i hi => hfit i (List.mem_cons_of_mem _ hi))
    unfold read_layer_samples_image read_layer_samples_image_machine
    have hf := hfit image (List.mem_cons_self _ _)
    generalize image.layers = layers
    induction layers generalizing m mm with
    | nil => exact h
    | cons l ls ihl =>
      simp only [List.foldl_cons]
      exact ihl _ _ (read_layer_samples_layer_shape image.inp m mm l hf h)

/-- For images of fewer than 2^31 pixels the sample map in machine arithmetic holds
the entries of `read_layer_samples`, with per-pixel buffers of the same sizes. -/
theorem read_layer_samples_machine_lookup (images : List MergeImage) (L : List Char)
    (hfit : ∀ image ∈ images, image.inp.spec.width * image.inp.spec.height < 2147483648) :
    ((read_layer_samples_machine images []).lookup L).map (fun sc => sc.per_pixel.length) =
      ((read_layer_samples images []).lookup L).map (fun sc => sc.per_pixel.length) := by
  rw [← sample_shape_lookup, ← sample_shape_lookup, read_layer_samples_shape images hfit [] [] rfl]

/-! ## Index safety below the range of `int` -/

/-- Index safety of the pixel merge for images of fewer than 2^31 pixels, for which
the `int` product of `read_layer_samples` is the number of pixels: for the images
`open_images` accepts, all of one width `w` and height `h`, with the destination
offsets of `merge_channels_metadata` and the sample map `read_layer_samples` builds
(in machine arithmetic), every access `merge_pixels` makes is in bounds. The source
and sample-pass indices are below the size `w*h*(channels of the image)` of the image
buffer, the destination indices below the size `w*h*(output channels)` of the output
buffer, the per-pixel indices below the number `w*h` of per-pixel sample counts, and
every lookup of a layer name finds its entry. -/
theorem merge_pixels_index_safety_bounded (tu : TimeUtil) (fs : List Char → Option ImageInput)
    (input : List (List Char)) (images : List MergeImage)
    (hopen : open_images fs input [] = Except.ok images)
    (hfit : ∀ image ∈ images, image.inp.spec.width * image.inp.spec.height < 2147483648) :
    ∃ w h, (∀ image ∈ images, image.inp.spec.width = w ∧ image.inp.spec.height = h) ∧
      ∀ a ∈ (merge_pixels_accesses (merge_channels_metadata tu images).1
          (merge_channels_metadata tu images).2 (read_layer_samples_machine images [])).1,
        a.in_bounds ∧
        a.sized (w * h) (images.map (fun image => image.inp.spec.nchannels))
          (merge_channels_metadata tu images).2.nchannels := by
  obtain ⟨w, ht, _, hdim⟩ := open_images_dims fs input images hopen
  refine ⟨w, ht, hdim, ?_⟩
  intro a ha
  obtain ⟨image1, himg1, layer1, hl1, pass1, hp1, hacc⟩ := mem_merge_pixels_accesses _ _ _ a ha
  obtain ⟨n, _, hn2, hn3, hitems⟩ := open_images_items_fit tu fs input images hopen
  obtain ⟨image, himg, hinp, hlayers⟩ :=
    mem_strip_images images _ (merge_channels_metadata_strip tu images) image1 himg1
  have hn : n = w * ht := by
    rw [← hn2 image himg, (hdim image himg).1, (hdim image himg).2]
  subst hn
  obtain ⟨f1, f2, f3⟩ := hitems _ (mem_pass_items_of _ image1 layer1 pass1 himg1 hl1 hp1)
  simp only at f1 f2 f3
  have hne : images ≠ [] := fun e => by rw [e] at himg; cases himg
  -- the layer of the input image that `layer1` was made of
  have hs1 : strip layer1 ∈ image.layers.map (fun l => strip l) := by
    rw [← hlayers]
    exact List.mem_map.mpr ⟨layer1, hl1, rfl⟩
  obtain ⟨l, hl, he⟩ := List.mem_map.mp hs1
  have hname : l.name = layer1.name := by
    show (strip l).name = (strip layer1).name
    rw [he]
  have hhas : l.has_sample_pass = layer1.has_sample_pass := by
    show (strip l).has_sample_pass = (strip layer1).has_sample_pass
    rw [he]
  have hspo : l.sample_pass_offset = layer1.sample_pass_offset := by
    show (strip l).sample_pass_offset = (strip layer1).sample_pass_offset
    rw [he]
  obtain ⟨path, _, ho⟩ := open_images_opened fs input images hopen image himg
  have hlk : ∃ sc, (read_layer_samples_machine images []).lookup layer1.name = some sc ∧
      sc.per_pixel.length = w * ht := by
    obtain ⟨k1, k2⟩ := read_layer_samples_lookup images (w * ht) hn2 layer1.name
    have hmem : (image.inp, l) ∈ layers_named images layer1.name :=
      (mem_layers_named images layer1.name _).mpr ⟨image, himg, l, hl, rfl, hname⟩
    have hm := read_layer_samples_machine_lookup images layer1.name hfit
    cases hlook : (read_layer_samples images []).lookup layer1.name with
    | none =>
      rw [k1.mp hlook] at hmem
      cases hmem
    | some sc =>
      rw [hlook] at hm
      cases hmach : (read_layer_samples_machine images []).lookup layer1.name with
      | none =>
        rw [hmach] at hm
        cases hm
      | some scm =>
        rw [hmach] at hm
        simp only [Option.map_some', Option.some.injEq] at hm
        exact ⟨scm, rfl, by rw [hm]; exact (k2 sc hlook).2.1⟩
  rw [f1, hn3 hne] at hacc
  refine merge_pass_accesses_safe _ layer1 (w * ht) image1.inp.spec.nchannels _ _ pass1 ?_ f2 f3
    ?_ hlk a hacc
  · rw [hinp]
    exact List.mem_map.mpr ⟨image, himg, rfl⟩
  · intro hs
    rw [← hspo, hinp]
    exact sample_pass_offset_lt fs path image ho l hl (by rw [hhas]; exact hs)

/-- The theorem `merge_pixels_index_safety_bounded` on the file "w" of `wide_fs`, two
pixels of three channels (average, copy, sum): the accesses `merge_pixels` makes, each
with index and array size, and the bounds the theorem gives for them. -/
theorem merge_pixels_index_safety_bounded_witness :
    merge_pixels_accesses (merge_channels_metadata example_time [image_of wide_fs "w".toList]).1
        (merge_channels_metadata example_time [image_of wide_fs "w".toList]).2
        (read_layer_samples_machine [image_of wide_fs "w".toList] []) =
      ([Access.layer_lookup true,
        Access.per_pixel 0 2, Access.source 0 6, Access.destination 0 6,
        Access.per_pixel 1 2, Access.source 3 6, Access.destination 3 6,
        Access.source 1 6, Access.destination 1 6, Access.source 4 6, Access.destination 4 6,
        Access.source 2 6, Access.destination 2 6, Access.source 5 6, Access.destination 5 6],
       true) ∧
    ∃ w h, (∀ image ∈ [image_of wide_fs "w".toList],
        image.inp.spec.width = w ∧ image.inp.spec.height = h) ∧
      ∀ a ∈ (merge_pixels_accesses
          (merge_channels_metadata example_time [image_of wide_fs "w".toList]).1
          (merge_channels_metadata example_time [image_of wide_fs "w".toList]).2
          (read_layer_samples_machine [image_of wide_fs "w".toList] [])).1,
        a.in_bounds ∧
        a.sized (w * h)
          ([image_of wide_fs "w".toList].map (fun image => image.inp.spec.nchannels))
          (merge_channels_metadata example_time [image_of wide_fs "w".toList]).2.nchannels :=
  ⟨by decide!,
    merge_pixels_index_safety_bounded example_time wide_fs ["w".toList]
      [image_of wide_fs "w".toList] (by rfl)
      (fun image h => by rw [List.mem_singleton.mp h]; decide)⟩

/-! ## Index safety beyond the range of `int` -/

/-- The accesses of the first iteration are accesses of the loop, when the first offset
is inside the buffer. -/
theorem pixel_loop_accesses_first (num stride os : Nat)
    (body : Nat → Nat → Nat → Nat → List Access) (fuel i offset spo oo : Nat) (a : Access)
    (hfuel : 0 < fuel) (hoff : offset < num) (ha : a ∈ body i offset spo oo) :
    a ∈ pixel_loop_accesses num stride os body fuel i offset spo oo := by
  cases fuel with
  | zero => omega
  | succ fuel =>
    unfold pixel_loop_accesses
    rw [if_pos hoff]
    exact List.mem_append_left _ ha

/-- The accesses of the first pass are accesses of the pass loop. -/
theorem mem_merge_passes_accesses_head (ls : List (List Char × SampleCount))
    (layer : MergeImageLayer) (stride os num out_size : Nat) (pass : MergeImagePass)
    (rest : List MergeImagePass) (a : Access)
    (h : a ∈ (merge_pass_accesses ls layer stride os num out_size pass).1) :
    a ∈ (merge_passes_accesses ls layer stride os num out_size (pass :: rest)).1 := by
  simp only [merge_passes_accesses]
  split_ifs
  · exact List.mem_append_left _ h
  · exact h

/-- The accesses of the passes of the first layer are accesses of the layer loop. -/
theorem mem_merge_layers_accesses_head (ls : List (List Char × SampleCount))
    (stride os num out_size : Nat) (layer : MergeImageLayer) (rest : List MergeImageLayer)
    (a : Access)
    (h : a ∈ (merge_passes_accesses ls layer stride os num out_size layer.passes).1) :
    a ∈ (merge_layers_accesses ls stride os num out_size (layer :: rest)).1 := by
  simp only [merge_layers_accesses]
  split_ifs
  · exact List.mem_append_left _ h
  · exact h

/-- The accesses of the layers of the first image are accesses of the image loop, when
the pixels of the image can be read. -/
theorem mem_merge_images_accesses_head (out_spec : ImageSpec)
    (ls : List (List Char × SampleCount)) (image : MergeImage) (rest : List MergeImage)
    (a : Access) (hdata : image.inp.data.isSome = true)
    (h : a ∈ (merge_layers_accesses ls image.inp.spec.nchannels out_spec.nchannels
      (alloc_pixels image.inp.spec) (alloc_pixels out_spec) image.layers).1) :
    a ∈ (merge_images_accesses out_spec ls (image :: rest)).1 := by
  have hi : a ∈ (merge_image_accesses out_spec ls image).1 := by
    unfold merge_image_accesses ImageInput.read_image
    obtain ⟨d, hd⟩ := Option.isSome_iff_exists.mp hdata
    simp only [hd]
    exact h
  simp only [merge_images_accesses]
  split_ifs
  · exact List.mem_append_left _ hi
  · exact hi

/-- The layers of the file "h" of `huge_fs` after `merge_channels_metadata`. -/
theorem huge_layers :
    (merge_channels_metadata example_time [image_of huge_fs "h".toList]).1 =
      [{ inp := (image_of huge_fs "h".toList).inp, filepath := "h".toList,
         layers := [{ name := "A".toList,
                      passes := [{ channel_name := "A.Combined.R".toList,
                                   name := "Combined".toList, format := 0,
                                   op := MERGE_CHANNEL_AVERAGE, offset := 0, merge_offset := 0 }],
                      samples := 1, has_sample_pass := false, sample_pass_offset := 0 }] }] := by
  rfl

/-- C21, evaluated at a failing input: the file "h" has 65536 x 65536 pixels of one
average-type channel of layer "A". `open_images` accepts it. The `int` product
`in_spec.width * in_spec.height` of `read_layer_samples` wraps to 0, so the per-pixel
buffer of "A" is resized to 0 values, while `alloc_pixels` gives the image buffer its
2^32 values. The first iteration of the average loop of `merge_pixels` then reads
`samples.per_pixel[0]` in an array of size 0. -/
theorem per_pixel_read_out_of_bounds :
    (open_images huge_fs ["h".toList] []).toOption.map (fun images =>
      images.flatMap (fun image => image.layers.map (fun l =>
        (l.name, l.samples, l.has_sample_pass)))) = some [("A".toList, 1, false)] ∧
    (open_images huge_fs ["h".toList] []).toOption.map (fun images =>
      images.flatMap (fun image => image.layers.flatMap (fun l =>
        l.passes.map (fun pass => (pass.channel_name, pass.op))))) =
      some [("A.Combined.R".toList, MERGE_CHANNEL_AVERAGE)] ∧
    to_size_t (int_mul huge_spec.width huge_spec.height) = 0 ∧
    alloc_pixels huge_spec = 4294967296 ∧
    (read_layer_samples_machine [image_of huge_fs "h".toList] []).lookup "A".toList =
      some { total := 1, per_pixel := [] } ∧
    Access.per_pixel 0 0 ∈ (merge_pixels_accesses
      (merge_channels_metadata example_time [image_of huge_fs "h".toList]).1
      (merge_channels_metadata example_time [image_of huge_fs "h".toList]).2
      (read_layer_samples_machine [image_of huge_fs "h".toList] [])).1 ∧
    ¬ (Access.per_pixel 0 0).in_bounds := by
  have hlk : (read_layer_samples_machine [image_of huge_fs "h".toList] []).lookup "A".toList =
      some { total := 1, per_pixel := [] } := by decide!
  refine ⟨by decide!, by decide!, by decide!, by decide!, hlk, ?_, fun h => Nat.lt_irrefl 0 h⟩
  rw [huge_layers]
  unfold merge_pixels_accesses
  apply mem_merge_images_accesses_head _ _ _ _ _ (by rfl)
  apply mem_merge_layers_accesses_head
  apply mem_merge_passes_accesses_head
  unfold merge_pass_accesses
  simp only [hlk]
  apply List.mem_cons_of_mem
  apply pixel_loop_accesses_first
  · decide
  · decide
  · exact List.mem_cons_self _ _

/-! ## Rounding and the order of the images -/

end CyclesMerge
